import Mathlib

/-!
Verification development for the normal-form partition-refinement engine.

The embedding models the canonical realization of the ordered-set abstraction
(src/set/usize.rs): the universe is the set of naturals below a size n, and a
map over the universe is a dense list indexed by key.  Elements are Nat,
colorings are lists of elements with depth-tagged bound offsets, exactly as in
src/coloring.rs.  Rust Vec sort_unstable is modelled with insertionSort (the
observable state never depends on the order of key-ties, and ties are removed
by sort_cells immediately after every keyed sort); Rust panics (unwrap on a
missing key, slice out of range, integer underflow) are modelled totally and
the corresponding preconditions appear as hypotheses of the theorems.
-/

namespace NF

/-- Sort a list of naturals ascending (Rust sort_unstable on a Vec of usize). -/
def sortNat (l : List Nat) : List Nat := l.insertionSort (· ≤ ·)

/-- Sort by a key function (Rust sort_unstable_by_key). -/
def sortByKey {C : Type} [LinearOrder C] (f : Nat → C) (l : List Nat) : List Nat :=
  l.insertionSort (fun a b => f a ≤ f b)

/-- Depth-tagged cut offset: struct Bound in src/coloring.rs. -/
structure Bound where
  offset : Nat
  depth : Nat
deriving Repr, DecidableEq

/-- Source PartialEq for Bound compares offsets only, ignoring depth. -/
def Bound.beqSrc (a b : Bound) : Bool := a.offset == b.offset

/-- Ordered coloring: struct Coloring in src/coloring.rs.  elements is the
partitioned set laid out by cell, bounds the ascending cut offsets. -/
structure Coloring where
  elements : List Nat
  bounds : List Bound
deriving Repr, DecidableEq

/-- Source PartialEq for Coloring (derived): elements equal and bounds equal,
where bounds are compared through Bound PartialEq, i.e. offsets only. -/
def Coloring.beqSrc (a b : Coloring) : Bool :=
  a.elements == b.elements && a.bounds.map Bound.offset == b.bounds.map Bound.offset

/-- Coloring::new, the unit coloring of the universe of size n. -/
def Coloring.unitOf (n : Nat) : Coloring :=
  { elements := sortNat (List.range n), bounds := [] }

/-- Coloring::len, the number of cells. -/
def Coloring.len (c : Coloring) : Nat := c.bounds.length + 1

/-- Coloring::is_unit. -/
def Coloring.is_unit (c : Coloring) : Bool := c.bounds.isEmpty

/-- Coloring::is_discrete. -/
def Coloring.is_discrete (c : Coloring) : Bool := c.len == c.elements.length

/-- Coloring::color_start. -/
def Coloring.color_start (c : Coloring) (i : Nat) : Option Nat :=
  if i = 0 then some 0 else (c.bounds.get? (i - 1)).map Bound.offset

/-- Coloring::get, the i-th cell as a slice of elements. -/
def Coloring.get (c : Coloring) (i : Nat) : Option (List Nat) :=
  match (if i = 0 then some 0 else (c.bounds.get? (i - 1)).map Bound.offset) with
  | none => none
  | some start =>
    match c.bounds.get? i with
    | some e => some ((c.elements.take e.offset).drop start)
    | none => some (c.elements.drop start)

/-- The list of all cells, in order: the Colors iterator materialized. -/
def Coloring.colorsList (c : Coloring) : List (List Nat) :=
  (List.range c.len).map (fun i => (c.get i).getD [])

/-- Coloring::color_index_of, linear scan for the cell containing an item. -/
def Coloring.color_index_of (c : Coloring) (item : Nat) : Option Nat :=
  (List.range c.len).find? (fun i => ((c.get i).getD []).contains item)

/-- Coloring::reset_bounds, zeroing every bound depth. -/
def Coloring.reset_bounds (c : Coloring) : Coloring :=
  { c with bounds := c.bounds.map (fun b => { b with depth := 0 }) }

/-- Helper for sort_cells: sort each segment delimited by the absolute offsets,
walking with a running previous offset exactly as the source does. -/
def sortSegs : List Nat → Nat → List Nat → List Nat
  | l, _, [] => sortNat l
  | l, prev, o :: rest => sortNat (l.take (o - prev)) ++ sortSegs (l.drop (o - prev)) o rest

/-- Coloring::sort_cells, restoring the within-cell order invariant. -/
def Coloring.sort_cells (c : Coloring) : Coloring :=
  { c with elements := sortSegs c.elements 0 (c.bounds.map Bound.offset) }

/-- Change points of a key along a list: offsets i+1 at which adjacent window
elements differ in key, as pushed by Coloring::from_map. -/
def changeOffsets {C : Type} [DecidableEq C] (key : Nat → C) : List Nat → Nat → List Nat
  | a :: b :: rest, i =>
    if key a ≠ key b then (i + 1) :: changeOffsets key (b :: rest) (i + 1)
    else changeOffsets key (b :: rest) (i + 1)
  | _, _ => []

/-- Coloring::from_map over the universe of size n: cells are the classes of
the color map, ordered by color value; the source then calls sort_cells. -/
def Coloring.from_map {C : Type} [LinearOrder C] [Inhabited C] (n : Nat) (map : List C) :
    Coloring :=
  let key : Nat → C := fun e => (map.get? e).getD default
  let elements := sortByKey key (List.range n)
  let bounds := (changeOffsets key elements 0).map (fun o => { offset := o, depth := 0 : Bound })
  Coloring.sort_cells { elements := elements, bounds := bounds }

/-- Reversible ordered coloring: struct ReversibleColoring in src/coloring.rs.
reverse is the dense map from element to its cell index, depth the nesting
level of scoped refinements. -/
structure ReversibleColoring where
  coloring : Coloring
  reverse : List Nat
  depth : Nat
deriving Repr, DecidableEq

/-- Source PartialEq for ReversibleColoring compares the colorings only. -/
def ReversibleColoring.beqSrc (a b : ReversibleColoring) : Bool :=
  a.coloring.beqSrc b.coloring

namespace ReversibleColoring

/-- ReversibleColoring::new over the universe of size n. -/
def newOf (n : Nat) : ReversibleColoring :=
  { coloring := Coloring.unitOf n
    reverse := (List.range n).map (fun _ => 0)
    depth := 0 }

/-- ReversibleColoring::from_coloring over the universe of size n: depths are
reset to 0 and the reverse index rebuilt by linear scan. -/
def from_coloring (n : Nat) (c : Coloring) : ReversibleColoring :=
  let c := c.reset_bounds
  { coloring := c
    reverse := (List.range n).map (fun i => (c.color_index_of i).getD 0)
    depth := 0 }

/-- ReversibleColoring::color_index_of, the O(1) reverse lookup. -/
def color_index_of (R : ReversibleColoring) (item : Nat) : Option Nat :=
  R.reverse.get? item

/-- ReversibleColoring::as_permutation: the reverse map, when discrete. -/
def as_permutation (R : ReversibleColoring) : Option (List Nat) :=
  if R.coloring.is_discrete then some R.reverse else none

/-- ReversibleColoring::individualize.  The source panics when the item is
outside the universe; the model then leaves the state unchanged (theorems
assume a valid item).  On a cell of size > 1 the item is swapped to the front,
the remainder re-sorted, a bound at the current depth inserted, and the
reverse index shifted. -/
def individualize (R : ReversibleColoring) (item : Nat) : ReversibleColoring :=
  let ci := (R.reverse.get? item).getD 0
  let cs := (R.coloring.color_start ci).getD 0
  let cell := (R.coloring.get ci).getD []
  if 1 < cell.length then
    { coloring :=
        { elements := R.coloring.elements.take cs
            ++ item :: sortNat (cell.erase item)
            ++ R.coloring.elements.drop (cs + cell.length)
          bounds := R.coloring.bounds.insertIdx ci { offset := cs + 1, depth := R.depth } }
      reverse := R.reverse.mapIdx (fun t c => if c < ci ∨ t = item then c else c + 1)
      depth := R.depth }
  else R

/-- ReversibleColoring::deindividualize: remove the bound after a singleton
cell that is not last, re-sort the merged cell, decrement the reverse index
beyond it. -/
def deindividualize (R : ReversibleColoring) (item : Nat) : ReversibleColoring :=
  let ci := (R.reverse.get? item).getD 0
  let cell := (R.coloring.get ci).getD []
  if cell.length = 1 ∧ ci < R.coloring.bounds.length then
    let c1 : Coloring := { elements := R.coloring.elements, bounds := R.coloring.bounds.eraseIdx ci }
    let cs := (c1.color_start ci).getD 0
    let merged := (c1.get ci).getD []
    { coloring :=
        { elements := c1.elements.take cs ++ sortNat merged ++ c1.elements.drop (cs + merged.length)
          bounds := c1.bounds }
      reverse := R.reverse.map (fun c => if c ≤ ci then c else c - 1)
      depth := R.depth }
  else R

/-- ReversibleColoring::begin: one more nesting level. -/
def begin (R : ReversibleColoring) : ReversibleColoring :=
  { R with depth := R.depth + 1 }

/-- Rebuild the reverse index by a sweep over the cells, as the retain_bounds
code does after removing bounds. -/
def rebuildReverse (c : Coloring) (rev : List Nat) : List Nat :=
  (List.range c.len).foldl
    (fun rev i => ((c.get i).getD []).foldl (fun rev u => rev.set u i) rev) rev

/-- ReversibleColoring::retain_bounds: filter the bounds; when the number of
cells changed, re-sort cells and rebuild the reverse index by sweep. -/
def retain_bounds (R : ReversibleColoring) (p : Bound → Bool) : ReversibleColoring :=
  let bounds2 := R.coloring.bounds.filter p
  if bounds2.length = R.coloring.bounds.length then R
  else
    let c2 := Coloring.sort_cells { elements := R.coloring.elements, bounds := bounds2 }
    { coloring := c2, reverse := rebuildReverse c2 R.reverse, depth := R.depth }

/-- ReversibleColoring::restore: drop to depth - n, removing every bound of
greater depth.  The source subtraction underflows (a panic in debug builds)
when n > depth; theorems assume n <= depth. -/
def restore (R : ReversibleColoring) (n : Nat) : ReversibleColoring :=
  let restored := R.depth - n
  let R2 := R.retain_bounds (fun b => b.depth ≤ restored)
  { R2 with depth := restored }

end ReversibleColoring

/-- Mutable state threaded through refine_with: the elements being reordered,
the new bounds vector being pushed to, the reverse index and the caller's
refined_colors vector. -/
structure RefSt where
  elements : List Nat
  bounds : List Bound
  reverse : List Nat
  refined : List Nat
deriving Repr, DecidableEq

/-- Bookkeeping at the end of refine_color when the cell index changed: the
first entry among the pre-existing (first alreadyLen) refined_colors equal to
the old index is rewritten to the new index; otherwise the new index is
appended. -/
def updateRefined (refined : List Nat) (alreadyLen oldIdx newIdx : Nat) : List Nat :=
  match (refined.take alreadyLen).findIdx? (· == oldIdx) with
  | some j => refined.set j newIdx
  | none => refined ++ [newIdx]

/-- Window walk of refine_color: for each adjacent pair of the key-sorted cell,
a key change pushes the current new index to refined_colors, increments it and
pushes a bound at the current depth; the right element of the window is then
recorded in the reverse index under the current new index. -/
def refineWalk {C : Type} [DecidableEq C] (key : Nat → C) (depth start : Nat) :
    List Nat → Nat → Nat → RefSt → RefSt × Nat
  | a :: b :: rest, i, newIdx, st =>
    if key a ≠ key b then
      let st : RefSt := { st with refined := st.refined ++ [newIdx]
                                  bounds := st.bounds ++ [{ offset := start + i + 1, depth := depth }] }
      let newIdx := newIdx + 1
      let st : RefSt := { st with reverse := st.reverse.set b newIdx }
      refineWalk key depth start (b :: rest) (i + 1) newIdx st
    else
      let st : RefSt := { st with reverse := st.reverse.set b newIdx }
      refineWalk key depth start (b :: rest) (i + 1) newIdx st
  | _, _, newIdx, st => (st, newIdx)

/-- Reverse-index writes performed by the window walk of refine_color, as a
standalone recursion on the sorted cell: the right element of each window is
recorded under the running new index, which steps at every key change. -/
def walkReverse {C : Type} [DecidableEq C] (key : Nat → C) :
    List Nat → Nat → List Nat → List Nat
  | a :: b :: rest, newIdx, rev =>
    if key a ≠ key b then walkReverse key (b :: rest) (newIdx + 1) (rev.set b (newIdx + 1))
    else walkReverse key (b :: rest) newIdx (rev.set b newIdx)
  | _, _, rev => rev

/-- The k new cell indices pushed to refined_colors by the window walk,
starting at newIdx. -/
def walkRefined (k newIdx : Nat) : List Nat :=
  (List.range k).map (fun q => newIdx + q)

/-- refine_color of src/coloring.rs: sort one cell range by key, record the
sub-cells, then fix up refined_colors for the shifted or split old index.  An
empty range makes the source panic on indexing; the model skips the head
write. -/
def refine_color {C : Type} [LinearOrder C] (key : Nat → C) (depth alreadyLen : Nat)
    (start cellLen oldIdx newIdx : Nat) (st : RefSt) : RefSt × Nat :=
  let seg := (st.elements.drop start).take cellLen
  let sorted := sortByKey key seg
  let st := { st with elements := st.elements.take start ++ sorted ++ st.elements.drop (start + cellLen) }
  let st := match sorted with
    | [] => st
    | h :: _ => { st with reverse := st.reverse.set h newIdx }
  let (st, newIdx2) := refineWalk key depth start sorted 0 newIdx st
  let st :=
    if oldIdx ≠ newIdx2 then { st with refined := updateRefined st.refined alreadyLen oldIdx newIdx2 }
    else st
  (st, newIdx2)

/-- The loop of refine_with over the old bounds: each old cell is refined,
then the old bound is pushed back (keeping its depth); the final open range is
refined last. -/
def refineLoop {C : Type} [LinearOrder C] (key : Nat → C) (depth alreadyLen : Nat) :
    List Bound → Nat → Nat → Nat → RefSt → RefSt
  | [], start, oldIdx, newIdx, st =>
    (refine_color key depth alreadyLen start (st.elements.length - start) oldIdx newIdx st).1
  | e :: rest, start, oldIdx, newIdx, st =>
    let (st, newIdx2) := refine_color key depth alreadyLen start (e.offset - start) oldIdx newIdx st
    let st := { st with bounds := st.bounds ++ [e] }
    refineLoop key depth alreadyLen rest e.offset (oldIdx + 1) (newIdx2 + 1) st

namespace ReversibleColoring

/-- ReversibleColoring::refine_with.  Returns the new state, the updated
refined_colors vector, and whether the number of cells grew. -/
def refine_with {C : Type} [LinearOrder C] (R : ReversibleColoring) (refined : List Nat)
    (key : Nat → C) : ReversibleColoring × List Nat × Bool :=
  let alreadyLen := refined.length
  let len0 := R.coloring.len
  let st : RefSt := { elements := R.coloring.elements, bounds := [], reverse := R.reverse, refined := refined }
  let st := refineLoop key R.depth alreadyLen R.coloring.bounds 0 0 0 st
  let c2 := Coloring.sort_cells { elements := st.elements, bounds := st.bounds }
  let R2 : ReversibleColoring := { coloring := c2, reverse := st.reverse, depth := R.depth }
  (R2, st.refined, decide (R2.coloring.len ≠ len0))

/-- ReversibleColoring::refine. -/
def refine {C : Type} [LinearOrder C] (R : ReversibleColoring) (key : Nat → C) :
    ReversibleColoring × Bool :=
  let r := R.refine_with [] key
  (r.1, r.2.2)

/-- One iteration of the make_equitable_with loop: pop the last color of the
worklist, count for every element of the universe its neighbors inside that
color, and refine by the counts, letting refine_with update the worklist.
The scratch map of the source holds the counts; it is overwritten wholesale at
every iteration, so the model recomputes it.  The source keys the refinement
by Option-valued map lookups which are always Some on universe elements. -/
def equitableStep (neighbors : Nat → List Nat) (R : ReversibleColoring) (stack : List Nat) :
    ReversibleColoring × List Nat :=
  match stack.getLast? with
  | none => (R, stack)
  | some color =>
    let stack := stack.dropLast
    let cmap := (List.range R.reverse.length).map
      (fun i => (neighbors i).countP (fun j => ((R.reverse.get? j).getD 0) == color))
    let r := R.refine_with stack (fun i => (cmap.get? i).getD 0)
    (r.1, r.2.1)

/-- The while loop of make_equitable_with, fuel-indexed: loop while the
worklist is nonempty and the coloring is not discrete.  None means the fuel
ran out before the loop exited. -/
def equitableLoop (neighbors : Nat → List Nat) :
    Nat → ReversibleColoring × List Nat → Option (ReversibleColoring × List Nat)
  | fuel, (R, stack) =>
    if stack.isEmpty || R.coloring.is_discrete then some (R, stack)
    else
      match fuel with
      | 0 => none
      | fuel + 1 => equitableLoop neighbors fuel (equitableStep neighbors R stack)

/-- ReversibleColoring::make_equitable_with: clear the worklist, seed it with
every cell index, loop, and clear it again on exit.  Fuel-indexed; a
sufficient fuel for every invariant-satisfying state is proved separately. -/
def make_equitable_with (fuel : Nat) (R : ReversibleColoring) (neighbors : Nat → List Nat) :
    Option (ReversibleColoring × List Nat) :=
  (equitableLoop neighbors fuel (R, List.range R.coloring.len)).map (fun p => (p.1, ([] : List Nat)))

/-- Fuel that suffices for make_equitable on every state satisfying the
coloring invariants (proved with the termination theorem). -/
def equitableFuel (R : ReversibleColoring) : Nat :=
  (R.reverse.length + 1) * (2 * R.reverse.length + 3) + 2

/-- ReversibleColoring::make_equitable. -/
def make_equitable (R : ReversibleColoring) (neighbors : Nat → List Nat) :
    Option (ReversibleColoring × List Nat) :=
  make_equitable_with (equitableFuel R) R neighbors

end ReversibleColoring

/-- Search node: struct Node in src/tree.rs, a path of individualization
choices with the resulting coloring. -/
structure Node where
  path : List Nat
  coloring : ReversibleColoring
deriving Repr, DecidableEq

namespace Node

/-- Node::root. -/
def root (R : ReversibleColoring) : Node := { path := [], coloring := R }

/-- Node::children_color: the first cell of size above one, None on a
discrete coloring. -/
def children_color (nd : Node) : Option (List Nat) :=
  nd.coloring.coloring.colorsList.find? (fun c => 1 < c.length)

/-- Node::restore: truncate the path and restore the coloring.  Source
truncation underflows when n exceeds the path length. -/
def restore (nd : Node) (n : Nat) : Node :=
  { path := nd.path.take (nd.path.length - n), coloring := nd.coloring.restore n }

/-- Node::individualize: begin a new depth, individualize the child, run the
refinement hook, push the child on the path. -/
def individualize (nd : Node) (child : Nat) (hook : ReversibleColoring → ReversibleColoring) :
    Node :=
  { path := nd.path ++ [child]
    coloring := hook ((nd.coloring.begin).individualize child) }

/-- Node::into_first_child_leaf, fuel-indexed: while some cell has more than
one element, individualize its first element. -/
def into_first_child_leaf (hook : ReversibleColoring → ReversibleColoring) :
    Nat → Node → Option Node
  | fuel, nd =>
    match nd.children_color with
    | none => some nd
    | some cell =>
      match fuel with
      | 0 => none
      | fuel + 1 => into_first_child_leaf hook fuel (nd.individualize (cell.headD 0) hook)

/-- Node::into_next_leaf, fuel-indexed.  The inner Some value is None when
the tree is exhausted.  The source finds the popped element in its restored
cell by binary search on the sorted cell, which is indexOf here. -/
def into_next_leaf (hook : ReversibleColoring → ReversibleColoring) :
    Nat → Node → Option (Option Node)
  | fuel, nd =>
    match nd.path.getLast? with
    | none => some none
    | some last =>
      let nd1 : Node := { path := nd.path.dropLast, coloring := nd.coloring.restore 1 }
      let ci := (nd1.coloring.reverse.get? last).getD 0
      let cell := (nd1.coloring.coloring.get ci).getD []
      let nsi := cell.indexOf last + 1
      match cell.get? nsi with
      | some next =>
        match fuel with
        | 0 => none
        | fuel + 1 => (into_first_child_leaf hook fuel (nd1.individualize next hook)).map some
      | none =>
        match fuel with
        | 0 => none
        | fuel + 1 => into_next_leaf hook fuel nd1

end Node

/-- Length of the longest common path of two lists: longest_common_prefix_len
in src/lib.rs. -/
def lcpLen : List Nat → List Nat → Nat
  | a :: as2, b :: bs => if a = b then lcpLen as2 bs + 1 else 0
  | _, _ => 0

/-- The user-supplied structure capability (trait Canonize, src/lib.rs) over
the canonical usize universe realization: universe size, initial color map,
refinement hook (refine_coloring with its cache folded in, as the contract
demands determinism), and morphism application taking the reverse map of a
discrete coloring. -/
structure Capability (C M : Type) where
  n : Nat
  initColoring : List C
  hook : ReversibleColoring → ReversibleColoring
  am : List Nat → M

/-- Lookup in the model of the BTreeMap of interned images. -/
def mapLookup {M A : Type} [DecidableEq M] (k : M) (l : List (M × A)) : Option A :=
  (l.find? (fun p => p.1 = k)).map (fun p => p.2)

/-- Sorted-by-key insertion into the model of the BTreeMap; only invoked on
absent keys. -/
def mapInsert {M A : Type} [LinearOrder M] (k : M) (v : A) : List (M × A) → List (M × A)
  | [] => [(k, v)]
  | (k2, v2) :: rest =>
    if k < k2 then (k, v) :: (k2, v2) :: rest else (k2, v2) :: mapInsert k v rest

/-- Outcome of the fuel-indexed canonize model: a result, fuel exhaustion, or
a state on which the source panics (0: as_permutation on a non-leaf, 1: the
pruning restore would underflow the path length or the depth, 2: empty image
map at exit). -/
inductive CanonOut (M : Type) where
  | ok : M → List Nat → CanonOut M
  | fuelOut : CanonOut M
  | panicked : Nat → CanonOut M
deriving Repr, DecidableEq

/-- The canonize driver loop of src/lib.rs: intern each leaf image; on a
collision prune back to just below the longest common prefix of the two
paths; advance to the next leaf; at the end return the minimum entry. -/
def canonLoop {C M : Type} [LinearOrder C] [LinearOrder M] (G : Capability C M) :
    Nat → Option Node → List (M × (List Nat × List Nat)) → CanonOut M
  | _, none, images =>
    match images with
    | [] => .panicked 2
    | (m, (_, p)) :: _ => .ok m p
  | fuel, some nd, images =>
    match fuel with
    | 0 => .fuelOut
    | fuel + 1 =>
      match nd.coloring.as_permutation with
      | none => .panicked 0
      | some perm =>
        let morphed := G.am perm
        match mapLookup morphed images with
        | some pp =>
          let len := nd.path.length
          let pl := lcpLen nd.path pp.1
          if pl < len ∧ len - pl - 1 ≤ nd.coloring.depth then
            let nd2 := nd.restore (len - pl - 1)
            match nd2.into_next_leaf G.hook fuel with
            | none => .fuelOut
            | some next => canonLoop G fuel next images
          else .panicked 1
        | none =>
          let images2 := mapInsert morphed (nd.path, perm) images
          match nd.into_next_leaf G.hook fuel with
          | none => .fuelOut
          | some next => canonLoop G fuel next images2

/-- Canonize::canonize, fuel-indexed: build the root coloring from the
initial color map, descend to the first leaf, and run the interning loop. -/
def canonizeFuel {C M : Type} [LinearOrder C] [LinearOrder M] [Inhabited C]
    (G : Capability C M) (fuel : Nat) : CanonOut M :=
  let R0 := ReversibleColoring.from_coloring G.n (Coloring.from_map G.n G.initColoring)
  match (Node.root R0).into_first_child_leaf G.hook fuel with
  | none => .fuelOut
  | some leaf => canonLoop G fuel (some leaf) []

/-- Equitability of a reversible coloring with respect to a neighbors
function, exactly as property P8 of the specification states it: any two
members of one cell have equally many neighbors of reverse index d, for every
cell index d. -/
def equitableB (R : ReversibleColoring) (nb : Nat → List Nat) : Bool :=
  R.coloring.colorsList.all (fun cell =>
    (List.range R.coloring.len).all (fun d =>
      match cell with
      | [] => true
      | u :: rest => rest.all (fun v =>
          ((nb u).countP (fun w => (R.reverse.get? w).getD 0 == d)) ==
          ((nb v).countP (fun w => (R.reverse.get? w).getD 0 == d)))))

/-- Bound offsets of a coloring. -/
def Coloring.offs (c : Coloring) : List Nat := c.bounds.map Bound.offset

/-- Cut positions of a coloring: cutOf 0 = 0, cutOf i is the offset of bound
i-1 for inner cuts, and the total element count beyond the bounds. -/
def Coloring.cutOf (c : Coloring) (i : Nat) : Nat :=
  if i = 0 then 0
  else if h : i - 1 < c.bounds.length then (c.bounds.get ⟨i - 1, h⟩).offset
  else c.elements.length

/-- The i-th cell of a coloring as a take-drop slice of the elements. -/
def Coloring.cellAt (c : Coloring) (i : Nat) : List Nat :=
  (c.elements.take (c.cutOf (i + 1))).drop (c.cutOf i)

/-- The coloring invariants of the specification, for a universe of size n:
P1 the elements are a permutation of the universe; P3 bound offsets strictly
increase and stay inside the element range (so cells are nonempty); P2 every
cell is strictly increasing; P4 the reverse index maps every element of a
cell to the index of that cell; and the reverse map covers exactly the
universe. -/
structure ColInv (n : Nat) (R : ReversibleColoring) : Prop where
  revLen : R.reverse.length = n
  elemsPerm : R.coloring.elements.Perm (List.range n)
  offsMono : List.Chain' (· < ·) (0 :: R.coloring.offs)
  offsBounded : ∀ o ∈ R.coloring.offs, o < n
  cellsSorted : ∀ i < R.coloring.len, List.Sorted (· < ·) ((R.coloring.get i).getD [])
  revCorrect : ∀ i < R.coloring.len, ∀ u ∈ (R.coloring.get i).getD [], R.reverse.get? u = some i

/-- Well-formedness of a bare coloring over a universe of size n: elements a
permutation of the universe, offsets strictly increasing and below n. -/
structure WFc (n : Nat) (c : Coloring) : Prop where
  perm : c.elements.Perm (List.range n)
  mono : List.Chain' (· < ·) (0 :: c.offs)
  bounded : ∀ o ∈ c.offs, o < n

/-- Cumulative cut offsets of a cell decomposition, starting at prev; one cut
per boundary between adjacent cells. -/
def cumCuts (prev : Nat) : List (List Nat) → List Nat
  | [] => []
  | [_] => []
  | c :: rest => (prev + c.length) :: cumCuts (prev + c.length) rest

/-!  Theorems. -/

theorem Coloring.get_eq_cellAt (c : Coloring) (i : Nat) (h : i < c.len) :
    c.get i = some (c.cellAt i) := by
  have hb : i ≤ c.bounds.length := Nat.lt_succ_iff.mp h
  unfold Coloring.get Coloring.cellAt Coloring.cutOf
  rcases i with _ | j
  · simp only [if_pos rfl, List.drop_zero]
    cases h0 : c.bounds.get? 0 with
    | none =>
      have hl : c.bounds.length = 0 := Nat.le_zero.mp (List.get?_eq_none.mp h0)
      simp [hl, List.take_length]
    | some b =>
      have hl : 0 < c.bounds.length := by
        by_contra hc
        rw [List.get?_eq_none.mpr (Nat.le_of_not_lt hc)] at h0
        exact Option.noConfusion h0
      have hbv : c.bounds.get ⟨0, hl⟩ = b := by
        rw [List.get?_eq_get hl] at h0
        exact Option.some.inj h0
      rw [List.get_eq_getElem] at hbv
      simp [h0, hl, hbv]
  · have hj : j < c.bounds.length := by omega
    have hbj : c.bounds.get? j = some (c.bounds.get ⟨j, hj⟩) := List.get?_eq_get hj
    simp only [hbj, if_neg (Nat.succ_ne_zero j), Option.map_some, Nat.succ_sub_one]
    cases h1 : c.bounds.get? (j + 1) with
    | none =>
      have hl : c.bounds.length = j + 1 := by
        have := List.get?_eq_none.mp h1
        omega
      simp [hl, List.take_length, dif_pos hj]
    | some e =>
      have he : j + 1 < c.bounds.length := by
        by_contra hc
        rw [List.get?_eq_none.mpr (Nat.le_of_not_lt hc)] at h1
        exact Option.noConfusion h1
      have he2 : c.bounds.get ⟨j + 1, he⟩ = e := by
        rw [List.get?_eq_get he] at h1
        exact Option.some.inj h1
      rw [List.get_eq_getElem] at he2
      simp [he, he2, dif_pos hj]

theorem Coloring.colorsList_length (c : Coloring) : c.colorsList.length = c.len := by
  simp [Coloring.colorsList]

theorem Coloring.colorsList_eq_map (c : Coloring) :
    c.colorsList = (List.range c.len).map (fun i => c.cellAt i) := by
  unfold Coloring.colorsList
  apply List.map_congr_left
  intro i hi
  rw [c.get_eq_cellAt i (List.mem_range.mp hi)]
  rfl

theorem Coloring.colorsList_get (c : Coloring) (i : Nat) (h : i < c.len) :
    c.colorsList.get? i = some (c.cellAt i) := by
  rw [c.colorsList_eq_map]
  rw [List.get?_eq_getElem?]
  simp [List.getElem?_map, List.getElem?_range h]

theorem Coloring.mem_colorsList (c : Coloring) (i : Nat) (h : i < c.len) :
    c.cellAt i ∈ c.colorsList := by
  exact List.get?_mem (c.colorsList_get i h)

/-- Stepwise monotone functions are monotone. -/
theorem step_mono_le (f : Nat → Nat) (k : Nat) (h : ∀ i, i < k → f i ≤ f (i + 1)) :
    ∀ i j, i ≤ j → j ≤ k → f i ≤ f j := by
  intro i j hij hjk
  induction j with
  | zero => simp_all
  | succ j2 ih =>
    rcases Nat.lt_or_ge i (j2 + 1) with hlt | hge
    · exact le_trans (ih (by omega) (by omega)) (h j2 (by omega))
    · have : i = j2 + 1 := by omega
      simp [this]

/-- Joining the slices of a list at the cut positions of a stepwise monotone
cut function recovers the list. -/
theorem join_slices {α : Type} (l : List α) (f : Nat → Nat) :
    ∀ k, (∀ i, i < k → f i ≤ f (i + 1)) → f 0 = 0 → f k = l.length →
      ((List.range k).map (fun i => (l.take (f (i + 1))).drop (f i))).flatten = l := by
  intro k
  induction k generalizing l with
  | zero =>
    intro _ h0 hk
    have : l = [] := List.length_eq_zero.mp (by omega)
    simp [this]
  | succ k ih =>
    intro hstep h0 hk
    have hfk : f k ≤ l.length := by
      rw [← hk]
      exact hstep k (Nat.lt_succ_self k)
    have htail : (l.take (f (k + 1))).drop (f k) = l.drop (f k) := by
      rw [hk, List.take_length]
    rw [List.range_succ, List.map_append, List.flatten_append]
    have hslice : ∀ i ∈ List.range k,
        ((l.take (f k)).take (f (i + 1))).drop (f i) = (l.take (f (i + 1))).drop (f i) := by
      intro i hi
      have hik : i < k := List.mem_range.mp hi
      have : f (i + 1) ≤ f k :=
        step_mono_le f (k + 1) hstep (i + 1) k (by omega) (by omega)
      rw [List.take_take, Nat.min_eq_left this]
    have hihres := ih (l.take (f k)) (fun i hik => hstep i (by omega)) h0
      (by rw [List.length_take]; omega)
    calc ((List.range k).map (fun i => (l.take (f (i + 1))).drop (f i))).flatten
        ++ ([k].map (fun i => (l.take (f (i + 1))).drop (f i))).flatten
        = ((List.range k).map (fun i => ((l.take (f k)).take (f (i + 1))).drop (f i))).flatten
          ++ l.drop (f k) := by
          rw [List.map_congr_left (fun i hi => (hslice i hi).symm)]
          simp [htail]
      _ = l.take (f k) ++ l.drop (f k) := by rw [hihres]
      _ = l := List.take_append_drop _ l

namespace WFc

theorem elems_len {n : Nat} {c : Coloring} (h : WFc n c) : c.elements.length = n := by
  simpa using h.perm.length_eq

theorem offs_get_lt {n : Nat} {c : Coloring} (h : WFc n c) {i j : Nat}
    (hij : i < j) (hj : j < c.offs.length) :
    c.offs.getD i 0 < c.offs.getD j 0 := by
  have hp : List.Pairwise (· < ·) (0 :: c.offs) := List.chain'_iff_pairwise.mp h.mono
  have hp2 : List.Pairwise (· < ·) c.offs := (List.pairwise_cons.mp hp).2
  have hi : i < c.offs.length := by omega
  have := List.pairwise_iff_get.mp hp2 ⟨i, hi⟩ ⟨j, hj⟩ hij
  rwa [List.getD_eq_get _ _ hi, List.getD_eq_get _ _ hj]

theorem offs_pos {n : Nat} {c : Coloring} (h : WFc n c) {i : Nat}
    (hi : i < c.offs.length) : 0 < c.offs.getD i 0 := by
  have hp : List.Pairwise (· < ·) (0 :: c.offs) := List.chain'_iff_pairwise.mp h.mono
  have := (List.pairwise_cons.mp hp).1 (c.offs.getD i 0) ?_
  · exact this
  · rw [List.getD_eq_get _ _ hi]
    exact List.get_mem _ _ _

theorem cut_zero (c : Coloring) : c.cutOf 0 = 0 := by simp [Coloring.cutOf]

theorem cut_le_cut {n : Nat} {c : Coloring} (h : WFc n c) :
    ∀ i j, i ≤ j → c.cutOf i ≤ c.cutOf j := by
  have hlen : c.offs.length = c.bounds.length := by simp [Coloring.offs]
  have hstep : ∀ i, c.cutOf i ≤ c.cutOf (i + 1) := by
    intro i
    rcases i with _ | j
    · rw [cut_zero c]
      exact Nat.zero_le _
    · unfold Coloring.cutOf
      simp only [if_neg (Nat.succ_ne_zero j), if_neg (Nat.succ_ne_zero (j + 1)),
        Nat.succ_sub_one]
      split
      · next h1 =>
        split
        · next h2 =>
          have := h.offs_get_lt (i := j) (j := j + 1) (Nat.lt_succ_self j) (by omega)
          rw [List.getD_eq_get _ _ (by omega : j < c.offs.length),
            List.getD_eq_get _ _ (by omega : j + 1 < c.offs.length)] at this
          simp only [Coloring.offs, List.get_map] at this
          exact Nat.le_of_lt this
        · next h2 =>
          have hjlt : j < c.offs.length := by omega
          have := h.bounded (c.offs.getD j 0) (by
            rw [List.getD_eq_get _ _ hjlt]
            exact List.get_mem _ _ _)
          rw [List.getD_eq_get _ _ hjlt] at this
          simp only [Coloring.offs, List.get_map] at this
          rw [h.elems_len]
          exact Nat.le_of_lt this
      · next h1 =>
        split
        · next h2 => omega
        · exact Nat.le_refl _
  intro i j hij
  induction j with
  | zero => simp_all
  | succ j2 ih =>
    rcases Nat.lt_or_ge i (j2 + 1) with hlt | hge
    · exact le_trans (ih (by omega)) (hstep j2)
    · have : i = j2 + 1 := by omega
      simp [this]

theorem cut_len {n : Nat} {c : Coloring} (h : WFc n c) : c.cutOf c.len = n := by
  unfold Coloring.cutOf Coloring.len
  rw [if_neg (Nat.succ_ne_zero _), dif_neg (by omega), h.elems_len]

theorem join_colorsList {n : Nat} {c : Coloring} (h : WFc n c) :
    c.colorsList.flatten = c.elements := by
  have := join_slices c.elements c.cutOf c.len
    (fun i _ => h.cut_le_cut i (i + 1) (Nat.le_succ i)) (cut_zero c)
    (by rw [h.cut_len, h.elems_len])
  rw [c.colorsList_eq_map]
  exact this

end WFc

/-- C9: the cell accessor Coloring::get returns Some view exactly when the
index is below the number of cells, and None (no panic) on any out-of-range
index. -/
theorem C9_cell_access (c : Coloring) (i : Nat) : (c.get i).isSome ↔ i < c.len := by
  unfold Coloring.get Coloring.len
  rcases i with _ | j
  · cases h : c.bounds.get? 0 <;> simp [h]
  · simp only [Nat.succ_ne_zero, if_false, Nat.add_sub_cancel]
    cases h : c.bounds.get? j with
    | none =>
      have hlen : c.bounds.length ≤ j := List.get?_eq_none.mp h
      simp [h]
      omega
    | some b =>
      have hj : j < c.bounds.length := by
        by_contra hc
        rw [List.get?_eq_none.mpr (Nat.le_of_not_lt hc)] at h
        exact Option.noConfusion h
      cases h2 : c.bounds.get? (j + 1) <;> simp [h, h2] <;> omega

/-- C5 (code_bug evidence): refining the coloring with cells a = 0,1 and
b = 2,3 by a key that splits only a appends the index 2 of the unsplit cell b
to the touched vector, contradicting the refine_with documentation that an
unrefined cell is never added even when its index shifts. -/
theorem C5_refine_with_touches_unsplit_cell :
    (((ReversibleColoring.from_coloring 4 (Coloring.from_map 4 [0, 0, 1, 1])).refine_with []
        (fun i => [0, 1, 0, 0].getD i 0)).2.1 = [0, 1, 2])
    ∧ (((ReversibleColoring.from_coloring 4 (Coloring.from_map 4 [0, 0, 1, 1])).refine_with []
        (fun i => [0, 1, 0, 0].getD i 0)).1.coloring.colorsList = [[0], [1], [2, 3]]) := by
  constructor <;> decide

/-- C4 (counterexample): on the coloring with cells 0 and 1,2, the sequence
begin; deindividualize 0; restore 1 does not return to the state before
begin, because deindividualize removed a bound of lower depth that restore
cannot recreate: the claim fails for operation sequences that contain
deindividualize. -/
theorem C4_deindividualize_not_restored :
    (((ReversibleColoring.from_coloring 3 (Coloring.from_map 3 [0, 1, 1])).begin.deindividualize
          0).restore 1).beqSrc
      (ReversibleColoring.from_coloring 3 (Coloring.from_map 3 [0, 1, 1])) = false := by
  decide

theorem sortSegs_of_cells :
    ∀ (cells : List (List Nat)) (prev : Nat), cells ≠ [] →
      sortSegs cells.flatten prev (cumCuts prev cells) = (cells.map sortNat).flatten := by
  intro cells
  induction cells with
  | nil => intro prev h; exact absurd rfl h
  | cons c rest ih =>
    intro prev _
    cases rest with
    | nil => simp [cumCuts, sortSegs]
    | cons c2 rest2 =>
      have hne : c2 :: rest2 ≠ [] := by simp
      show sortSegs (c ++ (c2 :: rest2).flatten) prev
          ((prev + c.length) :: cumCuts (prev + c.length) (c2 :: rest2)) = _
      rw [sortSegs]
      have h1 : prev + c.length - prev = c.length := by omega
      rw [h1, List.take_left, List.drop_left, ih (prev + c.length) hne]
      simp

theorem cumCuts_get? :
    ∀ (cells : List (List Nat)) (prev i : Nat),
      (cumCuts prev cells).get? i =
        if i + 1 < cells.length then some (prev + ((cells.take (i + 1)).map List.length).sum)
        else none := by
  intro cells
  induction cells with
  | nil => intro prev i; simp [cumCuts]
  | cons c rest ih =>
    intro prev i
    cases rest with
    | nil => simp [cumCuts]
    | cons c2 rest2 =>
      show ((prev + c.length) :: cumCuts (prev + c.length) (c2 :: rest2)).get? i = _
      cases i with
      | zero => simp
      | succ j =>
        rw [List.get?_cons_succ, ih (prev + c.length) j]
        by_cases hj : j + 1 < (c2 :: rest2).length
        · rw [if_pos hj, if_pos (by simpa using Nat.succ_lt_succ hj)]
          simp [Nat.add_assoc]
        · rw [if_neg hj, if_neg (by simpa using fun h => hj (Nat.lt_of_succ_lt_succ h))]

namespace WFc

theorem cellAt_length {n : Nat} {c : Coloring} (h : WFc n c) {i : Nat} (hi : i < c.len) :
    (c.cellAt i).length = c.cutOf (i + 1) - c.cutOf i := by
  have h1 : c.cutOf (i + 1) ≤ c.elements.length := by
    rw [h.elems_len]
    have := h.cut_le_cut (i + 1) c.len hi
    rwa [h.cut_len] at this
  unfold Coloring.cellAt
  rw [List.length_drop, List.length_take]
  omega

theorem sum_cells_take {n : Nat} {c : Coloring} (h : WFc n c) :
    ∀ i, i ≤ c.len → ((c.colorsList.take i).map List.length).sum = c.cutOf i := by
  intro i
  induction i with
  | zero => intro _; simp [cut_zero]
  | succ j ih =>
    intro hj
    have hjlt : j < c.len := by omega
    have hjl : j < c.colorsList.length := by rwa [c.colorsList_length]
    have htake : c.colorsList.take (j + 1) = c.colorsList.take j ++ [c.cellAt j] := by
      rw [← List.take_concat_get _ _ hjl, List.concat_eq_append]
      congr 2
      have := c.colorsList_get j hjlt
      rw [List.get?_eq_getElem?, List.getElem?_eq_getElem hjl] at this
      exact Option.some.inj this
    rw [htake, List.map_append, List.sum_append, ih (by omega)]
    simp [h.cellAt_length hjlt]
    have := h.cut_le_cut j (j + 1) (Nat.le_succ j)
    omega

theorem cumCuts_colorsList {n : Nat} {c : Coloring} (h : WFc n c) :
    cumCuts 0 c.colorsList = c.offs := by
  apply List.ext_get?
  intro i
  rw [cumCuts_get?]
  rw [c.colorsList_length]
  by_cases hi : i + 1 < c.len
  · rw [if_pos hi]
    have hsum := h.sum_cells_take (i + 1) (by omega)
    rw [hsum]
    have hib : i < c.bounds.length := by
      unfold Coloring.len at hi
      omega
    have : c.offs.get? i = some (c.cutOf (i + 1)) := by
      rw [List.get?_eq_get (by simpa [Coloring.offs] using hib)]
      unfold Coloring.cutOf
      rw [if_neg (Nat.succ_ne_zero i), dif_pos (by simpa using hib)]
      simp [Coloring.offs]
    rw [this]
    simp
  · rw [if_neg hi]
    have : c.offs.length ≤ i := by
      unfold Coloring.len at hi
      simp only [Coloring.offs, List.length_map]
      omega
    exact (List.get?_eq_none.mpr this).symm

theorem sort_cells_elements {n : Nat} {c : Coloring} (h : WFc n c) :
    (c.sort_cells).elements = (c.colorsList.map sortNat).flatten := by
  show sortSegs c.elements 0 (c.bounds.map Bound.offset) = _
  have hne : c.colorsList ≠ [] := by
    have := c.colorsList_length
    intro hcon
    rw [hcon] at this
    simp [Coloring.len] at this
  have := sortSegs_of_cells c.colorsList 0 hne
  rw [h.join_colorsList, h.cumCuts_colorsList] at this
  exact this

end WFc

/-- Slicing a flattened list of parts at its own cumulative cut positions
returns the parts. -/
theorem flatten_slice {α : Type} :
    ∀ (ps : List (List α)) (f : Nat → Nat), f 0 = 0 →
      (∀ i, i < ps.length → f (i + 1) = f i + (ps.getD i []).length) →
      ∀ i, i < ps.length → (ps.flatten.take (f (i + 1))).drop (f i) = ps.getD i [] := by
  intro ps
  induction ps with
  | nil => intro f _ _ i hi; simp at hi
  | cons p rest ih =>
    intro f hf0 hstep i hi
    cases i with
    | zero =>
      have h1 : f 1 = p.length := by
        have := hstep 0 (by simp)
        simpa [hf0] using this
      rw [hf0, h1, List.drop_zero]
      show ((p ++ rest.flatten).take p.length) = p
      exact List.take_left p rest.flatten
    | succ j =>
      have hrest : j < rest.length := by simpa using hi
      have h10 : f 1 = p.length := by
        have h3 := hstep 0 (by simp)
        simp only [hf0, Nat.zero_add, List.getD_cons_zero] at h3
        exact h3
      have hmono : ∀ k, k ≤ rest.length → p.length ≤ f (k + 1) := by
        intro k
        induction k with
        | zero =>
          intro _
          simp only [Nat.zero_add]
          omega
        | succ m ihm =>
          intro hm
          have h3 := hstep (m + 1) (by simpa using hm)
          have h2 := ihm (by omega)
          omega
      have hgd : ∀ (k : Nat), ((p :: rest).getD (k + 1) ([] : List α)) = rest.getD k [] := by
        intro k
        rfl
      have hg := ih (fun k => f (k + 1) - p.length)
        (by
          show f (0 + 1) - p.length = 0
          simp only [Nat.zero_add]
          omega)
        (by
          intro k hk
          show f (k + 1 + 1) - p.length = (f (k + 1) - p.length) + (rest.getD k []).length
          have h3 := hstep (k + 1) (by simpa using hk)
          rw [hgd k] at h3
          have h2 := hmono k (by omega)
          omega)
        j hrest
      show ((p ++ rest.flatten).take (f (j + 2))).drop (f (j + 1)) = (p :: rest).getD (j + 1) []
      rw [hgd j]
      have h2 : f (j + 2) = p.length + (f (j + 2) - p.length) := by
        have h3 := hmono (j + 1) (by omega)
        have hb : j + 1 + 1 = j + 2 := by omega
        rw [hb] at h3
        omega
      have h1 : f (j + 1) = p.length + (f (j + 1) - p.length) := by
        have := hmono j (by omega)
        omega
      rw [h2, List.take_append, h1, List.drop_append]
      exact hg

theorem sortNat_perm (l : List Nat) : (sortNat l).Perm l := List.perm_insertionSort _ l

theorem sortNat_sorted (l : List Nat) : (sortNat l).Sorted (· ≤ ·) :=
  List.sorted_insertionSort _ l

theorem sorted_lt_of_le_nodup {l : List Nat} (hs : l.Sorted (· ≤ ·)) (hn : l.Nodup) :
    l.Sorted (· < ·) :=
  (hs.and hn).imp (fun h => lt_of_le_of_ne h.1 h.2)

theorem sortNat_eq_self {l : List Nat} (h : l.Sorted (· ≤ ·)) : sortNat l = l :=
  List.eq_of_perm_of_sorted (sortNat_perm l) (sortNat_sorted l) h

theorem flatten_map_sortNat_perm (cells : List (List Nat)) :
    (cells.map sortNat).flatten.Perm cells.flatten := by
  induction cells with
  | nil => simp
  | cons c rest ih =>
    simp only [List.map_cons, List.flatten_cons]
    exact (sortNat_perm c).append ih

namespace WFc

theorem elems_nodup {n : Nat} {c : Coloring} (h : WFc n c) : c.elements.Nodup :=
  h.perm.nodup_iff.mpr (List.nodup_range n)

theorem cellAt_sublist (c : Coloring) (i : Nat) : (c.cellAt i).Sublist c.elements :=
  (List.drop_sublist _ _).trans (List.take_sublist _ _)

theorem cellAt_nodup {n : Nat} {c : Coloring} (h : WFc n c) (i : Nat) :
    (c.cellAt i).Nodup :=
  h.elems_nodup.sublist (cellAt_sublist c i)

theorem mem_elements {n : Nat} {c : Coloring} (h : WFc n c) {u : Nat} :
    u ∈ c.elements ↔ u < n := by
  rw [h.perm.mem_iff]
  simp

theorem sort_cells_len (c : Coloring) : (c.sort_cells).len = c.len := rfl

theorem sort_cells_bounds (c : Coloring) : (c.sort_cells).bounds = c.bounds := rfl

theorem sort_cells_elements_perm {n : Nat} {c : Coloring} (h : WFc n c) :
    (c.sort_cells).elements.Perm c.elements := by
  rw [h.sort_cells_elements]
  have := flatten_map_sortNat_perm c.colorsList
  rwa [h.join_colorsList] at this

theorem sort_cells_cutOf {n : Nat} {c : Coloring} (h : WFc n c) (i : Nat) :
    (c.sort_cells).cutOf i = c.cutOf i := by
  unfold Coloring.cutOf
  rw [sort_cells_bounds]
  have : (c.sort_cells).elements.length = c.elements.length :=
    (h.sort_cells_elements_perm).length_eq
  rw [this]

theorem sort_cells_cellAt {n : Nat} {c : Coloring} (h : WFc n c) {i : Nat} (hi : i < c.len) :
    (c.sort_cells).cellAt i = sortNat (c.cellAt i) := by
  show ((c.sort_cells).elements.take ((c.sort_cells).cutOf (i + 1))).drop
      ((c.sort_cells).cutOf i) = sortNat (c.cellAt i)
  rw [h.sort_cells_cutOf, h.sort_cells_cutOf, h.sort_cells_elements]
  have hgd : (c.colorsList.map sortNat).getD i [] = sortNat (c.cellAt i) := by
    have hil : i < (c.colorsList.map sortNat).length := by
      rw [List.length_map, c.colorsList_length]
      exact hi
    rw [List.getD_eq_getElem _ _ hil, List.getElem_map]
    congr 1
    have := c.colorsList_get i hi
    rw [List.get?_eq_getElem?, List.getElem?_eq_getElem (by rwa [c.colorsList_length])] at this
    exact Option.some.inj this
  rw [← hgd]
  apply flatten_slice (c.colorsList.map sortNat) c.cutOf (cut_zero c)
  · intro j hj
    have hjlen : j < c.len := by
      rw [List.length_map, c.colorsList_length] at hj
      exact hj
    have hle := h.cut_le_cut j (j + 1) (Nat.le_succ j)
    have hlen2 : ((c.colorsList.map sortNat).getD j []).length = (c.cellAt j).length := by
      have hjl : j < (c.colorsList.map sortNat).length := hj
      rw [List.getD_eq_getElem _ _ hjl, List.getElem_map]
      have := c.colorsList_get j hjlen
      rw [List.get?_eq_getElem?,
        List.getElem?_eq_getElem (by rwa [c.colorsList_length])] at this
      rw [Option.some.inj this]
      exact (sortNat_perm _).length_eq
    rw [hlen2, h.cellAt_length hjlen]
    omega
  · rw [List.length_map, c.colorsList_length]
    exact hi

theorem sort_cells_wf {n : Nat} {c : Coloring} (h : WFc n c) : WFc n (c.sort_cells) :=
  { perm := (h.sort_cells_elements_perm).trans h.perm
    mono := by
      have : (c.sort_cells).offs = c.offs := by
        unfold Coloring.offs
        rw [sort_cells_bounds]
      rw [this]
      exact h.mono
    bounded := by
      have : (c.sort_cells).offs = c.offs := by
        unfold Coloring.offs
        rw [sort_cells_bounds]
      rw [this]
      exact h.bounded }

theorem sort_cells_sorted {n : Nat} {c : Coloring} (h : WFc n c) {i : Nat} (hi : i < c.len) :
    ((c.sort_cells).cellAt i).Sorted (· < ·) := by
  rw [h.sort_cells_cellAt hi]
  exact sorted_lt_of_le_nodup (sortNat_sorted _)
    ((sortNat_perm _).nodup_iff.mpr (h.cellAt_nodup i))

end WFc

theorem foldl_set_length (ws : List Nat) (i : Nat) :
    ∀ rev : List Nat, (ws.foldl (fun r u => r.set u i) rev).length = rev.length := by
  induction ws with
  | nil => intro rev; rfl
  | cons w rest ih =>
    intro rev
    simp only [List.foldl_cons]
    rw [ih, List.length_set]

theorem foldl_set_get_not_mem (ws : List Nat) (i u : Nat) (hu : u ∉ ws) :
    ∀ rev : List Nat, (ws.foldl (fun r v => r.set v i) rev).get? u = rev.get? u := by
  induction ws with
  | nil => intro rev; rfl
  | cons w rest ih =>
    intro rev
    simp only [List.foldl_cons]
    have hwu : w ≠ u := by
      intro hc
      subst hc
      exact hu (List.mem_cons_self _ _)
    rw [ih (fun h => hu (List.mem_cons_of_mem _ h)), List.get?_set_ne _ _ hwu]

theorem foldl_set_get_mem (ws : List Nat) (i u : Nat) (hu : u ∈ ws) :
    ∀ rev : List Nat, u < rev.length →
      (ws.foldl (fun r v => r.set v i) rev).get? u = some i := by
  induction ws with
  | nil => intro rev _; exact absurd hu (List.not_mem_nil u)
  | cons w rest ih =>
    intro rev hlen
    simp only [List.foldl_cons]
    by_cases hur : u ∈ rest
    · exact ih hur _ (by rwa [List.length_set])
    · have huw : w = u := by
        rcases List.mem_cons.mp hu with h | h
        · exact h.symm
        · exact absurd h hur
      rw [foldl_set_get_not_mem rest i u hur]
      subst huw
      rw [List.get?_eq_getElem?, List.getElem?_set_self hlen]

theorem foldl_cells_get_not_mem (c : Coloring) (u : Nat) :
    ∀ (is : List Nat), (∀ j ∈ is, u ∉ (c.get j).getD []) →
      ∀ rev : List Nat,
        (is.foldl (fun rev i => ((c.get i).getD []).foldl (fun r v => r.set v i) rev)
            rev).get? u = rev.get? u := by
  intro is
  induction is with
  | nil => intro _ rev; rfl
  | cons k rest ih =>
    intro hnot rev
    simp only [List.foldl_cons]
    rw [ih (fun m hm => hnot m (List.mem_cons_of_mem _ hm)),
      foldl_set_get_not_mem _ _ _ (hnot k (List.mem_cons_self _ _))]

/-- The sweep of retain_bounds writes the index of the cell containing u into
the reverse map, provided indices are processed without repetition and u sits
in exactly one processed cell. -/
theorem foldl_cells_get (c : Coloring) (u tgt : Nat) :
    ∀ (is : List Nat), is.Nodup → tgt ∈ is →
      (∀ j ∈ is, u ∈ (c.get j).getD [] ↔ j = tgt) →
      ∀ rev : List Nat, u < rev.length →
        (is.foldl (fun rev i => ((c.get i).getD []).foldl (fun r v => r.set v i) rev)
            rev).get? u = some tgt := by
  intro is
  induction is with
  | nil => intro _ htgt _ rev _; exact absurd htgt (List.not_mem_nil tgt)
  | cons j rest ih =>
    intro hnd htgt hiff rev hlen
    simp only [List.foldl_cons]
    by_cases hj : j = tgt
    · subst hj
      have hmem : u ∈ (c.get j).getD [] := (hiff j (List.mem_cons_self _ _)).mpr rfl
      have hnotrest : ∀ k ∈ rest, u ∉ (c.get k).getD [] := by
        intro k hk hmemk
        have := (hiff k (List.mem_cons_of_mem _ hk)).mp hmemk
        subst this
        exact (List.nodup_cons.mp hnd).1 hk
      rw [foldl_cells_get_not_mem c u rest hnotrest]
      exact foldl_set_get_mem _ j u hmem rev hlen
    · have htgt2 : tgt ∈ rest := by
        rcases List.mem_cons.mp htgt with h | h
        · exact absurd h.symm hj
        · exact h
      rw [ih (List.nodup_cons.mp hnd).2 htgt2
        (fun k hk => hiff k (List.mem_cons_of_mem _ hk)) _ ?hl]
      case hl =>
        rw [foldl_set_length]
        exact hlen

theorem rebuildReverse_length (c : Coloring) (rev : List Nat) :
    (ReversibleColoring.rebuildReverse c rev).length = rev.length := by
  unfold ReversibleColoring.rebuildReverse
  generalize List.range c.len = is
  induction is generalizing rev with
  | nil => rfl
  | cons j rest ih =>
    simp only [List.foldl_cons]
    rw [ih, foldl_set_length]

/-- Cells of a well-formed coloring are pairwise disjoint, so membership
determines the cell index. -/
theorem WFc.cell_index_unique {n : Nat} {c : Coloring} (h : WFc n c) {i j u : Nat}
    (hi : i < c.len) (hj : j < c.len) (hui : u ∈ c.cellAt i) (huj : u ∈ c.cellAt j) :
    i = j := by
  by_contra hne
  have hnodup : c.colorsList.flatten.Nodup := by
    rw [h.join_colorsList]
    exact h.elems_nodup
  have hpair := (List.nodup_flatten.mp hnodup).2
  have hgi : c.colorsList.get ⟨i, by rwa [c.colorsList_length]⟩ = c.cellAt i := by
    have := c.colorsList_get i hi
    rw [List.get?_eq_get (by rwa [c.colorsList_length])] at this
    exact Option.some.inj this
  have hgj : c.colorsList.get ⟨j, by rwa [c.colorsList_length]⟩ = c.cellAt j := by
    have := c.colorsList_get j hj
    rw [List.get?_eq_get (by rwa [c.colorsList_length])] at this
    exact Option.some.inj this
  rcases Nat.lt_or_ge i j with hlt | hge
  · have := List.pairwise_iff_get.mp hpair ⟨i, by rwa [c.colorsList_length]⟩
      ⟨j, by rwa [c.colorsList_length]⟩ hlt
    rw [hgi, hgj] at this
    exact this hui huj
  · have hlt2 : j < i := by omega
    have := List.pairwise_iff_get.mp hpair ⟨j, by rwa [c.colorsList_length]⟩
      ⟨i, by rwa [c.colorsList_length]⟩ hlt2
    rw [hgi, hgj] at this
    exact this huj hui

/-- Every universe element belongs to some cell of a well-formed coloring. -/
theorem WFc.exists_cell {n : Nat} {c : Coloring} (h : WFc n c) {u : Nat} (hu : u < n) :
    ∃ i, i < c.len ∧ u ∈ c.cellAt i := by
  have hmem : u ∈ c.colorsList.flatten := by
    rw [h.join_colorsList, h.mem_elements]
    exact hu
  rw [List.mem_flatten] at hmem
  obtain ⟨cell, hcell, hucell⟩ := hmem
  obtain ⟨⟨i, hil⟩, hget⟩ := List.mem_iff_get.mp hcell
  refine ⟨i, by rwa [c.colorsList_length] at hil, ?_⟩
  have := c.colorsList_get i (by rwa [c.colorsList_length] at hil)
  rw [List.get?_eq_get hil] at this
  rw [← Option.some.inj this, hget]
  exact hucell

theorem insertIdx_eq_take_cons_drop {α : Type} (x : α) :
    ∀ (n : Nat) (l : List α), n ≤ l.length →
      l.insertIdx n x = l.take n ++ x :: l.drop n := by
  intro n
  induction n with
  | zero => intro l _; simp [List.insertIdx_zero]
  | succ m ih =>
    intro l hl
    cases l with
    | nil => simp at hl
    | cons a rest =>
      rw [List.insertIdx_succ_cons, ih rest (by simpa using hl)]
      simp

namespace WFc

theorem flatten_take_cells {n : Nat} {c : Coloring} (h : WFc n c) {i : Nat} (hi : i ≤ c.len) :
    (c.colorsList.take i).flatten = c.elements.take (c.cutOf i) := by
  have hsplit : (c.colorsList.take i).flatten ++ (c.colorsList.drop i).flatten = c.elements := by
    rw [← List.flatten_append, List.take_append_drop]
    exact h.join_colorsList
  have hflen : ((c.colorsList.take i).flatten).length = c.cutOf i := by
    rw [List.length_flatten]
    have := h.sum_cells_take i hi
    simpa using this
  rw [← hsplit, List.take_left']
  exact hflen

theorem flatten_drop_cells {n : Nat} {c : Coloring} (h : WFc n c) {i : Nat} (hi : i ≤ c.len) :
    (c.colorsList.drop i).flatten = c.elements.drop (c.cutOf i) := by
  have hsplit : (c.colorsList.take i).flatten ++ (c.colorsList.drop i).flatten = c.elements := by
    rw [← List.flatten_append, List.take_append_drop]
    exact h.join_colorsList
  have hflen : ((c.colorsList.take i).flatten).length = c.cutOf i := by
    rw [List.length_flatten]
    have := h.sum_cells_take i hi
    simpa using this
  rw [← hsplit, List.drop_left']
  exact hflen

end WFc

/-- Inner cut positions are the bound offsets. -/
theorem Coloring.cutOf_succ (c : Coloring) {j : Nat} (hj : j < c.offs.length) :
    c.cutOf (j + 1) = c.offs.getD j 0 := by
  unfold Coloring.cutOf
  rw [if_neg (Nat.succ_ne_zero j)]
  simp only [Nat.succ_sub_one]
  rw [dif_pos (by simpa [Coloring.offs] using hj)]
  rw [List.getD_eq_getElem _ _ hj]
  simp [Coloring.offs]

/-- Beyond the bounds the cut position is the element count. -/
theorem Coloring.cutOf_of_ge (c : Coloring) {j : Nat} (hj : c.bounds.length < j) :
    c.cutOf j = c.elements.length := by
  unfold Coloring.cutOf
  rw [if_neg (by omega), dif_neg (by omega)]

namespace WFc

theorem offs_len {c : Coloring} : c.offs.length = c.bounds.length := by
  simp [Coloring.offs]

theorem cut_lt {n : Nat} {c : Coloring} (h : WFc n c) (hn : 0 < n) {i : Nat}
    (hi : i < c.len) : c.cutOf i < c.cutOf (i + 1) := by
  unfold Coloring.len at hi
  rcases i with _ | j
  · rw [cut_zero]
    rcases Nat.eq_zero_or_pos c.bounds.length with hb0 | hbpos
    · rw [c.cutOf_of_ge (by omega), h.elems_len]
      exact hn
    · rw [c.cutOf_succ (by rw [offs_len]; omega)]
      exact h.offs_pos (by rw [offs_len]; omega)
  · have hjb : j < c.bounds.length := by omega
    rw [c.cutOf_succ (by rw [offs_len]; omega)]
    rcases Nat.lt_or_ge (j + 1) c.bounds.length with hlt | hge
    · rw [c.cutOf_succ (by rw [offs_len]; omega)]
      exact h.offs_get_lt (Nat.lt_succ_self j) (by rw [offs_len]; omega)
    · rw [c.cutOf_of_ge (by omega), h.elems_len]
      apply h.bounded
      rw [List.getD_eq_getElem c.offs 0 (by rw [offs_len]; omega)]
      exact List.getElem_mem _

theorem cellAt_ne {n : Nat} {c : Coloring} (h : WFc n c) (hn : 0 < n) {i : Nat}
    (hi : i < c.len) : c.cellAt i ≠ [] := by
  intro hcon
  have hlen0 : (c.cellAt i).length = 0 := by rw [hcon]; rfl
  rw [h.cellAt_length hi] at hlen0
  have := h.cut_lt hn hi
  omega

end WFc

/-- Assemble well-formedness of a coloring from an explicit nonempty cell
decomposition whose flatten is the element list and whose cuts step by the
cell lengths. -/
theorem wfc_of_parts (c2 : Coloring) (ps : List (List Nat)) (n : Nat)
    (hflat : c2.elements = ps.flatten)
    (hlen : c2.len = ps.length)
    (hsteps : ∀ j, j < ps.length → c2.cutOf (j + 1) = c2.cutOf j + (ps.getD j []).length)
    (hperm : ps.flatten.Perm (List.range n))
    (hne : ∀ p ∈ ps, p ≠ []) :
    WFc n c2 ∧ ∀ j, j < ps.length → c2.cellAt j = ps.getD j [] := by
  have hperm2 : c2.elements.Perm (List.range n) := by rw [hflat]; exact hperm
  have hstrict : ∀ j, j < ps.length → c2.cutOf j < c2.cutOf (j + 1) := by
    intro j hj
    rw [hsteps j hj]
    have : ps.getD j [] ≠ [] := by
      apply hne
      rw [List.getD_eq_getElem _ _ (by omega)]
      exact List.getElem_mem _
    have : 0 < (ps.getD j []).length := List.length_pos.mpr this
    omega
  have hofflen : c2.offs.length = c2.bounds.length := WFc.offs_len
  have hlen2 : c2.bounds.length + 1 = ps.length := by
    unfold Coloring.len at hlen
    omega
  have hcutval : ∀ j, j < c2.bounds.length → c2.cutOf (j + 1) = c2.offs.getD j 0 :=
    fun j hj => c2.cutOf_succ (by omega)
  have hgoffs : ∀ (m : Nat) (hm : m < c2.offs.length),
      c2.offs.get ⟨m, hm⟩ = c2.offs.getD m 0 := by
    intro m hm
    rw [List.get_eq_getElem, List.getD_eq_getElem _ _ hm]
  have hmono : List.Chain' (· < ·) (0 :: c2.offs) := by
    rw [List.chain'_iff_get]
    intro i hi
    simp only [List.length_cons] at hi
    rcases Nat.eq_zero_or_pos i with rfl | hpos
    · show (0 : Nat) < c2.offs.get ⟨0, by omega⟩
      have h1 := hstrict 0 (by omega)
      rw [WFc.cut_zero, hcutval 0 (by omega)] at h1
      rw [hgoffs 0 (by omega)]
      exact h1
    · obtain ⟨m, rfl⟩ : ∃ m, i = m + 1 := ⟨i - 1, by omega⟩
      show c2.offs.get ⟨m, by omega⟩ < c2.offs.get ⟨m + 1, by omega⟩
      have h1 := hstrict (m + 1) (by omega)
      rw [hcutval m (by omega), hcutval (m + 1) (by omega)] at h1
      rw [hgoffs m (by omega), hgoffs (m + 1) (by omega)]
      exact h1
  have hcutlast : c2.cutOf ps.length = n := by
    have : c2.cutOf c2.len = c2.elements.length := by
      unfold Coloring.cutOf Coloring.len
      rw [if_neg (Nat.succ_ne_zero _), dif_neg (by omega)]
    rw [hlen] at this
    rw [this, hflat]
    simpa using hperm.length_eq
  have hcut_le : ∀ j, j ≤ ps.length → c2.cutOf j ≤ n := by
    intro j hj
    rw [← hcutlast]
    have : ∀ a b, a ≤ b → b ≤ ps.length → c2.cutOf a ≤ c2.cutOf b := by
      intro a b hab hbl
      induction b with
      | zero => simp_all
      | succ b2 ih =>
        rcases Nat.lt_or_ge a (b2 + 1) with hlt | hge
        · exact le_trans (ih (by omega) (by omega)) (Nat.le_of_lt (hstrict b2 (by omega)))
        · have : a = b2 + 1 := by omega
          simp [this]
    exact this j ps.length hj (le_refl _)
  have hbounded : ∀ o ∈ c2.offs, o < n := by
    intro o ho
    obtain ⟨j, hj, rfl⟩ : ∃ j, j < c2.offs.length ∧ c2.offs.getD j 0 = o := by
      obtain ⟨⟨j, hj⟩, hget⟩ := List.mem_iff_get.mp ho
      exact ⟨j, hj, by rw [List.getD_eq_getElem _ _ hj, ← hget, List.get_eq_getElem]⟩
    have hjb : j < c2.bounds.length := by simpa [Coloring.offs] using hj
    rw [← hcutval j hjb]
    calc c2.cutOf (j + 1) < c2.cutOf (j + 2) := hstrict (j + 1) (by omega)
      _ ≤ n := hcut_le (j + 2) (by omega)
  have hwf : WFc n c2 := ⟨hperm2, hmono, hbounded⟩
  refine ⟨hwf, ?_⟩
  intro j hj
  unfold Coloring.cellAt
  rw [hflat]
  exact flatten_slice ps c2.cutOf (WFc.cut_zero c2) hsteps j hj

theorem Coloring.color_start_eq (c : Coloring) {i : Nat} (hi : i < c.len) :
    c.color_start i = some (c.cutOf i) := by
  unfold Coloring.color_start
  rcases i with _ | j
  · rw [if_pos rfl, WFc.cut_zero]
  · rw [if_neg (Nat.succ_ne_zero j)]
    have hj : j < c.bounds.length := by
      unfold Coloring.len at hi
      omega
    have hred : j + 1 - 1 = j := rfl
    rw [hred, List.get?_eq_get hj]
    rw [c.cutOf_succ (by rw [WFc.offs_len]; omega)]
    rw [List.getD_eq_getElem _ _ (by rw [WFc.offs_len]; omega)]
    simp [Coloring.offs]

theorem Coloring.colorsList_getD (c : Coloring) {j : Nat} (hj : j < c.len) :
    c.colorsList.getD j [] = c.cellAt j := by
  rw [List.getD_eq_getElem _ _ (by rwa [c.colorsList_length])]
  have := c.colorsList_get j hj
  rw [List.get?_eq_getElem?, List.getElem?_eq_getElem (by rwa [c.colorsList_length])] at this
  exact Option.some.inj this

/-- The reverse lookup of a ColInv state finds the cell of a universe
element. -/
theorem ColInv.rev_getD {n : Nat} {R : ReversibleColoring} (h : ColInv n R) {x ci : Nat}
    (hci : ci < R.coloring.len) (hx : x ∈ R.coloring.cellAt ci) :
    R.reverse.get? x = some ci := by
  have := h.revCorrect ci hci x
  rw [R.coloring.get_eq_cellAt ci hci] at this
  exact this (by simpa using hx)

/-- Unfolding of individualize on a valid state: either the item sits alone in
its cell and nothing happens, or the state is rewritten exactly as the source
does. -/
theorem individualize_spec {n : Nat} {R : ReversibleColoring} (h : ColInv n R) {x : Nat}
    (hx : x < n) (ci : Nat) (hci : ci < R.coloring.len) (hxci : x ∈ R.coloring.cellAt ci) :
    ((R.coloring.cellAt ci).length ≤ 1 ∧ R.individualize x = R) ∨
    (1 < (R.coloring.cellAt ci).length ∧
      R.individualize x = ⟨⟨R.coloring.elements.take (R.coloring.cutOf ci)
            ++ x :: sortNat ((R.coloring.cellAt ci).erase x)
            ++ R.coloring.elements.drop (R.coloring.cutOf (ci + 1)),
          R.coloring.bounds.insertIdx ci (Bound.mk (R.coloring.cutOf ci + 1) R.depth)⟩,
        R.reverse.mapIdx (fun t c => if c < ci ∨ t = x then c else c + 1),
        R.depth⟩) := by
  have hwf : WFc n R.coloring := ⟨h.elemsPerm, h.offsMono, h.offsBounded⟩
  have hrev : R.reverse.get? x = some ci := h.rev_getD hci hxci
  have hcellsum : R.coloring.cutOf ci + (R.coloring.cellAt ci).length
      = R.coloring.cutOf (ci + 1) := by
    rw [hwf.cellAt_length hci]
    have := hwf.cut_le_cut ci (ci + 1) (Nat.le_succ ci)
    omega
  unfold ReversibleColoring.individualize
  rw [hrev]
  simp only [Option.getD_some]
  rw [R.coloring.color_start_eq hci, R.coloring.get_eq_cellAt ci hci]
  simp only [Option.getD_some]
  by_cases hlen : 1 < (R.coloring.cellAt ci).length
  · right
    refine ⟨hlen, ?_⟩
    rw [if_pos hlen, hcellsum]
  · left
    refine ⟨by omega, ?_⟩
    rw [if_neg hlen]

theorem getD_append_left {α : Type} {d : α} {A B : List α} {k : Nat} (hk : k < A.length) :
    (A ++ B).getD k d = A.getD k d := by
  rw [List.getD_eq_getElem _ _ (by rw [List.length_append]; omega), List.getD_eq_getElem _ _ hk]
  exact List.getElem_append_left hk

theorem getD_append_right {α : Type} {d : α} {A B : List α} {k : Nat} (hk : A.length ≤ k)
    (hk2 : k < A.length + B.length) :
    (A ++ B).getD k d = B.getD (k - A.length) d := by
  rw [List.getD_eq_getElem _ _ (by rw [List.length_append]; omega),
    List.getD_eq_getElem _ _ (by omega)]
  exact List.getElem_append_right hk

theorem getD_take_eq {α : Type} {d : α} {l : List α} {m k : Nat} (hk : k < m)
    (hk2 : k < l.length) : (l.take m).getD k d = l.getD k d := by
  rw [List.getD_eq_getElem _ _ (by rw [List.length_take]; omega), List.getD_eq_getElem _ _ hk2]
  exact List.getElem_take l

theorem getD_drop_eq {α : Type} {d : α} {l : List α} {m k : Nat} (h : m + k < l.length) :
    (l.drop m).getD k d = l.getD (m + k) d := by
  rw [List.getD_eq_getElem _ _ (by rw [List.length_drop]; omega), List.getD_eq_getElem _ _ h]
  exact List.getElem_drop l

theorem ColInv.cellAt_sorted {n : Nat} {R : ReversibleColoring} (h : ColInv n R) {j : Nat}
    (hj : j < R.coloring.len) : (R.coloring.cellAt j).Sorted (· < ·) := by
  have := h.cellsSorted j hj
  rwa [R.coloring.get_eq_cellAt j hj] at this

/-- Decomposition of the elements at a cell. -/
theorem WFc.elements_decomp {n : Nat} {c : Coloring} (h : WFc n c) {i : Nat} (hi : i < c.len) :
    c.elements = c.elements.take (c.cutOf i) ++ c.cellAt i
      ++ c.elements.drop (c.cutOf (i + 1)) := by
  have hle : c.cutOf i ≤ c.cutOf (i + 1) := h.cut_le_cut i (i + 1) (Nat.le_succ i)
  have h1 : c.elements.take (c.cutOf (i + 1))
      = c.elements.take (c.cutOf i) ++ c.cellAt i := by
    unfold Coloring.cellAt
    conv_lhs => rw [← List.take_append_drop (c.cutOf i) (c.elements.take (c.cutOf (i + 1)))]
    rw [List.take_take, Nat.min_eq_left hle]
  calc c.elements
      = c.elements.take (c.cutOf (i + 1)) ++ c.elements.drop (c.cutOf (i + 1)) :=
        (List.take_append_drop _ _).symm
    _ = (c.elements.take (c.cutOf i) ++ c.cellAt i) ++ c.elements.drop (c.cutOf (i + 1)) := by
        rw [h1]
    _ = _ := by rw [List.append_assoc]

/-- individualize preserves the coloring invariants. -/
theorem individualize_colinv {n : Nat} {R : ReversibleColoring} (h : ColInv n R) {x : Nat}
    (hx : x < n) : ColInv n (R.individualize x) := by
  have hwf : WFc n R.coloring := ⟨h.elemsPerm, h.offsMono, h.offsBounded⟩
  obtain ⟨ci, hci, hxci⟩ := hwf.exists_cell hx
  rcases individualize_spec h hx ci hci hxci with ⟨_, heq⟩ | ⟨hbig, heq⟩
  · rw [heq]; exact h
  rw [heq]
  have h0n : 0 < n := by omega
  have hElen : R.coloring.elements.length = n := hwf.elems_len
  have hofflen : R.coloring.offs.length = R.coloring.bounds.length := WFc.offs_len
  have hcib : ci ≤ R.coloring.bounds.length := by
    unfold Coloring.len at hci
    omega
  have hcsce : R.coloring.cutOf ci + (R.coloring.cellAt ci).length
      = R.coloring.cutOf (ci + 1) := by
    rw [hwf.cellAt_length hci]
    have := hwf.cut_le_cut ci (ci + 1) (Nat.le_succ ci)
    omega
  have hcen : R.coloring.cutOf (ci + 1) ≤ n := by
    have h1 := hwf.cut_le_cut (ci + 1) R.coloring.len hci
    rwa [hwf.cut_len] at h1
  have hSperm : (sortNat ((R.coloring.cellAt ci).erase x)).Perm
      ((R.coloring.cellAt ci).erase x) := sortNat_perm _
  have hSlen : (sortNat ((R.coloring.cellAt ci).erase x)).length
      = (R.coloring.cellAt ci).length - 1 := by
    rw [hSperm.length_eq, List.length_erase_of_mem hxci]
  set c2 : Coloring :=
    { elements := R.coloring.elements.take (R.coloring.cutOf ci)
        ++ x :: sortNat ((R.coloring.cellAt ci).erase x)
        ++ R.coloring.elements.drop (R.coloring.cutOf (ci + 1))
      bounds := R.coloring.bounds.insertIdx ci
        (Bound.mk (R.coloring.cutOf ci + 1) R.depth) } with hc2def
  set ps : List (List Nat) := R.coloring.colorsList.take ci
      ++ [x] :: sortNat ((R.coloring.cellAt ci).erase x) :: R.coloring.colorsList.drop (ci + 1)
    with hpsdef
  have hclen : R.coloring.colorsList.length = R.coloring.len := R.coloring.colorsList_length
  have hpslen : ps.length = R.coloring.len + 1 := by
    rw [hpsdef]
    simp only [List.length_append, List.length_cons, List.length_take, List.length_drop, hclen]
    omega
  have hb2eq : c2.bounds = R.coloring.bounds.take ci
      ++ Bound.mk (R.coloring.cutOf ci + 1) R.depth :: R.coloring.bounds.drop ci := by
    rw [hc2def]
    exact insertIdx_eq_take_cons_drop _ ci _ hcib
  have hoffs2 : c2.offs = R.coloring.offs.take ci
      ++ (R.coloring.cutOf ci + 1) :: R.coloring.offs.drop ci := by
    show c2.bounds.map Bound.offset = _
    rw [hb2eq, List.map_append, List.map_take, List.map_cons, List.map_drop]
    rfl
  have hofftake : (R.coloring.offs.take ci).length = ci := by
    rw [List.length_take]
    omega
  have hoffs2len : c2.offs.length = R.coloring.bounds.length + 1 := by
    rw [hoffs2]
    simp only [List.length_append, List.length_cons, List.length_take, List.length_drop]
    omega
  have hlen2 : c2.len = ps.length := by
    show c2.bounds.length + 1 = ps.length
    have : c2.offs.length = c2.bounds.length := WFc.offs_len
    rw [← this, hoffs2len, hpslen]
    unfold Coloring.len
    omega
  have hE2len : c2.elements.length = n := by
    rw [hc2def]
    simp only [List.length_append, List.length_cons, List.length_take, List.length_drop,
      hSlen, hElen]
    omega
  -- cut characterization
  have hcutA : ∀ j, j ≤ ci → c2.cutOf j = R.coloring.cutOf j := by
    intro j hj
    rcases j with _ | m
    · rw [WFc.cut_zero, WFc.cut_zero]
    · rw [c2.cutOf_succ (by omega), R.coloring.cutOf_succ (by omega)]
      rw [hoffs2]
      rw [List.getD_eq_getElem _ _ (by rw [hoffs2] at *; simp only [List.length_append,
        List.length_cons, List.length_take, List.length_drop]; omega)]
      rw [List.getElem_append_left (by rw [hofftake]; omega)]
      rw [List.getElem_take, List.getD_eq_getElem _ _ (by omega)]
  have hcutB : c2.cutOf (ci + 1) = R.coloring.cutOf ci + 1 := by
    rw [c2.cutOf_succ (by omega)]
    rw [hoffs2]
    rw [List.getD_eq_getElem _ _ (by
      simp only [List.length_append, List.length_cons, List.length_take, List.length_drop]
      omega)]
    rw [List.getElem_append_right (by rw [hofftake])]
    simp [hofftake]
  have hcutC : ∀ j, ci + 2 ≤ j → j ≤ R.coloring.len + 1 →
      c2.cutOf j = R.coloring.cutOf (j - 1) := by
    intro j hj1 hj2
    unfold Coloring.len at hj2
    rcases Nat.lt_or_ge j (R.coloring.bounds.length + 2) with hlt | hge
    · obtain ⟨m, rfl⟩ : ∃ m, j = m + 1 := ⟨j - 1, by omega⟩
      rw [c2.cutOf_succ (by omega), hoffs2]
      rw [getD_append_right (by rw [hofftake]; omega)
        (by simp only [List.length_cons, List.length_drop, hofftake]; omega)]
      rw [hofftake]
      obtain ⟨k, hk⟩ : ∃ k, m - ci = k + 1 := ⟨m - ci - 1, by omega⟩
      rw [hk, List.getD_cons_succ]
      rw [getD_drop_eq (by omega)]
      have hm : m + 1 - 1 = m := by omega
      rw [hm]
      obtain ⟨m2, rfl⟩ : ∃ m2, m = m2 + 1 := ⟨m - 1, by omega⟩
      rw [R.coloring.cutOf_succ (by omega)]
      congr 1
      omega
    · have hj3 : j = R.coloring.bounds.length + 2 := by omega
      subst hj3
      rw [c2.cutOf_of_ge (by
        have : c2.offs.length = c2.bounds.length := WFc.offs_len
        omega)]
      rw [R.coloring.cutOf_of_ge (by omega), hE2len, hElen]
  -- the parts
  have hgdps : ∀ j, j < ps.length →
      ps.getD j [] =
        if j < ci then R.coloring.cellAt j
        else if j = ci then [x]
        else if j = ci + 1 then sortNat ((R.coloring.cellAt ci).erase x)
        else R.coloring.cellAt (j - 1) := by
    intro j hj
    rw [hpsdef]
    have htl : (R.coloring.colorsList.take ci).length = ci := by
      rw [List.length_take]
      omega
    by_cases h1 : j < ci
    · rw [if_pos h1, getD_append_left (by rw [htl]; omega)]
      rw [getD_take_eq h1 (by omega)]
      exact R.coloring.colorsList_getD (by omega)
    · rw [getD_append_right (by rw [htl]; omega)
        (by
          simp only [htl, List.length_cons, List.length_drop]
          rw [hpslen] at hj
          omega)]
      rw [htl]
      by_cases h2 : j = ci
      · have h0 : j - ci = 0 := by omega
        rw [h0, List.getD_cons_zero, if_neg h1, if_pos h2]
      · by_cases h3 : j = ci + 1
        · have h0 : j - ci = 1 := by omega
          rw [h0, List.getD_cons_succ, List.getD_cons_zero, if_neg h1, if_neg h2, if_pos h3]
        · have hidx : j - ci = (j - ci - 2) + 2 := by omega
          rw [if_neg h1, if_neg h2, if_neg h3, hidx]
          rw [List.getD_cons_succ, List.getD_cons_succ]
          rw [getD_drop_eq (by
            rw [hclen]
            rw [hpslen] at hj
            omega)]
          rw [R.coloring.colorsList_getD (by
            rw [hpslen] at hj
            omega)]
          congr 1
          omega
  have hne : ∀ p ∈ ps, p ≠ [] := by
    intro p hp
    rw [hpsdef] at hp
    rcases List.mem_append.mp hp with hp1 | hp2
    · have hp3 := List.mem_of_mem_take hp1
      obtain ⟨⟨k, hk⟩, hget⟩ := List.mem_iff_get.mp hp3
      have := hwf.cellAt_ne h0n (i := k) (by rwa [hclen] at hk)
      rw [← hget, List.get_eq_getElem]
      have h4 := R.coloring.colorsList_getD (j := k) (by rwa [hclen] at hk)
      rw [List.getD_eq_getElem _ _ hk] at h4
      rw [h4]
      exact this
    · rcases List.mem_cons.mp hp2 with hp3 | hp4
      · rw [hp3]; simp
      · rcases List.mem_cons.mp hp4 with hp5 | hp6
        · rw [hp5]
          intro hcon
          have : (sortNat ((R.coloring.cellAt ci).erase x)).length = 0 := by
            rw [hcon]; rfl
          omega
        · have hp7 := List.mem_of_mem_drop hp6
          obtain ⟨⟨k, hk⟩, hget⟩ := List.mem_iff_get.mp hp7
          have := hwf.cellAt_ne h0n (i := k) (by rwa [hclen] at hk)
          rw [← hget, List.get_eq_getElem]
          have h4 := R.coloring.colorsList_getD (j := k) (by rwa [hclen] at hk)
          rw [List.getD_eq_getElem _ _ hk] at h4
          rw [h4]
          exact this
  have hflat : c2.elements = ps.flatten := by
    rw [hpsdef, hc2def]
    rw [List.flatten_append, List.flatten_cons, List.flatten_cons]
    rw [hwf.flatten_take_cells (by omega), hwf.flatten_drop_cells (by omega)]
    simp
  have hsteps : ∀ j, j < ps.length → c2.cutOf (j + 1) = c2.cutOf j + (ps.getD j []).length := by
    intro j hj
    rw [hgdps j hj]
    by_cases h1 : j < ci
    · rw [if_pos h1, hcutA j (by omega), hcutA (j + 1) (by omega)]
      rw [hwf.cellAt_length (by omega)]
      have := hwf.cut_le_cut j (j + 1) (Nat.le_succ j)
      omega
    · by_cases h2 : j = ci
      · subst h2
        rw [if_neg h1, if_pos rfl, hcutA j (by omega), hcutB]
        rfl
      · by_cases h3 : j = ci + 1
        · subst h3
          rw [if_neg h1, if_neg h2, if_pos rfl, hcutB,
            hcutC (ci + 2) (by omega) (by rw [hpslen] at hj; omega)]
          have : ci + 2 - 1 = ci + 1 := by omega
          rw [this, hSlen]
          omega
        · rw [if_neg h1, if_neg h2, if_neg h3]
          rw [hpslen] at hj
          rw [hcutC j (by omega) (by omega), hcutC (j + 1) (by omega) (by omega)]
          have hj1 : j + 1 - 1 = (j - 1) + 1 := by omega
          rw [hj1, hwf.cellAt_length (i := j - 1) (by omega)]
          have := hwf.cut_le_cut (j - 1) j (by omega)
          have hjj : j - 1 + 1 = j := by omega
          rw [hjj] at *
          omega
  have hperm2 : ps.flatten.Perm (List.range n) := by
    rw [← hflat, hc2def]
    have hdecomp := hwf.elements_decomp hci
    have hmid : (x :: (sortNat ((R.coloring.cellAt ci).erase x))).Perm
        (R.coloring.cellAt ci) :=
      (List.Perm.cons x hSperm).trans (List.perm_cons_erase hxci).symm
    have : (R.coloring.elements.take (R.coloring.cutOf ci)
        ++ x :: sortNat ((R.coloring.cellAt ci).erase x)
        ++ R.coloring.elements.drop (R.coloring.cutOf (ci + 1))).Perm
          R.coloring.elements := by
      conv_rhs => rw [hdecomp]
      rw [List.append_assoc, List.append_assoc]
      apply List.Perm.append_left
      exact List.Perm.append hmid (List.Perm.refl _)
    exact this.trans hwf.perm
  obtain ⟨hwf2, hcells2⟩ := wfc_of_parts c2 ps n hflat hlen2 hsteps hperm2 hne
  refine ⟨?_, hwf2.perm, hwf2.mono, hwf2.bounded, ?_, ?_⟩
  · show (R.reverse.mapIdx _).length = n
    rw [List.length_mapIdx, h.revLen]
  · intro i hi
    rw [Coloring.get_eq_cellAt _ _ hi]
    simp only [Option.getD_some]
    rw [hcells2 i (by rw [← hlen2]; exact hi), hgdps i (by rw [← hlen2]; exact hi)]
    by_cases h1 : i < ci
    · rw [if_pos h1]
      exact h.cellAt_sorted (by omega)
    · by_cases h2 : i = ci
      · subst h2
        simp [if_neg h1]
      · by_cases h3 : i = ci + 1
        · subst h3
          rw [if_neg h1, if_neg h2, if_pos rfl]
          apply sorted_lt_of_le_nodup (sortNat_sorted _)
          exact (sortNat_perm _).nodup_iff.mpr ((hwf.cellAt_nodup ci).erase x)
        · rw [if_neg h1, if_neg h2, if_neg h3]
          apply h.cellAt_sorted
          rw [hlen2, hpslen] at hi
          omega
  · intro i hi u hu
    rw [Coloring.get_eq_cellAt _ _ hi] at hu
    simp only [Option.getD_some] at hu
    rw [hcells2 i (by rw [← hlen2]; exact hi), hgdps i (by rw [← hlen2]; exact hi)] at hu
    have hlen2b : i < ps.length := by rw [← hlen2]; exact hi
    have hgd : ∀ (j : Nat), R.reverse.get? u = some j →
        (R.reverse.mapIdx (fun t c => if c < ci ∨ t = x then c else c + 1)).get? u
          = some (if j < ci ∨ u = x then j else j + 1) := by
      intro j hj
      rw [List.get?_eq_getElem?, List.getElem?_mapIdx]
      rw [List.get?_eq_getElem?] at hj
      rw [hj]
      rfl
    by_cases h1 : i < ci
    · rw [if_pos h1] at hu
      have hrev := h.rev_getD (by omega : i < R.coloring.len) hu
      rw [hgd i hrev]
      rw [if_pos (Or.inl h1)]
    · by_cases h2 : i = ci
      · subst h2
        rw [if_neg h1, if_pos rfl] at hu
        have hux : u = x := by simpa using hu
        subst hux
        have hrev := h.rev_getD hci hxci
        rw [hgd i hrev]
        rw [if_pos (Or.inr rfl)]
      · by_cases h3 : i = ci + 1
        · subst h3
          rw [if_neg h1, if_neg h2, if_pos rfl] at hu
          have hu2 : u ∈ (R.coloring.cellAt ci).erase x := hSperm.mem_iff.mp hu
          have hu3 := (hwf.cellAt_nodup ci).mem_erase_iff.mp hu2
          have hrev := h.rev_getD hci hu3.2
          rw [hgd ci hrev]
          rw [if_neg (by
            push_neg
            exact ⟨by omega, hu3.1⟩)]
        · rw [if_neg h1, if_neg h2, if_neg h3] at hu
          have hi1 : i - 1 < R.coloring.len := by
            rw [hlen2, hpslen] at hi
            omega
          have hrev := h.rev_getD hi1 hu
          have hune : u ≠ x := by
            intro hcon
            subst hcon
            have := hwf.cell_index_unique hi1 hci hu hxci
            omega
          rw [hgd (i - 1) hrev]
          rw [if_neg (by
            push_neg
            exact ⟨by omega, hune⟩)]
          congr 1
          omega

/-- Adjacent slices of a list concatenate to the enclosing slice. -/
theorem slice_append {α : Type} (l : List α) {a b c : Nat} (hab : a ≤ b) (hbc : b ≤ c) :
    (l.take b).drop a ++ (l.take c).drop b = (l.take c).drop a := by
  rw [List.drop_take b a l, List.drop_take c b l, List.drop_take c a l]
  have h2 : l.drop b = (l.drop a).drop (b - a) := by
    rw [List.drop_drop]
    congr 1
    omega
  rw [h2]
  have h3 : c - a = (b - a) + (c - b) := by omega
  rw [h3, List.take_add]

/-- Unfolding of deindividualize on a valid state: either the guard fails and
nothing happens, or the bound is removed, the merged cell re-sorted and the
reverse index decremented exactly as the source does. -/
theorem deindividualize_spec {n : Nat} {R : ReversibleColoring} (h : ColInv n R) {x : Nat}
    (ci : Nat) (hci : ci < R.coloring.len) (hxci : x ∈ R.coloring.cellAt ci) :
    (¬((R.coloring.cellAt ci).length = 1 ∧ ci < R.coloring.bounds.length) ∧
      R.deindividualize x = R) ∨
    (((R.coloring.cellAt ci).length = 1 ∧ ci < R.coloring.bounds.length) ∧
      R.deindividualize x =
        ⟨⟨R.coloring.elements.take (R.coloring.cutOf ci)
            ++ sortNat ((R.coloring.elements.take (R.coloring.cutOf (ci + 2))).drop
                (R.coloring.cutOf ci))
            ++ R.coloring.elements.drop (R.coloring.cutOf (ci + 2)),
          R.coloring.bounds.eraseIdx ci⟩,
        R.reverse.map (fun c => if c ≤ ci then c else c - 1),
        R.depth⟩) := by
  have hwf : WFc n R.coloring := ⟨h.elemsPerm, h.offsMono, h.offsBounded⟩
  have hrev : R.reverse.get? x = some ci := h.rev_getD hci hxci
  unfold ReversibleColoring.deindividualize
  rw [hrev]
  simp only [Option.getD_some]
  rw [R.coloring.get_eq_cellAt ci hci]
  simp only [Option.getD_some]
  by_cases hcond : (R.coloring.cellAt ci).length = 1 ∧ ci < R.coloring.bounds.length
  · right
    refine ⟨hcond, ?_⟩
    rw [if_pos hcond]
    have hofflen : R.coloring.offs.length = R.coloring.bounds.length := WFc.offs_len
    have hofftake : (R.coloring.offs.take ci).length = ci := by
      rw [List.length_take]
      omega
    have herase : R.coloring.bounds.eraseIdx ci
        = R.coloring.bounds.take ci ++ R.coloring.bounds.drop (ci + 1) :=
      List.eraseIdx_eq_take_drop_succ _ _
    have hb1len : (R.coloring.bounds.eraseIdx ci).length = R.coloring.bounds.length - 1 := by
      rw [herase]
      simp only [List.length_append, List.length_take, List.length_drop]
      omega
    have hoffs1 : (Coloring.mk R.coloring.elements (R.coloring.bounds.eraseIdx ci)).offs
        = R.coloring.offs.take ci ++ R.coloring.offs.drop (ci + 1) := by
      show (R.coloring.bounds.eraseIdx ci).map Bound.offset = _
      rw [herase, List.map_append, List.map_take, List.map_drop]
      rfl
    have hcut1 : ∀ j, j ≤ ci →
        (Coloring.mk R.coloring.elements (R.coloring.bounds.eraseIdx ci)).cutOf j
          = R.coloring.cutOf j := by
      intro j hj
      rcases j with _ | m
      · rw [WFc.cut_zero, WFc.cut_zero]
      · rw [Coloring.cutOf_succ _ (by rw [hoffs1]; simp only [List.length_append,
          List.length_take, List.length_drop]; omega),
          R.coloring.cutOf_succ (by omega), hoffs1]
        rw [getD_append_left (by rw [hofftake]; omega)]
        exact getD_take_eq (by omega) (by omega)
    have hcut2 : ∀ j, ci + 1 ≤ j → j ≤ R.coloring.bounds.length →
        (Coloring.mk R.coloring.elements (R.coloring.bounds.eraseIdx ci)).cutOf j
          = R.coloring.cutOf (j + 1) := by
      intro j hj1 hj2
      rcases Nat.lt_or_ge j R.coloring.bounds.length with hlt | hge
      · obtain ⟨m, rfl⟩ : ∃ m, j = m + 1 := ⟨j - 1, by omega⟩
        rw [Coloring.cutOf_succ _ (by rw [hoffs1]; simp only [List.length_append,
          List.length_take, List.length_drop]; omega), hoffs1]
        rw [getD_append_right (by rw [hofftake]; omega)
          (by simp only [List.length_append, List.length_take, List.length_drop, hofftake]
              omega)]
        rw [hofftake, getD_drop_eq (by omega)]
        rw [R.coloring.cutOf_succ (by omega)]
        congr 1
        omega
      · have hj3 : j = R.coloring.bounds.length := by omega
        subst hj3
        rw [Coloring.cutOf_of_ge _ (by
            show (R.coloring.bounds.eraseIdx ci).length < R.coloring.bounds.length
            omega),
          R.coloring.cutOf_of_ge (by omega)]
    have hlenE : ci < (Coloring.mk R.coloring.elements (R.coloring.bounds.eraseIdx ci)).len := by
      show ci < (R.coloring.bounds.eraseIdx ci).length + 1
      omega
    have hcs : (Coloring.mk R.coloring.elements (R.coloring.bounds.eraseIdx ci)).color_start ci
        = some (R.coloring.cutOf ci) := by
      rw [Coloring.color_start_eq _ hlenE, hcut1 ci le_rfl]
    have hget : (Coloring.mk R.coloring.elements (R.coloring.bounds.eraseIdx ci)).get ci
        = some ((R.coloring.elements.take (R.coloring.cutOf (ci + 2))).drop
            (R.coloring.cutOf ci)) := by
      rw [Coloring.get_eq_cellAt _ ci hlenE]
      unfold Coloring.cellAt
      rw [hcut2 (ci + 1) (by omega) (by omega), hcut1 ci le_rfl]
    have hc2n : R.coloring.cutOf (ci + 2) ≤ n := by
      have h1 := hwf.cut_le_cut (ci + 2) R.coloring.len (by unfold Coloring.len; omega)
      rwa [hwf.cut_len] at h1
    have hcc : R.coloring.cutOf ci ≤ R.coloring.cutOf (ci + 2) :=
      hwf.cut_le_cut ci (ci + 2) (by omega)
    have hslicelen : R.coloring.cutOf ci
        + ((R.coloring.elements.take (R.coloring.cutOf (ci + 2))).drop
            (R.coloring.cutOf ci)).length
        = R.coloring.cutOf (ci + 2) := by
      rw [List.length_drop, List.length_take, hwf.elems_len]
      omega
    rw [hcs, hget]
    simp only [Option.getD_some]
    rw [hslicelen]
  · left
    refine ⟨hcond, ?_⟩
    rw [if_neg hcond]

/-- deindividualize preserves the coloring invariants. -/
theorem deindividualize_colinv {n : Nat} {R : ReversibleColoring} (h : ColInv n R) {x : Nat}
    (hx : x < n) : ColInv n (R.deindividualize x) := by
  have hwf : WFc n R.coloring := ⟨h.elemsPerm, h.offsMono, h.offsBounded⟩
  obtain ⟨ci, hci, hxci⟩ := hwf.exists_cell hx
  rcases deindividualize_spec h ci hci hxci with ⟨_, heq⟩ | ⟨hcond, heq⟩
  · rw [heq]; exact h
  rw [heq]
  have h0n : 0 < n := by omega
  have hElen : R.coloring.elements.length = n := hwf.elems_len
  have hofflen : R.coloring.offs.length = R.coloring.bounds.length := WFc.offs_len
  have hcilt : ci < R.coloring.bounds.length := hcond.2
  have hcc1 : R.coloring.cutOf ci ≤ R.coloring.cutOf (ci + 2) :=
    hwf.cut_le_cut ci (ci + 2) (by omega)
  have hc2n : R.coloring.cutOf (ci + 2) ≤ n := by
    have h1 := hwf.cut_le_cut (ci + 2) R.coloring.len (by unfold Coloring.len; omega)
    rwa [hwf.cut_len] at h1
  have hcin : R.coloring.cutOf ci ≤ n := by
    have h1 := hwf.cut_le_cut ci R.coloring.len (by unfold Coloring.len; omega)
    rwa [hwf.cut_len] at h1
  set sl : List Nat :=
    (R.coloring.elements.take (R.coloring.cutOf (ci + 2))).drop (R.coloring.cutOf ci)
    with hsldef
  have hsllen : sl.length = R.coloring.cutOf (ci + 2) - R.coloring.cutOf ci := by
    rw [hsldef, List.length_drop, List.length_take, hElen]
    omega
  have hsortlen : (sortNat sl).length = sl.length := (sortNat_perm sl).length_eq
  have hslpos : 0 < sl.length := by
    have h1 := hwf.cut_lt h0n (i := ci) (by unfold Coloring.len; omega)
    have h2 := hwf.cut_le_cut (ci + 1) (ci + 2) (by omega)
    omega
  set c2 : Coloring :=
    { elements := R.coloring.elements.take (R.coloring.cutOf ci)
        ++ sortNat sl
        ++ R.coloring.elements.drop (R.coloring.cutOf (ci + 2))
      bounds := R.coloring.bounds.eraseIdx ci } with hc2def
  set ps : List (List Nat) := R.coloring.colorsList.take ci
      ++ sortNat sl :: R.coloring.colorsList.drop (ci + 2)
    with hpsdef
  have hclen : R.coloring.colorsList.length = R.coloring.len := R.coloring.colorsList_length
  have hclen2 : R.coloring.colorsList.length = R.coloring.bounds.length + 1 := by
    rw [hclen]
    rfl
  have hpslen : ps.length = R.coloring.bounds.length := by
    rw [hpsdef]
    simp only [List.length_append, List.length_cons, List.length_take, List.length_drop, hclen2]
    omega
  have herase : R.coloring.bounds.eraseIdx ci
      = R.coloring.bounds.take ci ++ R.coloring.bounds.drop (ci + 1) :=
    List.eraseIdx_eq_take_drop_succ _ _
  have hb2eq : c2.bounds = R.coloring.bounds.take ci ++ R.coloring.bounds.drop (ci + 1) := by
    rw [hc2def]
    exact herase
  have hoffs2 : c2.offs = R.coloring.offs.take ci ++ R.coloring.offs.drop (ci + 1) := by
    show c2.bounds.map Bound.offset = _
    rw [hb2eq, List.map_append, List.map_take, List.map_drop]
    rfl
  have hofftake : (R.coloring.offs.take ci).length = ci := by
    rw [List.length_take]
    omega
  have hoffs2len : c2.offs.length = R.coloring.bounds.length - 1 := by
    rw [hoffs2]
    simp only [List.length_append, List.length_take, List.length_drop]
    omega
  have hlen2 : c2.len = ps.length := by
    show c2.bounds.length + 1 = ps.length
    have hh : c2.offs.length = c2.bounds.length := WFc.offs_len
    omega
  have hE2len : c2.elements.length = n := by
    rw [hc2def]
    simp only [List.length_append, List.length_take, List.length_drop, hsortlen, hsllen, hElen]
    omega
  have hcutA : ∀ j, j ≤ ci → c2.cutOf j = R.coloring.cutOf j := by
    intro j hj
    rcases j with _ | m
    · rw [WFc.cut_zero, WFc.cut_zero]
    · rw [c2.cutOf_succ (by rw [hoffs2len]; omega), R.coloring.cutOf_succ (by omega), hoffs2]
      rw [getD_append_left (by rw [hofftake]; omega)]
      exact getD_take_eq (by omega) (by omega)
  have hcutC : ∀ j, ci + 1 ≤ j → j ≤ R.coloring.bounds.length →
      c2.cutOf j = R.coloring.cutOf (j + 1) := by
    intro j hj1 hj2
    rcases Nat.lt_or_ge j R.coloring.bounds.length with hlt | hge
    · obtain ⟨m, rfl⟩ : ∃ m, j = m + 1 := ⟨j - 1, by omega⟩
      rw [c2.cutOf_succ (by rw [hoffs2len]; omega), hoffs2]
      rw [getD_append_right (by rw [hofftake]; omega)
        (by simp only [List.length_append, List.length_take, List.length_drop, hofftake]
            omega)]
      rw [hofftake, getD_drop_eq (by omega)]
      rw [R.coloring.cutOf_succ (by omega)]
      congr 1
      omega
    · have hj3 : j = R.coloring.bounds.length := by omega
      subst hj3
      rw [c2.cutOf_of_ge (by
          have hh : c2.offs.length = c2.bounds.length := WFc.offs_len
          omega),
        R.coloring.cutOf_of_ge (by omega), hE2len, hElen]
  have hgdps : ∀ j, j < ps.length →
      ps.getD j [] =
        if j < ci then R.coloring.cellAt j
        else if j = ci then sortNat sl
        else R.coloring.cellAt (j + 1) := by
    intro j hj
    rw [hpsdef]
    have htl : (R.coloring.colorsList.take ci).length = ci := by
      rw [List.length_take]
      omega
    by_cases h1 : j < ci
    · rw [if_pos h1, getD_append_left (by rw [htl]; omega)]
      rw [getD_take_eq h1 (by omega)]
      exact R.coloring.colorsList_getD (by unfold Coloring.len; omega)
    · rw [getD_append_right (by rw [htl]; omega)
        (by simp only [htl, List.length_cons, List.length_drop]; omega)]
      rw [htl]
      by_cases h2 : j = ci
      · have h0 : j - ci = 0 := by omega
        rw [h0, List.getD_cons_zero, if_neg h1, if_pos h2]
      · have hidx : j - ci = (j - ci - 1) + 1 := by omega
        rw [if_neg h1, if_neg h2, hidx, List.getD_cons_succ]
        rw [getD_drop_eq (by omega)]
        rw [R.coloring.colorsList_getD (by unfold Coloring.len; omega)]
        congr 1
        omega
  have hne : ∀ p ∈ ps, p ≠ [] := by
    intro p hp
    rw [hpsdef] at hp
    rcases List.mem_append.mp hp with hp1 | hp2
    · have hp3 := List.mem_of_mem_take hp1
      obtain ⟨⟨k, hk⟩, hget⟩ := List.mem_iff_get.mp hp3
      have hcell := hwf.cellAt_ne h0n (i := k) (by unfold Coloring.len; omega)
      rw [← hget, List.get_eq_getElem]
      have h4 := R.coloring.colorsList_getD (j := k) (by unfold Coloring.len; omega)
      rw [List.getD_eq_getElem _ _ hk] at h4
      rw [h4]
      exact hcell
    · rcases List.mem_cons.mp hp2 with hp3 | hp4
      · rw [hp3]
        intro hcon
        have hz : (sortNat sl).length = 0 := by rw [hcon]; rfl
        omega
      · have hp7 := List.mem_of_mem_drop hp4
        obtain ⟨⟨k, hk⟩, hget⟩ := List.mem_iff_get.mp hp7
        have hcell := hwf.cellAt_ne h0n (i := k) (by unfold Coloring.len; omega)
        rw [← hget, List.get_eq_getElem]
        have h4 := R.coloring.colorsList_getD (j := k) (by unfold Coloring.len; omega)
        rw [List.getD_eq_getElem _ _ hk] at h4
        rw [h4]
        exact hcell
  have hflat : c2.elements = ps.flatten := by
    rw [hpsdef, hc2def]
    rw [List.flatten_append, List.flatten_cons]
    rw [hwf.flatten_take_cells (by unfold Coloring.len; omega),
      hwf.flatten_drop_cells (by unfold Coloring.len; omega)]
    rw [List.append_assoc]
  have hsteps : ∀ j, j < ps.length → c2.cutOf (j + 1) = c2.cutOf j + (ps.getD j []).length := by
    intro j hj
    rw [hgdps j hj]
    by_cases h1 : j < ci
    · rw [if_pos h1, hcutA j (by omega), hcutA (j + 1) (by omega)]
      rw [hwf.cellAt_length (by unfold Coloring.len; omega)]
      have h2 := hwf.cut_le_cut j (j + 1) (by omega)
      omega
    · by_cases h2 : j = ci
      · rw [if_neg h1, if_pos h2, h2]
        rw [hcutA ci le_rfl, hcutC (ci + 1) (by omega) (by omega)]
        have hb : ci + 1 + 1 = ci + 2 := by omega
        rw [hb, hsortlen, hsllen]
        omega
      · rw [if_neg h1, if_neg h2]
        rw [hcutC j (by omega) (by omega), hcutC (j + 1) (by omega) (by omega)]
        rw [hwf.cellAt_length (i := j + 1) (by unfold Coloring.len; omega)]
        have h3 := hwf.cut_le_cut (j + 1) (j + 1 + 1) (by omega)
        omega
  have hperm2 : ps.flatten.Perm (List.range n) := by
    rw [← hflat, hc2def]
    have h1 : R.coloring.elements.take (R.coloring.cutOf (ci + 2))
        = R.coloring.elements.take (R.coloring.cutOf ci) ++ sl := by
      rw [hsldef]
      conv_lhs => rw [← List.take_append_drop (R.coloring.cutOf ci)
        (R.coloring.elements.take (R.coloring.cutOf (ci + 2)))]
      rw [List.take_take, Nat.min_eq_left hcc1]
    have hdecomp : R.coloring.elements
        = R.coloring.elements.take (R.coloring.cutOf ci) ++ sl
          ++ R.coloring.elements.drop (R.coloring.cutOf (ci + 2)) := by
      calc R.coloring.elements
          = R.coloring.elements.take (R.coloring.cutOf (ci + 2))
            ++ R.coloring.elements.drop (R.coloring.cutOf (ci + 2)) :=
            (List.take_append_drop _ _).symm
        _ = (R.coloring.elements.take (R.coloring.cutOf ci) ++ sl)
            ++ R.coloring.elements.drop (R.coloring.cutOf (ci + 2)) := by rw [h1]
    have hp : (R.coloring.elements.take (R.coloring.cutOf ci) ++ sortNat sl
        ++ R.coloring.elements.drop (R.coloring.cutOf (ci + 2))).Perm R.coloring.elements := by
      conv_rhs => rw [hdecomp]
      exact List.Perm.append ((sortNat_perm sl).append_left _) (List.Perm.refl _)
    exact hp.trans hwf.perm
  obtain ⟨hwf2, hcells2⟩ := wfc_of_parts c2 ps n hflat hlen2 hsteps hperm2 hne
  refine ⟨?_, hwf2.perm, hwf2.mono, hwf2.bounded, ?_, ?_⟩
  · show (R.reverse.map _).length = n
    rw [List.length_map, h.revLen]
  · intro i hi
    rw [Coloring.get_eq_cellAt _ _ hi]
    simp only [Option.getD_some]
    rw [hcells2 i (by rw [← hlen2]; exact hi), hgdps i (by rw [← hlen2]; exact hi)]
    by_cases h1 : i < ci
    · rw [if_pos h1]
      exact h.cellAt_sorted (by unfold Coloring.len; omega)
    · by_cases h2 : i = ci
      · rw [if_neg h1, if_pos h2]
        apply sorted_lt_of_le_nodup (sortNat_sorted _)
        apply (sortNat_perm _).nodup_iff.mpr
        rw [hsldef]
        exact ((List.drop_sublist _ _).trans (List.take_sublist _ _)).nodup hwf.elems_nodup
      · rw [if_neg h1, if_neg h2]
        apply h.cellAt_sorted
        have hib : i < ps.length := by rw [← hlen2]; exact hi
        unfold Coloring.len
        omega
  · intro i hi u hu
    rw [Coloring.get_eq_cellAt _ _ hi] at hu
    simp only [Option.getD_some] at hu
    rw [hcells2 i (by rw [← hlen2]; exact hi), hgdps i (by rw [← hlen2]; exact hi)] at hu
    have hgd : ∀ (v j : Nat), R.reverse.get? v = some j →
        (R.reverse.map (fun c => if c ≤ ci then c else c - 1)).get? v
          = some (if j ≤ ci then j else j - 1) := by
      intro v j hj
      rw [List.get?_eq_getElem?, List.getElem?_map]
      rw [List.get?_eq_getElem?] at hj
      rw [hj]
      rfl
    by_cases h1 : i < ci
    · rw [if_pos h1] at hu
      have hrev := h.rev_getD (by unfold Coloring.len; omega) hu
      rw [hgd u i hrev, if_pos (by omega)]
    · by_cases h2 : i = ci
      · rw [if_neg h1, if_pos h2] at hu
        have hu2 : u ∈ sl := (sortNat_perm sl).mem_iff.mp hu
        have hsl2 : sl = R.coloring.cellAt ci ++ R.coloring.cellAt (ci + 1) := by
          rw [hsldef]
          show _ = (R.coloring.elements.take (R.coloring.cutOf (ci + 1))).drop
              (R.coloring.cutOf ci)
            ++ (R.coloring.elements.take (R.coloring.cutOf (ci + 2))).drop
              (R.coloring.cutOf (ci + 1))
          rw [slice_append R.coloring.elements (hwf.cut_le_cut ci (ci + 1) (by omega))
            (hwf.cut_le_cut (ci + 1) (ci + 2) (by omega))]
        rw [hsl2] at hu2
        rcases List.mem_append.mp hu2 with hu3 | hu3
        · have hrev := h.rev_getD (by unfold Coloring.len; omega) hu3
          rw [hgd u ci hrev, if_pos (by omega), h2]
        · have hrev := h.rev_getD (by unfold Coloring.len; omega) hu3
          rw [hgd u (ci + 1) hrev, if_neg (by omega)]
          have hq : ci + 1 - 1 = i := by omega
          rw [hq]
      · rw [if_neg h1, if_neg h2] at hu
        have hib : i < ps.length := by rw [← hlen2]; exact hi
        have hi1 : i + 1 < R.coloring.len := by
          unfold Coloring.len
          omega
        have hrev := h.rev_getD hi1 hu
        rw [hgd u (i + 1) hrev, if_neg (by omega)]
        have hq : i + 1 - 1 = i := rfl
        rw [hq]

/-- retain_bounds preserves the coloring invariants. -/
theorem retain_bounds_colinv {n : Nat} {R : ReversibleColoring} (h : ColInv n R)
    (p : Bound → Bool) : ColInv n (R.retain_bounds p) := by
  unfold ReversibleColoring.retain_bounds
  by_cases hlen : (R.coloring.bounds.filter p).length = R.coloring.bounds.length
  · rw [if_pos hlen]
    exact h
  · rw [if_neg hlen]
    set c1 : Coloring := { elements := R.coloring.elements, bounds := R.coloring.bounds.filter p }
      with hc1
    have hwf1 : WFc n c1 := by
      refine ⟨h.elemsPerm, ?_, ?_⟩
      · have hsub : (0 :: c1.offs).Sublist (0 :: R.coloring.offs) :=
          List.Sublist.cons₂ 0 ((List.filter_sublist _).map Bound.offset)
        exact List.chain'_iff_pairwise.mpr
          (List.Pairwise.sublist hsub (List.chain'_iff_pairwise.mp h.offsMono))
      · intro o ho
        exact h.offsBounded o (((List.filter_sublist _).map Bound.offset).mem ho)
    have hwf2 : WFc n c1.sort_cells := hwf1.sort_cells_wf
    have hlen2 : c1.sort_cells.len = c1.len := WFc.sort_cells_len c1
    refine ⟨?_, hwf2.perm, hwf2.mono, hwf2.bounded, ?_, ?_⟩
    · rw [rebuildReverse_length]
      exact h.revLen
    · intro i hi
      rw [Coloring.get_eq_cellAt _ _ hi]
      simp only [Option.getD_some]
      exact hwf1.sort_cells_sorted (by rwa [hlen2] at hi)
    · intro i hi u hu
      rw [Coloring.get_eq_cellAt _ _ hi] at hu
      simp only [Option.getD_some] at hu
      have hulen : u < R.reverse.length := by
        rw [h.revLen, ← hwf2.mem_elements]
        exact (WFc.cellAt_sublist _ i).mem hu
      unfold ReversibleColoring.rebuildReverse
      apply foldl_cells_get _ u i _ (List.nodup_range _) (List.mem_range.mpr hi) _ _ hulen
      intro j hj
      rw [Coloring.get_eq_cellAt _ _ (List.mem_range.mp hj)]
      simp only [Option.getD_some]
      constructor
      · intro huj
        exact hwf2.cell_index_unique (List.mem_range.mp hj) hi huj hu
      · intro hji
        subst hji
        exact hu

/-- restore preserves the coloring invariants. -/
theorem restore_colinv {n : Nat} {R : ReversibleColoring} (h : ColInv n R) (k : Nat) :
    ColInv n (R.restore k) := by
  unfold ReversibleColoring.restore
  have h2 := retain_bounds_colinv h (fun b => b.depth ≤ R.depth - k)
  exact ⟨h2.revLen, h2.elemsPerm, h2.offsMono, h2.offsBounded, h2.cellsSorted, h2.revCorrect⟩

/-!  The window walk of refine_color. -/

theorem walkRefined_succ (k newIdx : Nat) :
    walkRefined (k + 1) newIdx = newIdx :: walkRefined k (newIdx + 1) := by
  unfold walkRefined
  rw [List.range_succ_eq_map, List.map_cons, List.map_map]
  refine congrArg₂ List.cons (by omega) ?_
  apply List.map_congr_left
  intro q _
  show newIdx + Nat.succ q = newIdx + 1 + q
  omega

theorem walkRefined_length (k newIdx : Nat) : (walkRefined k newIdx).length = k := by
  unfold walkRefined
  rw [List.length_map, List.length_range]

theorem changeOffsets_shift {C : Type} [DecidableEq C] (key : Nat → C) (l : List Nat) :
    ∀ i : Nat, changeOffsets key l (i + 1) = (changeOffsets key l i).map (· + 1) := by
  induction l with
  | nil => intro i; rfl
  | cons a tail ih =>
    intro i
    cases tail with
    | nil => rfl
    | cons b rest =>
      unfold changeOffsets
      by_cases hk : key a ≠ key b
      · rw [if_pos hk, if_pos hk, ih (i + 1), List.map_cons]
      · rw [if_neg hk, if_neg hk, ih (i + 1)]

theorem changeOffsets_mem {C : Type} [DecidableEq C] (key : Nat → C) (l : List Nat) :
    ∀ (i o : Nat), o ∈ changeOffsets key l i → i + 1 ≤ o ∧ o + 1 ≤ i + l.length := by
  induction l with
  | nil => intro i o ho; simp [changeOffsets] at ho
  | cons a tail ih =>
    intro i o ho
    cases tail with
    | nil => simp [changeOffsets] at ho
    | cons b rest =>
      unfold changeOffsets at ho
      simp only [List.length_cons]
      by_cases hk : key a ≠ key b
      · rw [if_pos hk] at ho
        rcases List.mem_cons.mp ho with h1 | h2
        · subst h1
          omega
        · have := ih (i + 1) o h2
          simp only [List.length_cons] at this
          omega
      · rw [if_neg hk] at ho
        have := ih (i + 1) o ho
        simp only [List.length_cons] at this
        omega

theorem changeOffsets_chain {C : Type} [DecidableEq C] (key : Nat → C) (l : List Nat) :
    ∀ i : Nat, List.Chain' (· < ·) (changeOffsets key l i) := by
  induction l with
  | nil => intro i; simp [changeOffsets]
  | cons a tail ih =>
    intro i
    cases tail with
    | nil => simp [changeOffsets]
    | cons b rest =>
      unfold changeOffsets
      by_cases hk : key a ≠ key b
      · rw [if_pos hk]
        refine List.chain'_cons'.mpr ⟨?_, ih (i + 1)⟩
        intro y hy
        have hmem := List.mem_of_mem_head? hy
        have := changeOffsets_mem key (b :: rest) (i + 1) y hmem
        omega
      · rw [if_neg hk]
        exact ih (i + 1)

theorem refineWalk_spec {C : Type} [LinearOrder C] (key : Nat → C) (depth start : Nat)
    (l : List Nat) : ∀ (i newIdx : Nat) (st : RefSt),
    refineWalk key depth start l i newIdx st =
      (⟨st.elements,
        st.bounds ++ (changeOffsets key l i).map (fun o => ⟨start + o, depth⟩),
        walkReverse key l newIdx st.reverse,
        st.refined ++ walkRefined (changeOffsets key l i).length newIdx⟩,
       newIdx + (changeOffsets key l i).length) := by
  induction l with
  | nil =>
    intro i newIdx st
    simp [refineWalk, changeOffsets, walkReverse, walkRefined]
  | cons a tail ih =>
    intro i newIdx st
    cases tail with
    | nil => simp [refineWalk, changeOffsets, walkReverse, walkRefined]
    | cons b rest =>
      simp only [refineWalk]
      by_cases hk : key a ≠ key b
      · rw [if_pos hk, ih (i + 1) (newIdx + 1)]
        simp only [changeOffsets, if_pos hk, walkReverse, List.length_cons, walkRefined_succ,
          List.append_assoc, List.singleton_append, Prod.mk.injEq, RefSt.mk.injEq]
        refine ⟨by simp; omega, by omega⟩
      · rw [if_neg hk, ih (i + 1) newIdx]
        simp only [changeOffsets, if_neg hk, walkReverse, Prod.mk.injEq, RefSt.mk.injEq]

theorem walkReverse_length {C : Type} [DecidableEq C] (key : Nat → C) (l : List Nat) :
    ∀ (newIdx : Nat) (rev : List Nat), (walkReverse key l newIdx rev).length = rev.length := by
  induction l with
  | nil => intro newIdx rev; rfl
  | cons a tail ih =>
    intro newIdx rev
    cases tail with
    | nil => rfl
    | cons b rest =>
      unfold walkReverse
      by_cases hk : key a ≠ key b
      · rw [if_pos hk, ih, List.length_set]
      · rw [if_neg hk, ih, List.length_set]

theorem walkReverse_get_not_mem {C : Type} [DecidableEq C] (key : Nat → C) (l : List Nat) :
    ∀ (newIdx : Nat) (rev : List Nat) (u : Nat), u ∉ l.tail →
      (walkReverse key l newIdx rev).get? u = rev.get? u := by
  induction l with
  | nil => intro newIdx rev u _; rfl
  | cons a tail ih =>
    intro newIdx rev u hu
    cases tail with
    | nil => rfl
    | cons b rest =>
      have hub : b ≠ u := by
        intro hc
        exact hu (by rw [← hc]; exact List.mem_cons_self b rest)
      have hurest : u ∉ (b :: rest).tail := by
        intro hc
        exact hu (List.mem_cons_of_mem b hc)
      unfold walkReverse
      by_cases hk : key a ≠ key b
      · rw [if_pos hk, ih _ _ u hurest, List.get?_set_ne _ _ hub]
      · rw [if_neg hk, ih _ _ u hurest, List.get?_set_ne _ _ hub]

theorem walkReverse_get {C : Type} [DecidableEq C] (key : Nat → C) (l : List Nat) :
    ∀ (newIdx : Nat) (rev : List Nat), l.Nodup → (∀ u ∈ l, u < rev.length) →
      ∀ p, 0 < p → p < l.length →
      (walkReverse key l newIdx rev).get? (l.getD p 0)
        = some (newIdx + (changeOffsets key l 0).countP (fun o => decide (o ≤ p))) := by
  induction l with
  | nil =>
    intro newIdx rev _ _ p _ hp
    simp at hp
  | cons a tail ih =>
    intro newIdx rev hnd hlen p hp0 hp
    cases tail with
    | nil =>
      simp at hp
      omega
    | cons b rest =>
      obtain ⟨q, rfl⟩ : ∃ q, p = q + 1 := ⟨p - 1, by omega⟩
      have hgd : (a :: b :: rest).getD (q + 1) 0 = (b :: rest).getD q 0 := rfl
      rw [hgd]
      have hndt : (b :: rest).Nodup := hnd.of_cons
      have hbrest : b ∉ rest := (List.nodup_cons.mp hndt).1
      have hlent : ∀ u ∈ (b :: rest), u < rev.length := fun u hu =>
        hlen u (List.mem_cons_of_mem a hu)
      have hblen : b < rev.length := hlen b (List.mem_cons_of_mem a (List.mem_cons_self b rest))
      have hshift : changeOffsets key (b :: rest) 1
          = (changeOffsets key (b :: rest) 0).map (· + 1) :=
        changeOffsets_shift key (b :: rest) 0
      have hcnt : ∀ X : List Nat,
          ((X.map (· + 1)).countP (fun o => decide (o ≤ q + 1)))
            = X.countP (fun o => decide (o ≤ q)) := by
        intro X
        rw [List.countP_map]
        apply List.countP_congr
        intro o _
        show decide (o + 1 ≤ q + 1) = true ↔ decide (o ≤ q) = true
        simp
      have hcnt0 : (changeOffsets key (b :: rest) 0).countP (fun o => decide (o ≤ 0)) = 0 := by
        apply List.countP_eq_zero.mpr
        intro o ho
        have := changeOffsets_mem key (b :: rest) 0 o ho
        simp only [decide_eq_true_eq]
        omega
      unfold walkReverse
      by_cases hk : key a ≠ key b
      · have hco : changeOffsets key (a :: b :: rest) 0
            = 1 :: (changeOffsets key (b :: rest) 0).map (· + 1) := by
          show (if key a ≠ key b then (0 + 1) :: changeOffsets key (b :: rest) (0 + 1)
            else changeOffsets key (b :: rest) (0 + 1)) = _
          rw [if_pos hk, hshift]
        rw [if_pos hk]
        rcases Nat.eq_zero_or_pos q with hq0 | hqpos
        · subst hq0
          rw [show (b :: rest).getD 0 0 = b from rfl]
          rw [walkReverse_get_not_mem key (b :: rest) _ _ b hbrest]
          rw [List.get?_set_eq_of_lt _ hblen, hco, List.countP_cons]
          rw [hcnt, hcnt0]
          simp
        · rw [ih (newIdx + 1) (rev.set b (newIdx + 1)) hndt
            (by rw [List.length_set]; exact hlent) q hqpos (by simpa using hp)]
          rw [hco, List.countP_cons, hcnt]
          rw [if_pos (by simp only [decide_eq_true_eq]; omega)]
          congr 1
          omega
      · have hco : changeOffsets key (a :: b :: rest) 0
            = (changeOffsets key (b :: rest) 0).map (· + 1) := by
          show (if key a ≠ key b then (0 + 1) :: changeOffsets key (b :: rest) (0 + 1)
            else changeOffsets key (b :: rest) (0 + 1)) = _
          rw [if_neg hk, hshift]
        rw [if_neg hk]
        rcases Nat.eq_zero_or_pos q with hq0 | hqpos
        · subst hq0
          rw [show (b :: rest).getD 0 0 = b from rfl]
          rw [walkReverse_get_not_mem key (b :: rest) _ _ b hbrest]
          rw [List.get?_set_eq_of_lt _ hblen, hco, hcnt, hcnt0]
          rfl
        · rw [ih newIdx (rev.set b newIdx) hndt
            (by rw [List.length_set]; exact hlent) q hqpos (by simpa using hp)]
          rw [hco, hcnt]

theorem sortByKey_perm {C : Type} [LinearOrder C] (key : Nat → C) (l : List Nat) :
    (sortByKey key l).Perm l := List.perm_insertionSort _ l

/-- Unfolding of refine_color when the sorted cell is nonempty, in terms of
the walk helpers. -/
theorem refine_color_spec {C : Type} [LinearOrder C] (key : Nat → C)
    (depth alreadyLen start cellLen oldIdx newIdx : Nat) (st : RefSt) (h0 : Nat) (t0 : List Nat)
    (hs : sortByKey key ((st.elements.drop start).take cellLen) = h0 :: t0) :
    refine_color key depth alreadyLen start cellLen oldIdx newIdx st =
      (⟨st.elements.take start ++ (h0 :: t0) ++ st.elements.drop (start + cellLen),
        st.bounds ++ (changeOffsets key (h0 :: t0) 0).map (fun o => ⟨start + o, depth⟩),
        walkReverse key (h0 :: t0) newIdx (st.reverse.set h0 newIdx),
        if oldIdx ≠ newIdx + (changeOffsets key (h0 :: t0) 0).length then
          updateRefined (st.refined ++ walkRefined (changeOffsets key (h0 :: t0) 0).length newIdx)
            alreadyLen oldIdx (newIdx + (changeOffsets key (h0 :: t0) 0).length)
        else st.refined ++ walkRefined (changeOffsets key (h0 :: t0) 0).length newIdx⟩,
       newIdx + (changeOffsets key (h0 :: t0) 0).length) := by
  simp only [refine_color]
  rw [hs, refineWalk_spec key depth start (h0 :: t0) 0 newIdx]
  dsimp only
  by_cases hif : oldIdx ≠ newIdx + (changeOffsets key (h0 :: t0) 0).length
  · rw [if_pos hif, if_pos hif]
  · rw [if_neg hif, if_neg hif]

theorem slice_middle {α : Type} (A B Cc : List α) :
    ((A ++ B ++ Cc).take (A.length + B.length)).drop A.length = B := by
  rw [List.take_left' (by rw [List.length_append])]
  exact List.drop_left' rfl

theorem drop_middle {α : Type} (A B Cc : List α) :
    (A ++ B ++ Cc).drop (A.length + B.length) = Cc := by
  rw [← List.length_append]
  exact List.drop_left' rfl

theorem take_middle_front {α : Type} (A B Cc : List α) {m : Nat} (hm : m ≤ A.length) :
    (A ++ B ++ Cc).take m = A.take m := by
  rw [List.append_assoc, List.take_append_of_le_length hm]

theorem getD_front {α : Type} {d : α} (A B Cc : List α) {p : Nat} (hp : p < A.length) :
    (A ++ B ++ Cc).getD p d = A.getD p d := by
  rw [List.append_assoc]
  exact getD_append_left hp

/-- Loop invariant of refine_with: the element prefix below start has been
rebuilt into the new cells recorded in st.bounds, the suffix is untouched, and
the bookkeeping counters agree with the rebuilt bounds. -/
structure RefineInv (n : Nat) (R : ReversibleColoring) (refined0 : List Nat)
    (start oldIdx newIdx : Nat) (st : RefSt) : Prop where
  hstart : start = R.coloring.cutOf oldIdx
  hOle : oldIdx ≤ R.coloring.bounds.length
  hElen : st.elements.length = n
  hEsuffix : st.elements.drop start = R.coloring.elements.drop start
  hEperm : st.elements.Perm (List.range n)
  hNewIdx : newIdx = st.bounds.length
  hChain : List.Chain' (· < ·) (0 :: st.bounds.map Bound.offset)
  hOffLe : ∀ b ∈ st.bounds, b.offset ≤ start
  hOffLt : ∀ b ∈ st.bounds, b.offset < n
  hRevLen : st.reverse.length = n
  hRev : ∀ p, p < start →
    st.reverse.get? (st.elements.getD p 0)
      = some ((st.bounds.map Bound.offset).countP (fun o => decide (o ≤ p)))
  hFilter : ∀ m, m < R.depth → st.bounds.filter (fun b => decide (b.depth ≤ m))
      = (R.coloring.bounds.take oldIdx).filter (fun b => decide (b.depth ≤ m))
  hSpans : ∀ j, j < oldIdx →
    ((st.elements.take (R.coloring.cutOf (j + 1))).drop (R.coloring.cutOf j)).Perm
      (R.coloring.cellAt j)
  hOldOffs : ∀ j, j < oldIdx → R.coloring.cutOf (j + 1) ∈ st.bounds.map Bound.offset
  hGap : oldIdx ≤ newIdx
  hRefLen : st.refined.length ≤ refined0.length + (newIdx - oldIdx) + oldIdx
  hRefEq : oldIdx = newIdx → st.refined = refined0

/-- What one refine_color call guarantees about its output state and returned
new index. -/
structure RefineStepOut (n : Nat) (R : ReversibleColoring)
    (start cellLen oldIdx newIdx : Nat) (st : RefSt) (out : RefSt × Nat) : Prop where
  hNewIdx : out.2 = out.1.bounds.length
  hMono : newIdx ≤ out.2
  hElen : out.1.elements.length = n
  hEperm : out.1.elements.Perm (List.range n)
  hEsuffix : out.1.elements.drop (start + cellLen) = R.coloring.elements.drop (start + cellLen)
  hChain : List.Chain' (· < ·) (0 :: out.1.bounds.map Bound.offset)
  hOffLt2 : ∀ b ∈ out.1.bounds, b.offset < start + cellLen
  hOffLtn : ∀ b ∈ out.1.bounds, b.offset < n
  hRevLen : out.1.reverse.length = n
  hRev : ∀ p, p < start + cellLen →
    out.1.reverse.get? (out.1.elements.getD p 0)
      = some ((out.1.bounds.map Bound.offset).countP (fun o => decide (o ≤ p)))
  hFilter : ∀ m, m < R.depth → out.1.bounds.filter (fun b => decide (b.depth ≤ m))
      = st.bounds.filter (fun b => decide (b.depth ≤ m))
  hSpans : ∀ j, j < oldIdx →
    ((out.1.elements.take (R.coloring.cutOf (j + 1))).drop (R.coloring.cutOf j)).Perm
      (R.coloring.cellAt j)
  hSpanNew : ((out.1.elements.take (R.coloring.cutOf (oldIdx + 1))).drop
      (R.coloring.cutOf oldIdx)).Perm (R.coloring.cellAt oldIdx)
  hOldOffs : ∀ o, o ∈ st.bounds.map Bound.offset → o ∈ out.1.bounds.map Bound.offset
  hRefLen : out.1.refined.length ≤ st.refined.length + (out.2 - newIdx) + 1
  hRefEq : oldIdx = newIdx → out.2 = newIdx → out.1.refined = st.refined

theorem updateRefined_length (r : List Nat) (aL o nI : Nat) :
    (updateRefined r aL o nI).length ≤ r.length + 1 := by
  unfold updateRefined
  cases hf : (r.take aL).findIdx? (· == o) with
  | some j => simp [List.length_set]
  | none => simp

/-- One refine_color call on the current old cell maintains the invariant
payload. -/
theorem refine_color_step {C : Type} [LinearOrder C] (key : Nat → C)
    {n : Nat} {R : ReversibleColoring} (hR : ColInv n R) {refined0 : List Nat}
    {start oldIdx newIdx : Nat} {st : RefSt} (aL : Nat)
    (inv : RefineInv n R refined0 start oldIdx newIdx st)
    {cellLen : Nat} (hlen1 : 1 ≤ cellLen) (hlen2 : start + cellLen ≤ n)
    (hstart2 : start + cellLen = R.coloring.cutOf (oldIdx + 1)) :
    RefineStepOut n R start cellLen oldIdx newIdx st
      (refine_color key R.depth aL start cellLen oldIdx newIdx st) := by
  have hwfR : WFc n R.coloring := ⟨hR.elemsPerm, hR.offsMono, hR.offsBounded⟩
  have hseglen : ((st.elements.drop start).take cellLen).length = cellLen := by
    rw [List.length_take, List.length_drop, inv.hElen]
    omega
  have hsortlen : (sortByKey key ((st.elements.drop start).take cellLen)).length = cellLen := by
    rw [(sortByKey_perm key _).length_eq, hseglen]
  obtain ⟨h0, t0, hs⟩ :
      ∃ h0 t0, sortByKey key ((st.elements.drop start).take cellLen) = h0 :: t0 := by
    cases hsk : sortByKey key ((st.elements.drop start).take cellLen) with
    | nil =>
      rw [hsk] at hsortlen
      simp at hsortlen
      omega
    | cons x xs => exact ⟨x, xs, rfl⟩
  rw [refine_color_spec key R.depth aL start cellLen oldIdx newIdx st h0 t0 hs]
  set B : List Nat := h0 :: t0 with hBdef
  set offs : List Nat := changeOffsets key B 0 with hoffsdef
  set A : List Nat := st.elements.take start with hAdef
  set Cc : List Nat := st.elements.drop (start + cellLen) with hCdef
  have hBperm : B.Perm ((st.elements.drop start).take cellLen) := by
    rw [← hs]
    exact sortByKey_perm key _
  have hBlen : B.length = cellLen := by
    rw [hBperm.length_eq, hseglen]
  have hstnd : st.elements.Nodup := inv.hEperm.nodup_iff.mpr (List.nodup_range n)
  have hsegsub : ((st.elements.drop start).take cellLen).Sublist st.elements :=
    (List.take_sublist _ _).trans (List.drop_sublist _ _)
  have hsegnd : ((st.elements.drop start).take cellLen).Nodup := hstnd.sublist hsegsub
  have hBnd : B.Nodup := hBperm.nodup_iff.mpr hsegnd
  have hBmem : ∀ u ∈ B, u ∈ st.elements := fun u hu =>
    hsegsub.subset (hBperm.subset hu)
  have hBn : ∀ u ∈ B, u < n := by
    intro u hu
    exact List.mem_range.mp (inv.hEperm.subset (hBmem u hu))
  have hh0B : h0 ∈ B := by
    rw [hBdef]
    exact List.mem_cons_self _ _
  have hh0t0 : h0 ∉ B.tail := by
    have hb2 := hBnd
    rw [hBdef] at hb2
    rw [hBdef]
    exact (List.nodup_cons.mp hb2).1
  have hAlen : A.length = start := by
    rw [hAdef, List.length_take, inv.hElen]
    omega
  have hdecomp : st.elements = A ++ ((st.elements.drop start).take cellLen ++ Cc) := by
    rw [hAdef, hCdef]
    conv_lhs => rw [← List.take_append_drop start st.elements]
    congr 1
    conv_lhs => rw [← List.take_append_drop cellLen (st.elements.drop start)]
    congr 1
    exact List.drop_drop _ _ _
  have hE2len : (A ++ B ++ Cc).length = n := by
    simp only [List.length_append, hAlen, hBlen, hCdef, List.length_drop, inv.hElen]
    omega
  have hE2perm : (A ++ B ++ Cc).Perm (List.range n) := by
    have h1 : (A ++ B ++ Cc).Perm (A ++ ((st.elements.drop start).take cellLen ++ Cc)) := by
      rw [List.append_assoc]
      exact List.Perm.append_left A (hBperm.append (List.Perm.refl Cc))
    rw [← hdecomp] at h1
    exact h1.trans inv.hEperm
  have hE2suffix : (A ++ B ++ Cc).drop (start + cellLen)
      = R.coloring.elements.drop (start + cellLen) := by
    have h1 : (A ++ B ++ Cc).drop (A.length + B.length) = Cc := drop_middle A B Cc
    rw [hAlen, hBlen] at h1
    rw [h1, hCdef, ← List.drop_drop cellLen start st.elements, inv.hEsuffix, List.drop_drop]
  have hE2front : ∀ m, m ≤ start → (A ++ B ++ Cc).take m = st.elements.take m := by
    intro m hm
    rw [take_middle_front A B Cc (by rw [hAlen]; exact hm), hAdef, List.take_take,
      Nat.min_eq_left hm]
  have hoffmem : ∀ o ∈ offs, 1 ≤ o ∧ o + 1 ≤ cellLen := by
    intro o ho
    rw [hoffsdef] at ho
    have := changeOffsets_mem key B 0 o ho
    rw [hBlen] at this
    omega
  have hmapoff : ((offs.map (fun o => (⟨start + o, R.depth⟩ : Bound))).map Bound.offset)
      = offs.map (fun o => start + o) := by
    rw [List.map_map]
    rfl
  have hb2map : ((st.bounds ++ offs.map (fun o => (⟨start + o, R.depth⟩ : Bound))).map
      Bound.offset) = st.bounds.map Bound.offset ++ offs.map (fun o => start + o) := by
    rw [List.map_append, hmapoff]
  have hchain2 : List.Chain' (· < ·)
      (0 :: (st.bounds ++ offs.map (fun o => (⟨start + o, R.depth⟩ : Bound))).map
        Bound.offset) := by
    rw [hb2map]
    rw [show (0 :: (st.bounds.map Bound.offset ++ offs.map (fun o => start + o)))
      = (0 :: st.bounds.map Bound.offset) ++ offs.map (fun o => start + o) from rfl]
    refine List.chain'_append.mpr ⟨inv.hChain, ?_, ?_⟩
    · refine (List.chain'_map _).mpr ?_
      have := changeOffsets_chain key B 0
      rw [← hoffsdef] at this
      exact this.imp (fun a b h => by omega)
    · intro x hx y hy
      have hymem := List.mem_of_mem_head? hy
      obtain ⟨o, ho, rfl⟩ := List.mem_map.mp hymem
      have ho2 := hoffmem o ho
      have hxmem := List.mem_of_mem_getLast? hx
      rcases List.mem_cons.mp hxmem with hx0 | hxold
      · omega
      · obtain ⟨b, hb, rfl⟩ := List.mem_map.mp hxold
        have := inv.hOffLe b hb
        omega
  have hofflt2 : ∀ b ∈ st.bounds ++ offs.map (fun o => (⟨start + o, R.depth⟩ : Bound)),
      b.offset < start + cellLen := by
    intro b hb
    rcases List.mem_append.mp hb with hb1 | hb2
    · have := inv.hOffLe b hb1
      omega
    · obtain ⟨o, ho, rfl⟩ := List.mem_map.mp hb2
      have := hoffmem o ho
      show start + o < start + cellLen
      omega
  have hoffltn : ∀ b ∈ st.bounds ++ offs.map (fun o => (⟨start + o, R.depth⟩ : Bound)),
      b.offset < n := by
    intro b hb
    rcases List.mem_append.mp hb with hb1 | hb2
    · exact inv.hOffLt b hb1
    · obtain ⟨o, ho, rfl⟩ := List.mem_map.mp hb2
      have := hoffmem o ho
      show start + o < n
      omega
  have hrevlen2 : (walkReverse key B newIdx (st.reverse.set h0 newIdx)).length = n := by
    rw [walkReverse_length, List.length_set, inv.hRevLen]
  have hcountnew : ∀ pp : Nat,
      ((offs.map (fun o => start + o)).countP (fun o => decide (o ≤ pp)))
        = offs.countP (fun o => decide (start + o ≤ pp)) := by
    intro pp
    rw [List.countP_map]
    rfl
  have hold : ∀ pp, start ≤ pp →
      (st.bounds.map Bound.offset).countP (fun o => decide (o ≤ pp)) = st.bounds.length := by
    intro pp hpp
    have hall : ∀ o ∈ st.bounds.map Bound.offset, (fun o => decide (o ≤ pp)) o = true := by
      intro o ho
      obtain ⟨b, hb, rfl⟩ := List.mem_map.mp ho
      simp only [decide_eq_true_eq]
      have := inv.hOffLe b hb
      omega
    rw [List.countP_eq_length.mpr (by intro a ha; exact hall a ha), List.length_map]
  have hrev2 : ∀ p, p < start + cellLen →
      (walkReverse key B newIdx (st.reverse.set h0 newIdx)).get? ((A ++ B ++ Cc).getD p 0)
        = some (((st.bounds ++ offs.map (fun o => (⟨start + o, R.depth⟩ : Bound))).map
            Bound.offset).countP (fun o => decide (o ≤ p))) := by
    intro p hp
    rw [hb2map, List.countP_append]
    rcases Nat.lt_or_ge p start with hps | hps
    · have hgd : (A ++ B ++ Cc).getD p 0 = st.elements.getD p 0 := by
        rw [getD_front A B Cc (by rw [hAlen]; exact hps), hAdef]
        exact getD_take_eq hps (by rw [inv.hElen]; omega)
      rw [hgd]
      have humem : st.elements.getD p 0 ∈ A := by
        rw [hAdef, ← getD_take_eq hps (by rw [inv.hElen]; omega)]
        rw [List.getD_eq_getElem _ _ (by rw [List.length_take, inv.hElen]; omega)]
        exact List.getElem_mem _
      have hnotB : st.elements.getD p 0 ∉ B := by
        intro hc
        have h1 : st.elements.getD p 0 ∈ st.elements.drop start :=
          List.take_subset _ _ (hBperm.subset hc)
        have hnd2 : (st.elements.take start ++ st.elements.drop start).Nodup := by
          rw [List.take_append_drop]
          exact hstnd
        have hdisj := (List.nodup_append.mp hnd2).2.2
        rw [hAdef] at humem
        exact hdisj humem h1
      have hnoth0 : h0 ≠ st.elements.getD p 0 := by
        intro hc
        exact hnotB (by rw [← hc]; exact hh0B)
      rw [walkReverse_get_not_mem key B _ _ _
        (fun hc => hnotB ((List.tail_sublist B).subset hc))]
      rw [List.get?_set_ne _ _ hnoth0, inv.hRev p hps]
      have hz : offs.countP (fun o => decide (start + o ≤ p)) = 0 := by
        apply List.countP_eq_zero.mpr
        intro o ho
        have := hoffmem o ho
        simp only [decide_eq_true_eq]
        omega
      rw [hcountnew, hz]
      rfl
    · obtain ⟨q, rfl⟩ : ∃ q, p = start + q := ⟨p - start, by omega⟩
      have hqlt : q < cellLen := by omega
      have hgd : (A ++ B ++ Cc).getD (start + q) 0 = B.getD q 0 := by
        rw [List.append_assoc]
        rw [getD_append_right (by rw [hAlen]; omega)
          (by rw [hAlen, List.length_append, hBlen, hCdef, List.length_drop, inv.hElen]; omega)]
        rw [hAlen]
        have h1 : start + q - start = q := by omega
        rw [h1]
        exact getD_append_left (by rw [hBlen]; exact hqlt)
      rw [hgd, hold (start + q) (by omega)]
      rcases Nat.eq_zero_or_pos q with hq0 | hqpos
      · subst hq0
        have hgd0 : B.getD 0 0 = h0 := by
          rw [hBdef]
          rfl
        rw [hgd0]
        rw [walkReverse_get_not_mem key B _ _ h0 hh0t0]
        rw [List.get?_set_eq_of_lt _ (by rw [inv.hRevLen]; exact hBn h0 hh0B)]
        have hz : offs.countP (fun o => decide (start + o ≤ start + 0)) = 0 := by
          apply List.countP_eq_zero.mpr
          intro o ho
          have := hoffmem o ho
          simp only [decide_eq_true_eq]
          omega
        rw [hcountnew, hz, inv.hNewIdx]
        rfl
      · rw [walkReverse_get key B newIdx (st.reverse.set h0 newIdx) hBnd
          (by intro u hu; rw [List.length_set, inv.hRevLen]; exact hBn u hu)
          q hqpos (by rw [hBlen]; exact hqlt)]
        rw [hcountnew]
        have heq : offs.countP (fun o => decide (start + o ≤ start + q))
            = offs.countP (fun o => decide (o ≤ q)) := by
          apply List.countP_congr
          intro o _
          simp only [decide_eq_true_eq]
          omega
        rw [heq, inv.hNewIdx, ← hoffsdef]
  have hfilter2 : ∀ m, m < R.depth →
      (st.bounds ++ offs.map (fun o => (⟨start + o, R.depth⟩ : Bound))).filter
          (fun b => decide (b.depth ≤ m))
        = st.bounds.filter (fun b => decide (b.depth ≤ m)) := by
    intro m hm
    rw [List.filter_append]
    have hz : (offs.map (fun o => (⟨start + o, R.depth⟩ : Bound))).filter
        (fun b => decide (b.depth ≤ m)) = [] := by
      apply List.filter_eq_nil.mpr
      intro b hb
      obtain ⟨o, ho, rfl⟩ := List.mem_map.mp hb
      simp only [decide_eq_true_eq]
      show ¬(R.depth ≤ m)
      omega
    rw [hz, List.append_nil]
  have hspans2 : ∀ j, j < oldIdx →
      (((A ++ B ++ Cc).take (R.coloring.cutOf (j + 1))).drop (R.coloring.cutOf j)).Perm
        (R.coloring.cellAt j) := by
    intro j hj
    have hcut : R.coloring.cutOf (j + 1) ≤ start := by
      rw [inv.hstart]
      exact hwfR.cut_le_cut (j + 1) oldIdx hj
    rw [hE2front _ hcut]
    exact inv.hSpans j hj
  have hspannew : (((A ++ B ++ Cc).take (R.coloring.cutOf (oldIdx + 1))).drop
      (R.coloring.cutOf oldIdx)).Perm (R.coloring.cellAt oldIdx) := by
    have h1 : ((A ++ B ++ Cc).take (start + cellLen)).drop start = B := by
      have h2 := slice_middle A B Cc
      rw [hAlen, hBlen] at h2
      exact h2
    rw [← hstart2, ← inv.hstart, h1]
    refine hBperm.trans ?_
    have hseg2 : (st.elements.drop start).take cellLen
        = (R.coloring.elements.drop start).take cellLen := by
      rw [inv.hEsuffix]
    rw [hseg2]
    have h2 : R.coloring.cellAt oldIdx
        = (R.coloring.elements.drop start).take cellLen := by
      show (R.coloring.elements.take (R.coloring.cutOf (oldIdx + 1))).drop
        (R.coloring.cutOf oldIdx) = _
      rw [← hstart2, ← inv.hstart, List.drop_take]
      have h3 : start + cellLen - start = cellLen := by omega
      rw [h3]
    rw [h2]
  have hreflen2 : (if oldIdx ≠ newIdx + offs.length then
        updateRefined (st.refined ++ walkRefined offs.length newIdx)
          aL oldIdx (newIdx + offs.length)
      else st.refined ++ walkRefined offs.length newIdx).length
      ≤ st.refined.length + offs.length + 1 := by
    by_cases hif : oldIdx ≠ newIdx + offs.length
    · rw [if_pos hif]
      have h1 := updateRefined_length (st.refined ++ walkRefined offs.length newIdx)
        aL oldIdx (newIdx + offs.length)
      rw [List.length_append, walkRefined_length] at h1
      omega
    · rw [if_neg hif, List.length_append, walkRefined_length]
      omega
  have hrefeq2 : oldIdx = newIdx → newIdx + offs.length = newIdx →
      (if oldIdx ≠ newIdx + offs.length then
        updateRefined (st.refined ++ walkRefined offs.length newIdx)
          aL oldIdx (newIdx + offs.length)
      else st.refined ++ walkRefined offs.length newIdx) = st.refined := by
    intro h1 h2
    have hz : offs.length = 0 := by omega
    rw [if_neg (fun hne => hne (by omega)), hz]
    exact List.append_nil _
  exact
    { hNewIdx := by
        show newIdx + offs.length = (st.bounds
          ++ offs.map (fun o => (⟨start + o, R.depth⟩ : Bound))).length
        rw [List.length_append, List.length_map, inv.hNewIdx]
      hMono := Nat.le_add_right _ _
      hElen := hE2len
      hEperm := hE2perm
      hEsuffix := hE2suffix
      hChain := hchain2
      hOffLt2 := hofflt2
      hOffLtn := hoffltn
      hRevLen := hrevlen2
      hRev := hrev2
      hFilter := hfilter2
      hSpans := hspans2
      hSpanNew := hspannew
      hOldOffs := by
        intro o ho
        rw [List.map_append]
        exact List.mem_append_left _ ho
      hRefLen := by
        show _ ≤ st.refined.length + (newIdx + offs.length - newIdx) + 1
        have h1 : newIdx + offs.length - newIdx = offs.length := by omega
        rw [h1]
        exact hreflen2
      hRefEq := hrefeq2 }

/-- What the whole refine loop guarantees about its final state. -/
structure RefinePost (n : Nat) (R : ReversibleColoring) (refined0 : List Nat)
    (st : RefSt) : Prop where
  hElen : st.elements.length = n
  hEperm : st.elements.Perm (List.range n)
  hNewLen : R.coloring.bounds.length ≤ st.bounds.length
  hChain : List.Chain' (· < ·) (0 :: st.bounds.map Bound.offset)
  hOffLt : ∀ b ∈ st.bounds, b.offset < n
  hRevLen : st.reverse.length = n
  hRev : ∀ p, p < n → st.reverse.get? (st.elements.getD p 0)
      = some ((st.bounds.map Bound.offset).countP (fun o => decide (o ≤ p)))
  hFilter : ∀ m, m < R.depth → st.bounds.filter (fun b => decide (b.depth ≤ m))
      = R.coloring.bounds.filter (fun b => decide (b.depth ≤ m))
  hSpans : ∀ j, j < R.coloring.len →
    ((st.elements.take (R.coloring.cutOf (j + 1))).drop (R.coloring.cutOf j)).Perm
      (R.coloring.cellAt j)
  hOldOffs : ∀ j, j < R.coloring.bounds.length →
    R.coloring.cutOf (j + 1) ∈ st.bounds.map Bound.offset
  hRefLen : st.refined.length ≤ refined0.length
      + (st.bounds.length - R.coloring.bounds.length) + R.coloring.len
  hRefEq : st.bounds.length = R.coloring.bounds.length → st.refined = refined0

/-- The refine loop establishes the postcondition from any invariant point. -/
theorem refineLoop_post {C : Type} [LinearOrder C] (key : Nat → C) {n : Nat}
    {R : ReversibleColoring} (hR : ColInv n R) (hn : 0 < n) {refined0 : List Nat}
    (bs : List Bound) :
    ∀ (start oldIdx newIdx : Nat) (st : RefSt),
      bs = R.coloring.bounds.drop oldIdx →
      RefineInv n R refined0 start oldIdx newIdx st →
      RefinePost n R refined0
        (refineLoop key R.depth refined0.length bs start oldIdx newIdx st) := by
  have hwfR : WFc n R.coloring := ⟨hR.elemsPerm, hR.offsMono, hR.offsBounded⟩
  induction bs with
  | nil =>
    intro start oldIdx newIdx st hdrop inv
    have hlen0 : R.coloring.bounds.length ≤ oldIdx := by
      by_contra hc
      have h1 : (R.coloring.bounds.drop oldIdx).length = R.coloring.bounds.length - oldIdx :=
        List.length_drop _ _
      rw [← hdrop] at h1
      simp only [List.length_nil] at h1
      omega
    have hOe : oldIdx = R.coloring.bounds.length := le_antisymm inv.hOle hlen0
    have htop : R.coloring.cutOf (R.coloring.bounds.length + 1) = n := by
      rw [R.coloring.cutOf_of_ge (by omega), hwfR.elems_len]
    have hstartlt : start < n := by
      rw [inv.hstart, hOe]
      have h1 := hwfR.cut_lt hn (i := R.coloring.bounds.length) (by unfold Coloring.len; omega)
      omega
    simp only [refineLoop]
    set cellLen := st.elements.length - start with hcldef
    have hcl1 : 1 ≤ cellLen := by
      rw [hcldef, inv.hElen]
      omega
    have hcl2 : start + cellLen ≤ n := by
      rw [hcldef, inv.hElen]
      omega
    have hcl3 : start + cellLen = R.coloring.cutOf (oldIdx + 1) := by
      rw [hcldef, inv.hElen, hOe, htop]
      omega
    have hn2 : start + cellLen = n := by
      rw [hcldef, inv.hElen]
      omega
    have hstep := refine_color_step key hR refined0.length inv hcl1 hcl2 hcl3
    cases hrc : refine_color key R.depth refined0.length start cellLen oldIdx newIdx st with
    | mk st2 newIdx2 =>
    rw [hrc] at hstep
    obtain ⟨hsN, hsM, hsEl, hsEp, hsSuf, hsCh, hsO2, hsOn, hsRl, hsRv, hsFl, hsSp, hsSpN,
      hsOO, hsRL, hsRE⟩ := hstep
    have hsN2 : newIdx2 = st2.bounds.length := hsN
    have hsM2 : newIdx ≤ newIdx2 := hsM
    have hsRL2 : st2.refined.length ≤ st.refined.length + (newIdx2 - newIdx) + 1 := hsRL
    refine ⟨hsEl, hsEp, ?_, hsCh, hsOn, hsRl, ?_, ?_, ?_, ?_, ?_, ?_⟩
    · have h3 := inv.hGap
      have h4 := inv.hOle
      omega
    · intro p hp
      exact hsRv p (by omega)
    · intro m hm
      have h1 : st2.bounds.filter (fun b => decide (b.depth ≤ m))
          = st.bounds.filter (fun b => decide (b.depth ≤ m)) := hsFl m hm
      have h2 := inv.hFilter m hm
      rw [hOe, List.take_length] at h2
      rw [h1, h2]
    · intro j hj
      unfold Coloring.len at hj
      rcases Nat.lt_or_ge j oldIdx with hj2 | hj2
      · exact hsSp j hj2
      · have hje : j = oldIdx := by omega
        rw [hje]
        exact hsSpN
    · intro j hj
      exact hsOO _ (inv.hOldOffs j (by omega))
    · have h2 := inv.hRefLen
      have h5 := inv.hGap
      unfold Coloring.len
      omega
    · intro hEq
      have h5 := inv.hGap
      have h6 : newIdx = oldIdx := by omega
      have h7 : newIdx2 = newIdx := by omega
      have h8 : st2.refined = st.refined := hsRE h6.symm h7
      rw [h8]
      exact inv.hRefEq h6.symm
  | cons e rest ih =>
    intro start oldIdx newIdx st hdrop inv
    have hlt : oldIdx < R.coloring.bounds.length := by
      by_contra hc
      have h1 : R.coloring.bounds.drop oldIdx = [] := List.drop_eq_nil_of_le (by omega)
      rw [h1] at hdrop
      exact List.noConfusion hdrop
    have hget : R.coloring.bounds.get? oldIdx = some e := by
      have h1 : (R.coloring.bounds.drop oldIdx).get? 0 = some e := by
        rw [← hdrop]
        rfl
      rw [List.get?_drop] at h1
      simpa using h1
    have hrest : rest = R.coloring.bounds.drop (oldIdx + 1) := by
      have h1 : (e :: rest).drop 1 = (R.coloring.bounds.drop oldIdx).drop 1 := by
        rw [hdrop]
      rw [List.drop_drop] at h1
      simpa using h1
    have hgetE : R.coloring.bounds[oldIdx]? = some e := by
      rw [← List.get?_eq_getElem?]
      exact hget
    have hoffget : R.coloring.offs.getD oldIdx 0 = e.offset := by
      have h4 : R.coloring.offs[oldIdx]? = some e.offset := by
        show (R.coloring.bounds.map Bound.offset)[oldIdx]? = _
        rw [List.getElem?_map, hgetE]
        rfl
      rw [List.getElem?_eq_getElem (by rw [WFc.offs_len]; omega)] at h4
      rw [List.getD_eq_getElem _ _ (by rw [WFc.offs_len]; omega)]
      exact Option.some.inj h4
    have he : e.offset = R.coloring.cutOf (oldIdx + 1) := by
      rw [R.coloring.cutOf_succ (by rw [WFc.offs_len]; omega), hoffget]
    have hstartle : start ≤ e.offset := by
      rw [inv.hstart, he]
      exact hwfR.cut_le_cut oldIdx (oldIdx + 1) (by omega)
    have heofn : e.offset < n := by
      rw [he, R.coloring.cutOf_succ (by rw [WFc.offs_len]; omega)]
      apply hR.offsBounded
      rw [List.getD_eq_getElem _ _ (by rw [WFc.offs_len]; omega)]
      exact List.getElem_mem _
    simp only [refineLoop]
    set cellLen := e.offset - start with hcldef
    have hcl3 : start + cellLen = R.coloring.cutOf (oldIdx + 1) := by
      rw [hcldef, ← he]
      omega
    have hcl1 : 1 ≤ cellLen := by
      have h1 := hwfR.cut_lt hn (i := oldIdx) (by unfold Coloring.len; omega)
      rw [hcldef, he, inv.hstart]
      omega
    have hcl2 : start + cellLen ≤ n := by
      rw [hcl3]
      have h1 := hwfR.cut_le_cut (oldIdx + 1) R.coloring.len (by unfold Coloring.len; omega)
      rw [hwfR.cut_len] at h1
      exact h1
    have heq2 : start + cellLen = e.offset := by
      rw [hcldef]
      omega
    have hstep := refine_color_step key hR refined0.length inv hcl1 hcl2 hcl3
    cases hrc : refine_color key R.depth refined0.length start cellLen oldIdx newIdx st with
    | mk st2 newIdx2 =>
    rw [hrc] at hstep
    obtain ⟨hsN, hsM, hsEl, hsEp, hsSuf, hsCh, hsO2, hsOn, hsRl, hsRv, hsFl, hsSp, hsSpN,
      hsOO, hsRL, hsRE⟩ := hstep
    have hsN2 : newIdx2 = st2.bounds.length := hsN
    have hsM2 : newIdx ≤ newIdx2 := hsM
    have hsRL2 : st2.refined.length ≤ st.refined.length + (newIdx2 - newIdx) + 1 := hsRL
    have hsO22 : ∀ b ∈ st2.bounds, b.offset < start + cellLen := hsO2
    have hNext : RefineInv n R refined0 e.offset (oldIdx + 1) (newIdx2 + 1)
        { st2 with bounds := st2.bounds ++ [e] } := by
      refine ⟨he, hlt, hsEl, ?_, hsEp, ?_, ?_, ?_, ?_, hsRl, ?_, ?_, ?_, ?_, ?_, ?_, ?_⟩
      · show st2.elements.drop e.offset = R.coloring.elements.drop e.offset
        rw [← heq2]
        exact hsSuf
      · show newIdx2 + 1 = (st2.bounds ++ [e]).length
        rw [List.length_append]
        simp only [List.length_singleton]
        omega
      · show List.Chain' (· < ·) (0 :: (st2.bounds ++ [e]).map Bound.offset)
        rw [List.map_append]
        rw [show (0 :: (st2.bounds.map Bound.offset ++ [e].map Bound.offset))
          = (0 :: st2.bounds.map Bound.offset) ++ [e].map Bound.offset from rfl]
        refine List.chain'_append.mpr ⟨hsCh, ?_, ?_⟩
        · simp
        · intro x hx y hy
          have hymem := List.mem_of_mem_head? hy
          simp only [List.map_cons, List.map_nil, List.mem_singleton] at hymem
          subst hymem
          have hxmem := List.mem_of_mem_getLast? hx
          rcases List.mem_cons.mp hxmem with hx0 | hxold
          · omega
          · obtain ⟨b, hb, rfl⟩ := List.mem_map.mp hxold
            have := hsO22 b hb
            omega
      · intro b hb
        rcases List.mem_append.mp hb with hb1 | hb2
        · have := hsO22 b hb1
          omega
        · rw [List.mem_singleton] at hb2
          subst hb2
          exact le_rfl
      · intro b hb
        rcases List.mem_append.mp hb with hb1 | hb2
        · exact hsOn b hb1
        · rw [List.mem_singleton] at hb2
          subst hb2
          exact heofn
      · intro p hp
        show st2.reverse.get? (st2.elements.getD p 0)
          = some (((st2.bounds ++ [e]).map Bound.offset).countP (fun o => decide (o ≤ p)))
        rw [List.map_append, List.countP_append]
        have hz : ([e].map Bound.offset).countP (fun o => decide (o ≤ p)) = 0 := by
          simp only [List.map_cons, List.map_nil, List.countP_cons, List.countP_nil]
          rw [if_neg (by simp only [decide_eq_true_eq]; omega)]
        rw [hz, Nat.add_zero]
        exact hsRv p (by omega)
      · intro m hm
        show (st2.bounds ++ [e]).filter _ = _
        rw [List.filter_append]
        have h1 : st2.bounds.filter (fun b => decide (b.depth ≤ m))
            = st.bounds.filter (fun b => decide (b.depth ≤ m)) := hsFl m hm
        rw [h1, inv.hFilter m hm, List.take_succ, hgetE]
        rw [List.filter_append]
        rfl
      · intro j hj
        rcases Nat.lt_or_ge j oldIdx with hj2 | hj2
        · exact hsSp j hj2
        · have hje : j = oldIdx := by omega
          rw [hje]
          exact hsSpN
      · intro j hj
        show R.coloring.cutOf (j + 1) ∈ (st2.bounds ++ [e]).map Bound.offset
        rw [List.map_append]
        rcases Nat.lt_or_ge j oldIdx with hj2 | hj2
        · exact List.mem_append_left _ (hsOO _ (inv.hOldOffs j hj2))
        · have hje : j = oldIdx := by omega
          rw [hje, ← he]
          exact List.mem_append_right _ (by simp)
      · show oldIdx + 1 ≤ newIdx2 + 1
        have h5 := inv.hGap
        omega
      · show st2.refined.length ≤ refined0.length + (newIdx2 + 1 - (oldIdx + 1)) + (oldIdx + 1)
        have h2 := inv.hRefLen
        have h5 := inv.hGap
        omega
      · intro hEq
        have h5 := inv.hGap
        have h6 : newIdx = oldIdx := by omega
        have h7 : newIdx2 = newIdx := by omega
        have h8 : st2.refined = st.refined := hsRE h6.symm h7
        show st2.refined = refined0
        rw [h8]
        exact inv.hRefEq h6.symm
    exact ih e.offset (oldIdx + 1) (newIdx2 + 1) _ hrest hNext

theorem WFc.mem_cellAt_pos {n : Nat} {c : Coloring} (h : WFc n c) {j u : Nat} (hj : j < c.len)
    (hu : u ∈ c.cellAt j) :
    ∃ p, c.cutOf j ≤ p ∧ p < c.cutOf (j + 1) ∧ c.elements.getD p 0 = u := by
  have hlen := h.cellAt_length hj
  have hcle := h.cut_le_cut j (j + 1) (by omega)
  have hcn : c.cutOf (j + 1) ≤ n := by
    have h1 := h.cut_le_cut (j + 1) c.len hj
    rwa [h.cut_len] at h1
  obtain ⟨q, hq, hval⟩ := List.mem_iff_getElem.mp hu
  refine ⟨c.cutOf j + q, Nat.le_add_right _ _, by omega, ?_⟩
  have h2 : (c.cellAt j).getD q 0 = u := by
    rw [List.getD_eq_getElem _ _ hq, hval]
  have h3 : (c.cellAt j).getD q 0 = c.elements.getD (c.cutOf j + q) 0 := by
    show ((c.elements.take (c.cutOf (j + 1))).drop (c.cutOf j)).getD q 0 = _
    rw [getD_drop_eq (by rw [List.length_take, h.elems_len]; omega)]
    exact getD_take_eq (by omega) (by rw [h.elems_len]; omega)
  rw [← h3, h2]

theorem WFc.countP_le_cut {n : Nat} {c : Coloring} (h : WFc n c) {j p : Nat} (hj : j < c.len)
    (h1 : c.cutOf j ≤ p) (h2 : p < c.cutOf (j + 1)) :
    (c.bounds.map Bound.offset).countP (fun o => decide (o ≤ p)) = j := by
  have hofflen : c.offs.length = c.bounds.length := WFc.offs_len
  have hjb : j ≤ c.bounds.length := by
    unfold Coloring.len at hj
    omega
  have hsplit : c.bounds.map Bound.offset = c.offs.take j ++ c.offs.drop j :=
    (List.take_append_drop _ _).symm
  rw [hsplit, List.countP_append]
  have htake : (c.offs.take j).countP (fun o => decide (o ≤ p)) = j := by
    have hall : ∀ o ∈ c.offs.take j, decide (o ≤ p) = true := by
      intro o ho
      obtain ⟨t, ht, hval⟩ := List.mem_iff_getElem.mp ho
      have ht2 : t < j := by
        rw [List.length_take] at ht
        omega
      have h5 : (c.offs.take j).getD t 0 = o := by
        rw [List.getD_eq_getElem _ _ ht, hval]
      rw [getD_take_eq ht2 (by omega)] at h5
      have hcut : c.cutOf (t + 1) = o := by
        rw [c.cutOf_succ (by omega), h5]
      have hle := h.cut_le_cut (t + 1) j (by omega)
      simp only [decide_eq_true_eq]
      omega
    rw [List.countP_eq_length.mpr (fun a ha => hall a ha), List.length_take]
    omega
  have hdrop : (c.offs.drop j).countP (fun o => decide (o ≤ p)) = 0 := by
    apply List.countP_eq_zero.mpr
    intro o ho
    obtain ⟨t, ht, hval⟩ := List.mem_iff_getElem.mp ho
    have ht2 : j + t < c.offs.length := by
      rw [List.length_drop] at ht
      omega
    have h5 : (c.offs.drop j).getD t 0 = o := by
      rw [List.getD_eq_getElem _ _ ht, hval]
    rw [getD_drop_eq ht2] at h5
    have hcut : c.cutOf (j + t + 1) = o := by
      rw [c.cutOf_succ (by omega), h5]
    have hge := h.cut_le_cut (j + 1) (j + t + 1) (by omega)
    simp only [decide_eq_true_eq]
    omega
  rw [htake, hdrop]
  omega

theorem WFc.self_le_cut {n : Nat} {c : Coloring} (h : WFc n c) (hn : 0 < n) :
    ∀ j, j ≤ c.len → j ≤ c.cutOf j := by
  intro j
  induction j with
  | zero => intro _; exact Nat.zero_le _
  | succ m ih =>
    intro hm
    have h1 := h.cut_lt hn (i := m) (by omega)
    have h2 := ih (by omega)
    omega

theorem WFc.len_le {n : Nat} {c : Coloring} (h : WFc n c) (hn : 0 < n) : c.len ≤ n := by
  have h1 := h.self_le_cut hn c.len le_rfl
  rwa [h.cut_len] at h1

theorem WFc.slice_cells {n : Nat} {c : Coloring} (h : WFc n c) {s t : Nat} (hs : s ≤ t)
    (ht : t ≤ c.len) :
    (c.elements.take (c.cutOf t)).drop (c.cutOf s)
      = ((c.colorsList.take t).drop s).flatten := by
  have h2 : (c.colorsList.take t).take s = c.colorsList.take s := by
    rw [List.take_take, Nat.min_eq_left hs]
  have h3 : c.elements.take (c.cutOf t)
      = c.elements.take (c.cutOf s) ++ ((c.colorsList.take t).drop s).flatten := by
    conv_lhs => rw [← h.flatten_take_cells ht,
      ← List.take_append_drop s (c.colorsList.take t), List.flatten_append, h2,
      h.flatten_take_cells (hs.trans ht)]
  rw [h3]
  apply List.drop_left'
  rw [List.length_take, h.elems_len]
  have h4 : c.cutOf s ≤ n := by
    have h5 := h.cut_le_cut s c.len (hs.trans ht)
    rwa [h.cut_len] at h5
  omega

theorem Coloring.colorsList_sort_cells {n : Nat} {c : Coloring} (h : WFc n c) :
    (c.sort_cells).colorsList = c.colorsList.map sortNat := by
  rw [Coloring.colorsList_eq_map, Coloring.colorsList_eq_map, WFc.sort_cells_len,
    List.map_map]
  apply List.map_congr_left
  intro i hi
  exact h.sort_cells_cellAt (List.mem_range.mp hi)

/-- sort_cells permutes the elements within any cut-aligned window. -/
theorem WFc.sort_cells_slice_perm {n : Nat} {c : Coloring} (h : WFc n c) {s t : Nat}
    (hs : s ≤ t) (ht : t ≤ c.len) :
    (((c.sort_cells).elements.take (c.cutOf t)).drop (c.cutOf s)).Perm
      ((c.elements.take (c.cutOf t)).drop (c.cutOf s)) := by
  have hwf2 := h.sort_cells_wf
  have h1 : (c.sort_cells).cutOf t = c.cutOf t := h.sort_cells_cutOf t
  have h2 : (c.sort_cells).cutOf s = c.cutOf s := h.sort_cells_cutOf s
  have h3 := hwf2.slice_cells hs (by rw [WFc.sort_cells_len]; exact ht)
  rw [h1, h2] at h3
  rw [h3, h.slice_cells hs ht, Coloring.colorsList_sort_cells h, ← List.map_take,
    ← List.map_drop]
  exact flatten_map_sortNat_perm _

/-- What refine_with guarantees: the refined state satisfies the coloring
invariants, never merges cells, keeps shallow bounds, permutes elements only
within old cells, keeps all old cut offsets, and grows refined_colors
boundedly. -/
structure RefineWithOut (n : Nat) (R R2 : ReversibleColoring)
    (refined0 refined2 : List Nat) : Prop where
  hInv : ColInv n R2
  hDepth : R2.depth = R.depth
  hLen : R.coloring.len ≤ R2.coloring.len
  hLenLe : R2.coloring.len ≤ n
  hFilter : ∀ m, m < R.depth → R2.coloring.bounds.filter (fun b => decide (b.depth ≤ m))
      = R.coloring.bounds.filter (fun b => decide (b.depth ≤ m))
  hSpans : ∀ j, j < R.coloring.len →
    ((R2.coloring.elements.take (R.coloring.cutOf (j + 1))).drop
      (R.coloring.cutOf j)).Perm (R.coloring.cellAt j)
  hOldOffs : ∀ o, o ∈ R.coloring.offs → o ∈ R2.coloring.offs
  hRefLen : refined2.length ≤ refined0.length + (R2.coloring.len - R.coloring.len)
      + R.coloring.len
  hRefEq : R2.coloring.len = R.coloring.len → refined2 = refined0

/-- The full characterization of refine_with on an invariant-satisfying
state. -/
theorem refine_with_spec {C : Type} [LinearOrder C] {n : Nat} {R : ReversibleColoring}
    (hR : ColInv n R) (hn : 0 < n) (refined0 : List Nat) (key : Nat → C) :
    RefineWithOut n R (R.refine_with refined0 key).1 refined0
      (R.refine_with refined0 key).2.1
    ∧ (R.refine_with refined0 key).2.2
      = decide ((R.refine_with refined0 key).1.coloring.len ≠ R.coloring.len) := by
  have hwfR : WFc n R.coloring := ⟨hR.elemsPerm, hR.offsMono, hR.offsBounded⟩
  have hinv0 : RefineInv n R refined0 0 0 0
      ⟨R.coloring.elements, [], R.reverse, refined0⟩ := by
    refine ⟨?_, Nat.zero_le _, hwfR.elems_len, rfl, hR.elemsPerm, rfl, ?_, ?_, ?_, hR.revLen,
      ?_, ?_, ?_, ?_, le_rfl, ?_, fun _ => rfl⟩
    · rw [WFc.cut_zero]
    · exact List.chain'_singleton 0
    · intro b hb
      cases hb
    · intro b hb
      cases hb
    · intro p hp
      exact absurd hp (Nat.not_lt_zero p)
    · intro m _
      rfl
    · intro j hj
      exact absurd hj (Nat.not_lt_zero j)
    · intro j hj
      exact absurd hj (Nat.not_lt_zero j)
    · show refined0.length ≤ refined0.length + (0 - 0) + 0
      omega
  have hpost := refineLoop_post key hR hn R.coloring.bounds 0 0 0
    ⟨R.coloring.elements, [], R.reverse, refined0⟩ (List.drop_zero _).symm hinv0
  set stF := refineLoop key R.depth refined0.length R.coloring.bounds 0 0 0
    ⟨R.coloring.elements, [], R.reverse, refined0⟩ with hstF
  set c1 : Coloring := ⟨stF.elements, stF.bounds⟩ with hc1def
  have hrw : R.refine_with refined0 key
      = (⟨Coloring.sort_cells c1, stF.reverse, R.depth⟩, stF.refined,
        decide ((Coloring.sort_cells c1).len ≠ R.coloring.len)) := rfl
  rw [hrw]
  have hwfc1 : WFc n c1 := by
    refine ⟨hpost.hEperm, hpost.hChain, ?_⟩
    intro o ho
    obtain ⟨b, hb, rfl⟩ := List.mem_map.mp ho
    exact hpost.hOffLt b hb
  have hwf2 := hwfc1.sort_cells_wf
  have hlen2eq : (Coloring.sort_cells c1).len = stF.bounds.length + 1 := by
    rw [WFc.sort_cells_len]
    rfl
  have haligned : ∀ v, v = 0 ∨ v ∈ stF.bounds.map Bound.offset ∨ v = n →
      ∃ t, t ≤ c1.len ∧ c1.cutOf t = v := by
    intro v hv
    rcases hv with hv | hv | hv
    · exact ⟨0, Nat.zero_le _, by rw [WFc.cut_zero, hv]⟩
    · obtain ⟨idx, hidx, hval⟩ := List.mem_iff_getElem.mp hv
      rw [List.length_map] at hidx
      refine ⟨idx + 1, by show idx + 1 ≤ stF.bounds.length + 1; omega, ?_⟩
      rw [c1.cutOf_succ (by rw [WFc.offs_len]; exact hidx)]
      rw [List.getD_eq_getElem _ _ (by rw [WFc.offs_len]; exact hidx)]
      exact hval
    · exact ⟨c1.len, le_rfl, by rw [hwfc1.cut_len, hv]⟩
  have hcolinv2 : ColInv n (⟨Coloring.sort_cells c1, stF.reverse, R.depth⟩ :
      ReversibleColoring) := by
    refine ⟨hpost.hRevLen, hwf2.perm, hwf2.mono, hwf2.bounded, ?_, ?_⟩
    · intro i hi
      rw [Coloring.get_eq_cellAt _ _ hi]
      simp only [Option.getD_some]
      exact hwfc1.sort_cells_sorted (by rw [← WFc.sort_cells_len c1]; exact hi)
    · intro i hi u hu
      rw [Coloring.get_eq_cellAt _ _ hi] at hu
      simp only [Option.getD_some] at hu
      have hi1 : i < c1.len := by rw [← WFc.sort_cells_len c1]; exact hi
      rw [hwfc1.sort_cells_cellAt hi1] at hu
      have hu2 : u ∈ c1.cellAt i := (sortNat_perm _).mem_iff.mp hu
      obtain ⟨p, hp1, hp2, hp3⟩ := hwfc1.mem_cellAt_pos hi1 hu2
      have hpn : p < n := by
        have h1 := hwfc1.cut_le_cut (i + 1) c1.len hi1
        rw [hwfc1.cut_len] at h1
        omega
      have h4 := hpost.hRev p hpn
      rw [hp3] at h4
      rw [h4]
      congr 1
      exact hwfc1.countP_le_cut hi1 hp1 hp2
  refine ⟨⟨hcolinv2, rfl, ?_, ?_, ?_, ?_, ?_, ?_, ?_⟩, rfl⟩
  · show R.coloring.len ≤ (Coloring.sort_cells c1).len
    rw [hlen2eq]
    unfold Coloring.len
    have := hpost.hNewLen
    omega
  · exact hwf2.len_le hn
  · intro m hm
    show (Coloring.sort_cells c1).bounds.filter _ = _
    rw [WFc.sort_cells_bounds]
    exact hpost.hFilter m hm
  · intro j hj
    have ha : ∃ s, s ≤ c1.len ∧ c1.cutOf s = R.coloring.cutOf j := by
      apply haligned
      rcases Nat.eq_zero_or_pos j with h0 | hpos
      · left
        rw [h0, WFc.cut_zero]
      · right
        left
        obtain ⟨m, rfl⟩ : ∃ m, j = m + 1 := ⟨j - 1, by omega⟩
        exact hpost.hOldOffs m (by unfold Coloring.len at hj; omega)
    have hb : ∃ t, t ≤ c1.len ∧ c1.cutOf t = R.coloring.cutOf (j + 1) := by
      apply haligned
      rcases Nat.lt_or_ge (j + 1) R.coloring.len with hlt | hge
      · right
        left
        exact hpost.hOldOffs j (by unfold Coloring.len at hlt; omega)
      · right
        right
        have hje : j + 1 = R.coloring.len := by omega
        rw [hje, hwfR.cut_len]
    obtain ⟨s, hsle, hsval⟩ := ha
    obtain ⟨t, htle, htval⟩ := hb
    have hab : R.coloring.cutOf j < R.coloring.cutOf (j + 1) := hwfR.cut_lt hn hj
    have hst : s ≤ t := by
      by_contra hc
      push_neg at hc
      have h1 := hwfc1.cut_lt hn (i := t) (by omega)
      have h2 := hwfc1.cut_le_cut (t + 1) s (by omega)
      omega
    have hslice := hwfc1.sort_cells_slice_perm hst htle
    rw [hsval, htval] at hslice
    exact hslice.trans (hpost.hSpans j hj)
  · intro o ho
    obtain ⟨idx, hidx, hval⟩ := List.mem_iff_getElem.mp ho
    have hidx2 : idx < R.coloring.bounds.length := by
      rw [WFc.offs_len] at hidx
      exact hidx
    have h1 := hpost.hOldOffs idx hidx2
    have h2 : R.coloring.cutOf (idx + 1) = o := by
      rw [R.coloring.cutOf_succ hidx, List.getD_eq_getElem _ _ hidx, hval]
    rw [h2] at h1
    show o ∈ (Coloring.sort_cells c1).bounds.map Bound.offset
    rw [WFc.sort_cells_bounds]
    exact h1
  · show stF.refined.length ≤ refined0.length
      + ((Coloring.sort_cells c1).len - R.coloring.len) + R.coloring.len
    have h1 := hpost.hRefLen
    have h2 := hpost.hNewLen
    rw [hlen2eq]
    unfold Coloring.len at h1 ⊢
    omega
  · intro hEq
    apply hpost.hRefEq
    rw [hlen2eq] at hEq
    unfold Coloring.len at hEq
    omega

/-- One depth-preserving refinement step between reversible colorings: the new
state satisfies the invariants, sits at the same depth, keeps every bound of
strictly smaller depth, permutes elements only within the old cells, and keeps
every old cut offset. -/
structure StepRW (n : Nat) (R R2 : ReversibleColoring) : Prop where
  hInv : ColInv n R2
  hDepth : R2.depth = R.depth
  hFilter : ∀ m, m < R.depth → R2.coloring.bounds.filter (fun b => decide (b.depth ≤ m))
      = R.coloring.bounds.filter (fun b => decide (b.depth ≤ m))
  hSpans : ∀ j, j < R.coloring.len →
    ((R2.coloring.elements.take (R.coloring.cutOf (j + 1))).drop
      (R.coloring.cutOf j)).Perm (R.coloring.cellAt j)
  hOldOffs : ∀ o, o ∈ R.coloring.offs → o ∈ R2.coloring.offs

theorem stepRW_refl {n : Nat} {R : ReversibleColoring} (h : ColInv n R) : StepRW n R R :=
  ⟨h, rfl, fun _ _ => rfl, fun _ _ => List.Perm.refl _, fun _ ho => ho⟩

/-- Any cut position of a coarser coloring whose offsets all survive is a cut
position of the finer coloring. -/
theorem cut_lift {n : Nat} {cA cB : Coloring} (hA : WFc n cA) (hB : WFc n cB)
    (hsub : ∀ o, o ∈ cA.offs → o ∈ cB.offs) {j : Nat} (hj : j ≤ cA.len) :
    ∃ a, a ≤ cB.len ∧ cB.cutOf a = cA.cutOf j := by
  rcases Nat.eq_zero_or_pos j with h0 | hpos
  · refine ⟨0, Nat.zero_le _, ?_⟩
    rw [h0, WFc.cut_zero, WFc.cut_zero]
  rcases Nat.lt_or_ge j cA.len with hlt | hge
  · have hjo : j - 1 < cA.offs.length := by
      rw [WFc.offs_len]
      unfold Coloring.len at hlt
      omega
    have hjc : cA.cutOf j = cA.offs.getD (j - 1) 0 := by
      have h2 := cA.cutOf_succ hjo
      rw [show j - 1 + 1 = j from by omega] at h2
      exact h2
    have hmem : cA.offs.getD (j - 1) 0 ∈ cA.offs := by
      rw [List.getD_eq_getElem _ _ hjo]
      exact List.getElem_mem _
    obtain ⟨k, hk, hkeq⟩ := List.mem_iff_getElem.mp (hsub _ hmem)
    refine ⟨k + 1, ?_, ?_⟩
    · have hk2 := hk
      rw [WFc.offs_len] at hk2
      unfold Coloring.len
      omega
    · rw [cB.cutOf_succ hk, List.getD_eq_getElem _ _ hk, hkeq, hjc]
  · have hj2 : j = cA.len := by omega
    refine ⟨cB.len, Nat.le_refl _, ?_⟩
    rw [hj2, hB.cut_len, hA.cut_len]

/-- A list that is a permutation of a well-formed coloring's elements within
every cell is a permutation of them within every cut-aligned window. -/
theorem slice_perm_of_cells {n : Nat} {c : Coloring} (h : WFc n c) {l : List Nat}
    (hcells : ∀ j, j < c.len →
      ((l.take (c.cutOf (j + 1))).drop (c.cutOf j)).Perm (c.cellAt j)) :
    ∀ b, b ≤ c.len → ∀ a, a ≤ b →
      ((l.take (c.cutOf b)).drop (c.cutOf a)).Perm
        ((c.elements.take (c.cutOf b)).drop (c.cutOf a)) := by
  intro b
  induction b with
  | zero =>
    intro _ a ha
    have ha0 : a = 0 := by omega
    subst ha0
    simp [WFc.cut_zero]
  | succ b ih =>
    intro hb a ha
    rcases Nat.lt_or_ge a (b + 1) with hlt | hge
    · have hab : a ≤ b := by omega
      have h1 : c.cutOf a ≤ c.cutOf b := h.cut_le_cut a b hab
      have h2 : c.cutOf b ≤ c.cutOf (b + 1) := h.cut_le_cut b (b + 1) (Nat.le_succ b)
      rw [← slice_append l h1 h2, ← slice_append c.elements h1 h2]
      exact (ih (by omega) a hab).append (hcells b (by omega))
    · have hab : a = b + 1 := by omega
      rw [hab]
      have h1 : ((l.take (c.cutOf (b + 1))).drop (c.cutOf (b + 1))) = [] := by
        apply List.drop_eq_nil_of_le
        rw [List.length_take]
        exact Nat.min_le_left _ _
      have h2 : ((c.elements.take (c.cutOf (b + 1))).drop (c.cutOf (b + 1))) = [] := by
        apply List.drop_eq_nil_of_le
        rw [List.length_take]
        exact Nat.min_le_left _ _
      rw [h1, h2]

theorem StepRW.trans {n : Nat} {R R2 R3 : ReversibleColoring} (hR : ColInv n R) (hn : 0 < n)
    (h1 : StepRW n R R2) (h2 : StepRW n R2 R3) : StepRW n R R3 := by
  have hwfA : WFc n R.coloring := ⟨hR.elemsPerm, hR.offsMono, hR.offsBounded⟩
  have hwfB : WFc n R2.coloring :=
    ⟨h1.hInv.elemsPerm, h1.hInv.offsMono, h1.hInv.offsBounded⟩
  refine ⟨h2.hInv, h2.hDepth.trans h1.hDepth, ?_, ?_,
    fun o ho => h2.hOldOffs o (h1.hOldOffs o ho)⟩
  · intro m hm
    rw [h2.hFilter m (by rw [h1.hDepth]; exact hm), h1.hFilter m hm]
  · intro j hj
    obtain ⟨a, hale, haeq⟩ := cut_lift hwfA hwfB h1.hOldOffs (Nat.le_of_lt hj)
    obtain ⟨b, hble, hbeq⟩ :=
      cut_lift hwfA hwfB h1.hOldOffs (show j + 1 ≤ R.coloring.len from hj)
    have hcutlt : R.coloring.cutOf j < R.coloring.cutOf (j + 1) := hwfA.cut_lt hn hj
    have hab : a ≤ b := by
      by_contra hcon
      have h3 : b ≤ a := by omega
      have h4 := hwfB.cut_le_cut b a h3
      rw [haeq, hbeq] at h4
      omega
    have hperm := slice_perm_of_cells hwfB h2.hSpans b hble a hab
    rw [haeq, hbeq] at hperm
    exact hperm.trans (h1.hSpans j hj)

theorem stepRW_individualize {n : Nat} {R : ReversibleColoring} (h : ColInv n R) {x : Nat}
    (hx : x < n) : StepRW n R (R.individualize x) := by
  have hwf : WFc n R.coloring := ⟨h.elemsPerm, h.offsMono, h.offsBounded⟩
  have hinv2 := individualize_colinv h hx
  obtain ⟨ci, hci, hxci⟩ := hwf.exists_cell hx
  have hcib : ci ≤ R.coloring.bounds.length := by
    unfold Coloring.len at hci
    omega
  rcases individualize_spec h hx ci hci hxci with ⟨_, heq⟩ | ⟨hbig, heq⟩
  · rw [heq]
    exact stepRW_refl h
  · rw [heq] at hinv2 ⊢
    set A := R.coloring.elements.take (R.coloring.cutOf ci) with hAdef
    set B := x :: sortNat ((R.coloring.cellAt ci).erase x) with hBdef
    set D := R.coloring.elements.drop (R.coloring.cutOf (ci + 1)) with hDdef
    have hcut1 : R.coloring.cutOf ci ≤ n := by
      have h2 := hwf.cut_le_cut ci R.coloring.len (Nat.le_of_lt hci)
      rwa [hwf.cut_len] at h2
    have hcut2 : R.coloring.cutOf (ci + 1) ≤ n := by
      have h2 := hwf.cut_le_cut (ci + 1) R.coloring.len hci
      rwa [hwf.cut_len] at h2
    have hAlen : A.length = R.coloring.cutOf ci := by
      rw [hAdef, List.length_take, hwf.elems_len]
      exact Nat.min_eq_left hcut1
    have hBlen : B.length = R.coloring.cutOf (ci + 1) - R.coloring.cutOf ci := by
      rw [hBdef]
      simp only [List.length_cons]
      rw [(sortNat_perm _).length_eq, List.length_erase_of_mem hxci,
        hwf.cellAt_length hci]
      have h2 := hwf.cut_lt (by omega : 0 < n) hci
      omega
    have hABlen : A.length + B.length = R.coloring.cutOf (ci + 1) := by
      rw [hAlen, hBlen]
      have h2 := hwf.cut_le_cut ci (ci + 1) (Nat.le_succ ci)
      omega
    refine ⟨hinv2, rfl, ?_, ?_, ?_⟩
    · intro m hm
      show (R.coloring.bounds.insertIdx ci
            (Bound.mk (R.coloring.cutOf ci + 1) R.depth)).filter
          (fun b => decide (b.depth ≤ m))
        = R.coloring.bounds.filter (fun b => decide (b.depth ≤ m))
      rw [insertIdx_eq_take_cons_drop _ ci _ hcib, List.filter_append, List.filter_cons]
      rw [if_neg (by simp; omega)]
      rw [← List.filter_append, List.take_append_drop]
    · intro j hj
      show (((A ++ B ++ D).take (R.coloring.cutOf (j + 1))).drop
          (R.coloring.cutOf j)).Perm (R.coloring.cellAt j)
      rcases Nat.lt_trichotomy j ci with hlt | heqj | hgt
      · have hj1 : R.coloring.cutOf (j + 1) ≤ R.coloring.cutOf ci :=
          hwf.cut_le_cut _ _ hlt
        rw [take_middle_front A B D (by rw [hAlen]; exact hj1), hAdef, List.take_take,
          Nat.min_eq_left hj1]
        exact List.Perm.refl _
      · subst heqj
        have h1 : ((A ++ B ++ D).take (R.coloring.cutOf (j + 1))).drop
            (R.coloring.cutOf j) = B := by
          rw [← hABlen, ← hAlen]
          exact slice_middle A B D
        rw [h1, hBdef]
        exact ((sortNat_perm _).cons x).trans (List.perm_cons_erase hxci).symm
      · have hj1 : R.coloring.cutOf (ci + 1) ≤ R.coloring.cutOf j :=
          hwf.cut_le_cut _ _ hgt
        have hj2 : R.coloring.cutOf j ≤ R.coloring.cutOf (j + 1) :=
          hwf.cut_le_cut _ _ (Nat.le_succ _)
        have key : ∀ l1 : List Nat, l1.length = R.coloring.cutOf (ci + 1) →
            ((l1 ++ D).take (R.coloring.cutOf (j + 1))).drop (R.coloring.cutOf j)
              = (D.take (R.coloring.cutOf (j + 1) - R.coloring.cutOf (ci + 1))).drop
                  (R.coloring.cutOf j - R.coloring.cutOf (ci + 1)) := by
          intro l1 hl1
          have hd1 : (l1 ++ D).drop (R.coloring.cutOf j)
              = D.drop (R.coloring.cutOf j - R.coloring.cutOf (ci + 1)) := by
            have h4 : (l1 ++ D).drop (R.coloring.cutOf j)
                = ((l1 ++ D).drop l1.length).drop
                    (R.coloring.cutOf j - R.coloring.cutOf (ci + 1)) := by
              rw [List.drop_drop]
              congr 1
              omega
            rw [h4, List.drop_left]
          rw [List.drop_take, hd1, List.drop_take]
          congr 1
          omega
        rw [key (A ++ B) (by rw [List.length_append]; exact hABlen)]
        have h2 := key (R.coloring.elements.take (R.coloring.cutOf (ci + 1)))
          (by rw [List.length_take, hwf.elems_len]; exact Nat.min_eq_left hcut2)
        have h3 : R.coloring.elements.take (R.coloring.cutOf (ci + 1)) ++ D
            = R.coloring.elements := by
          rw [hDdef]
          exact List.take_append_drop _ _
        rw [h3] at h2
        rw [← h2]
        exact List.Perm.refl _
    · intro o ho
      show o ∈ (R.coloring.bounds.insertIdx ci
          (Bound.mk (R.coloring.cutOf ci + 1) R.depth)).map Bound.offset
      rw [insertIdx_eq_take_cons_drop _ ci _ hcib, List.map_append, List.map_cons]
      have ho2 : o ∈ (R.coloring.bounds.take ci).map Bound.offset
          ++ (R.coloring.bounds.drop ci).map Bound.offset := by
        rw [← List.map_append, List.take_append_drop]
        exact ho
      rcases List.mem_append.mp ho2 with h1 | h1
      · exact List.mem_append.mpr (Or.inl h1)
      · exact List.mem_append.mpr (Or.inr (List.mem_cons_of_mem _ h1))

theorem stepRW_refine_with {C : Type} [LinearOrder C] {n : Nat} {R : ReversibleColoring}
    (h : ColInv n R) (hn : 0 < n) (refined0 : List Nat) (key : Nat → C) :
    StepRW n R (R.refine_with refined0 key).1 := by
  have hspec := (refine_with_spec h hn refined0 key).1
  exact ⟨hspec.hInv, hspec.hDepth, hspec.hFilter, hspec.hSpans, hspec.hOldOffs⟩

/-- One iteration of the make_equitable loop: the invariants are kept, the
cell count never shrinks, and the worklist length is controlled. -/
theorem ReversibleColoring.equitableStep_out {n : Nat} (neighbors : Nat → List Nat) (hn : 0 < n)
    {R : ReversibleColoring} {stack : List Nat} (hR : ColInv n R) (hne : stack ≠ []) :
    ColInv n (ReversibleColoring.equitableStep neighbors R stack).1 ∧
      R.coloring.len ≤ (ReversibleColoring.equitableStep neighbors R stack).1.coloring.len ∧
      (ReversibleColoring.equitableStep neighbors R stack).1.coloring.len ≤ n ∧
      (ReversibleColoring.equitableStep neighbors R stack).2.length ≤ stack.length - 1
        + ((ReversibleColoring.equitableStep neighbors R stack).1.coloring.len - R.coloring.len)
        + R.coloring.len ∧
      ((ReversibleColoring.equitableStep neighbors R stack).1.coloring.len = R.coloring.len →
        (ReversibleColoring.equitableStep neighbors R stack).2.length = stack.length - 1) := by
  cases hst : stack.getLast? with
  | none => exact absurd (List.getLast?_eq_none.mp hst) hne
  | some c =>
    set key : Nat → Nat := fun i => ((((List.range R.reverse.length).map
      (fun i2 => (neighbors i2).countP (fun j => ((R.reverse.get? j).getD 0) == c))).get?
        i).getD 0) with hkey
    have hstepeq : ReversibleColoring.equitableStep neighbors R stack
        = ((R.refine_with stack.dropLast key).1, (R.refine_with stack.dropLast key).2.1) := by
      simp only [ReversibleColoring.equitableStep]
      rw [hst]
    have hspec := refine_with_spec hR hn stack.dropLast key
    have hdl : stack.dropLast.length = stack.length - 1 := List.length_dropLast stack
    rw [hstepeq]
    refine ⟨hspec.1.hInv, hspec.1.hLen, hspec.1.hLenLe, ?_, ?_⟩
    · have h1 := hspec.1.hRefLen
      rw [hdl] at h1
      exact h1
    · intro hl
      have h1 := hspec.1.hRefEq hl
      rw [h1, hdl]

/-- The make_equitable worklist loop terminates within any fuel exceeding the
measure, preserving the invariants. -/
theorem ReversibleColoring.equitableLoop_some {n : Nat} (neighbors : Nat → List Nat) (hn : 0 < n) :
    ∀ (fuel : Nat) (R : ReversibleColoring) (stack : List Nat), ColInv n R →
      (n + 1 - R.coloring.len) * (2 * n + 2) + stack.length < fuel →
      ∃ out, ReversibleColoring.equitableLoop neighbors fuel (R, stack) = some out ∧ ColInv n out.1 := by
  intro fuel
  induction fuel with
  | zero =>
    intro R stack hR hF
    exact absurd hF (by omega)
  | succ f ih =>
    intro R stack hR hF
    by_cases hcond : (stack.isEmpty || R.coloring.is_discrete) = true
    · refine ⟨(R, stack), ?_, hR⟩
      simp only [ReversibleColoring.equitableLoop]
      rw [if_pos hcond]
    · have hne : stack ≠ [] := by
        intro hc
        apply hcond
        rw [hc]
        rfl
      have hlenpos : 1 ≤ stack.length := by
        cases stack with
        | nil => exact absurd rfl hne
        | cons a t => simp
      have hloop : ReversibleColoring.equitableLoop neighbors (f + 1) (R, stack)
          = ReversibleColoring.equitableLoop neighbors f (ReversibleColoring.equitableStep neighbors R stack) := by
        simp only [ReversibleColoring.equitableLoop]
        rw [if_neg hcond]
      rw [hloop]
      obtain ⟨hInv2, hLen2, hLenLe2, hSt2, hStEq2⟩ := ReversibleColoring.equitableStep_out neighbors hn hR hne
      cases hse : ReversibleColoring.equitableStep neighbors R stack with
      | mk R2 stack2 =>
      rw [hse] at hInv2 hLen2 hLenLe2 hSt2 hStEq2
      have hInv2b : ColInv n R2 := hInv2
      have hLen2b : R.coloring.len ≤ R2.coloring.len := hLen2
      have hLenLe2b : R2.coloring.len ≤ n := hLenLe2
      have hSt2b : stack2.length ≤ stack.length - 1
          + (R2.coloring.len - R.coloring.len) + R.coloring.len := hSt2
      apply ih R2 stack2 hInv2b
      by_cases hl : R2.coloring.len = R.coloring.len
      · have h1 : stack2.length = stack.length - 1 := hStEq2 hl
        rw [hl, h1]
        omega
      · have hd : 1 ≤ R2.coloring.len - R.coloring.len := by omega
        have hprod : (n + 1 - R.coloring.len) * (2 * n + 2)
            = (n + 1 - R2.coloring.len) * (2 * n + 2)
              + (R2.coloring.len - R.coloring.len) * (2 * n + 2) := by
          rw [← Nat.add_mul]
          congr 1
          omega
        have hsplit : (R2.coloring.len - R.coloring.len) * (2 * n + 2)
            = (R2.coloring.len - R.coloring.len)
              + (R2.coloring.len - R.coloring.len) * (2 * n + 1) := by
          ring
        have hbig : 2 * n + 1 ≤ (R2.coloring.len - R.coloring.len) * (2 * n + 1) :=
          Nat.le_mul_of_pos_left _ (by omega)
        have hlenn : R.coloring.len ≤ n := by omega
        omega

/-- make_equitable terminates with an empty worklist on every state satisfying
the invariants over a nonempty universe. -/
theorem make_equitable_some {n : Nat} {R : ReversibleColoring} (hR : ColInv n R)
    (hn : 0 < n) (neighbors : Nat → List Nat) :
    ∃ Rf, R.make_equitable neighbors = some (Rf, []) ∧ ColInv n Rf := by
  have hwfR : WFc n R.coloring := ⟨hR.elemsPerm, hR.offsMono, hR.offsBounded⟩
  have hlen : R.coloring.len ≤ n := hwfR.len_le hn
  have hF : (n + 1 - R.coloring.len) * (2 * n + 2) + (List.range R.coloring.len).length
      < ReversibleColoring.equitableFuel R := by
    unfold ReversibleColoring.equitableFuel
    rw [hR.revLen, List.length_range]
    have h1 : (n + 1 - R.coloring.len) * (2 * n + 2) ≤ (n + 1) * (2 * n + 2) :=
      Nat.mul_le_mul_right _ (by omega)
    have h2 : (n + 1) * (2 * n + 3) = (n + 1) * (2 * n + 2) + (n + 1) := by ring
    omega
  obtain ⟨out, hout, hinv⟩ := ReversibleColoring.equitableLoop_some neighbors hn
    (ReversibleColoring.equitableFuel R) R (List.range R.coloring.len) hR hF
  refine ⟨out.1, ?_, hinv⟩
  unfold ReversibleColoring.make_equitable ReversibleColoring.make_equitable_with
  rw [hout]
  rfl

/-- Each iteration of the make_equitable loop is a depth-preserving
refinement step. -/
theorem stepRW_equitableStep {n : Nat} (neighbors : Nat → List Nat) (hn : 0 < n)
    {R : ReversibleColoring} {stack : List Nat} (hR : ColInv n R) :
    StepRW n R (ReversibleColoring.equitableStep neighbors R stack).1 := by
  cases hst : stack.getLast? with
  | none =>
    have h1 : ReversibleColoring.equitableStep neighbors R stack = (R, stack) := by
      simp only [ReversibleColoring.equitableStep]
      rw [hst]
    rw [h1]
    exact stepRW_refl hR
  | some c =>
    have hstepeq : ReversibleColoring.equitableStep neighbors R stack
        = ((R.refine_with stack.dropLast (fun i => ((((List.range R.reverse.length).map
            (fun i2 => (neighbors i2).countP (fun j => ((R.reverse.get? j).getD 0) == c))).get?
              i).getD 0))).1,
          (R.refine_with stack.dropLast (fun i => ((((List.range R.reverse.length).map
            (fun i2 => (neighbors i2).countP (fun j => ((R.reverse.get? j).getD 0) == c))).get?
              i).getD 0))).2.1) := by
      simp only [ReversibleColoring.equitableStep]
      rw [hst]
    rw [hstepeq]
    exact stepRW_refine_with hR hn _ _

/-- The make_equitable worklist loop composes depth-preserving refinement
steps. -/
theorem equitableLoop_stepRW {n : Nat} (neighbors : Nat → List Nat) (hn : 0 < n) :
    ∀ (fuel : Nat) (R : ReversibleColoring) (stack : List Nat), ColInv n R →
      (n + 1 - R.coloring.len) * (2 * n + 2) + stack.length < fuel →
      ∃ out, ReversibleColoring.equitableLoop neighbors fuel (R, stack) = some out
        ∧ StepRW n R out.1 := by
  intro fuel
  induction fuel with
  | zero =>
    intro R stack hR hF
    exact absurd hF (by omega)
  | succ f ih =>
    intro R stack hR hF
    by_cases hcond : (stack.isEmpty || R.coloring.is_discrete) = true
    · refine ⟨(R, stack), ?_, stepRW_refl hR⟩
      simp only [ReversibleColoring.equitableLoop]
      rw [if_pos hcond]
    · have hne : stack ≠ [] := by
        intro hc
        apply hcond
        rw [hc]
        rfl
      have hlenpos : 1 ≤ stack.length := by
        cases stack with
        | nil => exact absurd rfl hne
        | cons a t => simp
      have hloop : ReversibleColoring.equitableLoop neighbors (f + 1) (R, stack)
          = ReversibleColoring.equitableLoop neighbors f
            (ReversibleColoring.equitableStep neighbors R stack) := by
        simp only [ReversibleColoring.equitableLoop]
        rw [if_neg hcond]
      obtain ⟨hInv2, hLen2, hLenLe2, hSt2, hStEq2⟩ :=
        ReversibleColoring.equitableStep_out neighbors hn hR hne
      have hsw := @stepRW_equitableStep n neighbors hn R stack hR
      cases hse : ReversibleColoring.equitableStep neighbors R stack with
      | mk R2 stack2 =>
      rw [hse] at hInv2 hLen2 hLenLe2 hSt2 hStEq2 hsw
      have hInv2b : ColInv n R2 := hInv2
      have hswb : StepRW n R R2 := hsw
      have hF2 : (n + 1 - R2.coloring.len) * (2 * n + 2) + stack2.length < f := by
        have hLen2b : R.coloring.len ≤ R2.coloring.len := hLen2
        have hLenLe2b : R2.coloring.len ≤ n := hLenLe2
        have hSt2b : stack2.length ≤ stack.length - 1
            + (R2.coloring.len - R.coloring.len) + R.coloring.len := hSt2
        by_cases hl : R2.coloring.len = R.coloring.len
        · have h1 : stack2.length = stack.length - 1 := hStEq2 hl
          rw [hl, h1]
          omega
        · have hd : 1 ≤ R2.coloring.len - R.coloring.len := by omega
          have hprod : (n + 1 - R.coloring.len) * (2 * n + 2)
              = (n + 1 - R2.coloring.len) * (2 * n + 2)
                + (R2.coloring.len - R.coloring.len) * (2 * n + 2) := by
            rw [← Nat.add_mul]
            congr 1
            omega
          have hsplit : (R2.coloring.len - R.coloring.len) * (2 * n + 2)
              = (R2.coloring.len - R.coloring.len)
                + (R2.coloring.len - R.coloring.len) * (2 * n + 1) := by
            ring
          have hbig : 2 * n + 1 ≤ (R2.coloring.len - R.coloring.len) * (2 * n + 1) :=
            Nat.le_mul_of_pos_left _ (by omega)
          have hlenn : R.coloring.len ≤ n := by omega
          omega
      obtain ⟨out, hout, hstep2⟩ := ih R2 stack2 hInv2b hF2
      refine ⟨out, ?_, StepRW.trans hR hn hswb hstep2⟩
      rw [hloop, hse]
      exact hout

/-- A full make_equitable run is a depth-preserving refinement step. -/
theorem make_equitable_stepRW {n : Nat} {R : ReversibleColoring} (hR : ColInv n R)
    (hn : 0 < n) (neighbors : Nat → List Nat) :
    ∃ Rf, R.make_equitable neighbors = some (Rf, []) ∧ StepRW n R Rf := by
  have hwfR : WFc n R.coloring := ⟨hR.elemsPerm, hR.offsMono, hR.offsBounded⟩
  have hlen : R.coloring.len ≤ n := hwfR.len_le hn
  have hF : (n + 1 - R.coloring.len) * (2 * n + 2) + (List.range R.coloring.len).length
      < ReversibleColoring.equitableFuel R := by
    unfold ReversibleColoring.equitableFuel
    rw [hR.revLen, List.length_range]
    have h1 : (n + 1 - R.coloring.len) * (2 * n + 2) ≤ (n + 1) * (2 * n + 2) :=
      Nat.mul_le_mul_right _ (by omega)
    have h2 : (n + 1) * (2 * n + 3) = (n + 1) * (2 * n + 2) + (n + 1) := by ring
    omega
  obtain ⟨out, hout, hstep⟩ := equitableLoop_stepRW neighbors hn
    (ReversibleColoring.equitableFuel R) R (List.range R.coloring.len) hR hF
  refine ⟨out.1, ?_, hstep⟩
  unfold ReversibleColoring.make_equitable ReversibleColoring.make_equitable_with
  rw [hout]
  rfl

/-- A finite sequence of the depth-preserving public mutators other than
deindividualize, as a relation from a starting state to the state after the
sequence: individualize of a universe element, refine and refine_with by any
key into any linearly ordered type, and completed make_equitable runs. -/
inductive DepthOps (n : Nat) (R : ReversibleColoring) : ReversibleColoring → Prop
  | refl : DepthOps n R R
  | individualize {R2 : ReversibleColoring} (x : Nat) (hx : x < n)
      (h : DepthOps n R R2) : DepthOps n R (R2.individualize x)
  | refineOp {R2 : ReversibleColoring} {C : Type} [LinearOrder C] (key : Nat → C)
      (h : DepthOps n R R2) : DepthOps n R (R2.refine key).1
  | refineWith {R2 : ReversibleColoring} {C : Type} [LinearOrder C]
      (refined : List Nat) (key : Nat → C) (h : DepthOps n R R2) :
      DepthOps n R (R2.refine_with refined key).1
  | makeEquitable {R2 R3 : ReversibleColoring} {stack : List Nat}
      (neighbors : Nat → List Nat) (h : DepthOps n R R2)
      (hme : R2.make_equitable neighbors = some (R3, stack)) : DepthOps n R R3

/-- Any sequence of the depth-preserving mutators other than deindividualize
composes to a single depth-preserving refinement step. -/
theorem depthOps_stepRW {n : Nat} (hn : 0 < n) {Rb R : ReversibleColoring}
    (hb : ColInv n Rb) (hops : DepthOps n Rb R) : StepRW n Rb R := by
  induction hops with
  | refl => exact stepRW_refl hb
  | individualize x hx h ih =>
    exact StepRW.trans hb hn ih (stepRW_individualize ih.hInv hx)
  | refineOp key h ih =>
    exact StepRW.trans hb hn ih (stepRW_refine_with ih.hInv hn [] key)
  | refineWith refined key h ih =>
    exact StepRW.trans hb hn ih (stepRW_refine_with ih.hInv hn refined key)
  | makeEquitable neighbors h hme ih =>
    obtain ⟨Rf, hout, hstep⟩ := make_equitable_stepRW ih.hInv hn neighbors
    rw [hme] at hout
    have h4 := congrArg Prod.fst (Option.some.inj hout)
    rw [show Rf = _ from (congrArg Prod.fst (Option.some.inj hout)).symm] at hstep
    exact StepRW.trans hb hn ih hstep

/-- Two well-formed colorings over the same universe with equal bounds have
the same cut positions. -/
theorem cutOf_congr {n : Nat} {c1 c2 : Coloring} (h1 : WFc n c1) (h2 : WFc n c2)
    (hb : c1.bounds = c2.bounds) : ∀ j, c1.cutOf j = c2.cutOf j := by
  have hoffs : c1.offs = c2.offs := by
    unfold Coloring.offs
    rw [hb]
  intro j
  rcases Nat.eq_zero_or_pos j with h0 | hpos
  · rw [h0, WFc.cut_zero, WFc.cut_zero]
  rcases Nat.lt_or_ge (j - 1) c1.offs.length with hlt | hge
  · have ha := c1.cutOf_succ hlt
    have hb2 := c2.cutOf_succ (by rw [← hoffs]; exact hlt)
    rw [show j - 1 + 1 = j from by omega] at ha hb2
    rw [ha, hb2, hoffs]
  · rw [WFc.offs_len] at hge
    have ha := c1.cutOf_of_ge (show c1.bounds.length < j from by omega)
    have hb2 := c2.cutOf_of_ge (show c2.bounds.length < j from by rw [← hb]; omega)
    rw [ha, hb2, h1.elems_len, h2.elems_len]

/-- Two well-formed colorings with the same bounds whose elements are
permutations of one another within every cell, both with sorted cells, have
equal elements. -/
theorem elements_eq_of_spans {n : Nat} {c0 c : Coloring} (h0 : WFc n c0) (hc : WFc n c)
    (hb : c.bounds = c0.bounds)
    (hspans : ∀ j, j < c0.len →
      ((c.elements.take (c0.cutOf (j + 1))).drop (c0.cutOf j)).Perm (c0.cellAt j))
    (hs0 : ∀ j, j < c0.len → (c0.cellAt j).Sorted (· ≤ ·))
    (hsc : ∀ j, j < c.len → (c.cellAt j).Sorted (· ≤ ·)) :
    c.elements = c0.elements := by
  have hlen : c.len = c0.len := by
    unfold Coloring.len
    rw [hb]
  have hcuts := cutOf_congr hc h0 hb
  have hcells : ∀ j, j < c0.len → c.cellAt j = c0.cellAt j := by
    intro j hj
    have hp : (c.cellAt j).Perm (c0.cellAt j) := by
      have hslice : c.cellAt j
          = (c.elements.take (c0.cutOf (j + 1))).drop (c0.cutOf j) := by
        unfold Coloring.cellAt
        rw [hcuts, hcuts]
      rw [hslice]
      exact hspans j hj
    exact List.eq_of_perm_of_sorted hp (hsc j (by rw [hlen]; exact hj)) (hs0 j hj)
  have h3 : c.colorsList = c0.colorsList := by
    rw [Coloring.colorsList_eq_map, Coloring.colorsList_eq_map, hlen]
    apply List.map_congr_left
    intro i hi
    exact hcells i (List.mem_range.mp hi)
  rw [← hc.join_colorsList, ← h0.join_colorsList, h3]

/-- Cut positions agree for colorings with equal offsets and equally many
elements. -/
theorem cutOf_congr_offs {c1 c2 : Coloring} (hoffs : c1.offs = c2.offs)
    (helems : c1.elements.length = c2.elements.length) :
    ∀ j, c1.cutOf j = c2.cutOf j := by
  intro j
  rcases Nat.eq_zero_or_pos j with h0 | hpos
  · rw [h0, WFc.cut_zero, WFc.cut_zero]
  rcases Nat.lt_or_ge (j - 1) c1.offs.length with hlt | hge
  · have ha := c1.cutOf_succ hlt
    have hb2 := c2.cutOf_succ (by rw [← hoffs]; exact hlt)
    rw [show j - 1 + 1 = j from by omega] at ha hb2
    rw [ha, hb2, hoffs]
  · have hlb : c2.bounds.length = c1.bounds.length := by
      rw [← WFc.offs_len, ← WFc.offs_len, hoffs]
    rw [WFc.offs_len] at hge
    have ha := c1.cutOf_of_ge (show c1.bounds.length < j from by omega)
    have hb2 := c2.cutOf_of_ge (show c2.bounds.length < j from by omega)
    rw [ha, hb2, helems]

theorem reset_bounds_offs (c : Coloring) : (c.reset_bounds).offs = c.offs := by
  unfold Coloring.reset_bounds Coloring.offs
  simp only [List.map_map]
  apply List.map_congr_left
  intro b _
  rfl

theorem reset_bounds_len (c : Coloring) : (c.reset_bounds).len = c.len := by
  unfold Coloring.len Coloring.reset_bounds
  simp

theorem reset_bounds_cutOf (c : Coloring) : ∀ j, (c.reset_bounds).cutOf j = c.cutOf j :=
  cutOf_congr_offs (reset_bounds_offs c) rfl

theorem reset_bounds_cellAt (c : Coloring) (j : Nat) :
    (c.reset_bounds).cellAt j = c.cellAt j := by
  unfold Coloring.cellAt
  rw [reset_bounds_cutOf, reset_bounds_cutOf]
  rfl

theorem reset_bounds_wf {n : Nat} {c : Coloring} (h : WFc n c) : WFc n (c.reset_bounds) := by
  refine ⟨h.perm, ?_, ?_⟩
  · rw [reset_bounds_offs]
    exact h.mono
  · rw [reset_bounds_offs]
    exact h.bounded

/-- find? over an initial range returns the first index satisfying the
predicate. -/
theorem find_range_eq_some {p : Nat → Bool} {len i : Nat} (hi : i < len)
    (hpi : p i = true) (hprev : ∀ j, j < i → p j = false) :
    (List.range len).find? p = some i := by
  have hdecomp : List.range len = List.range i ++ (List.range (len - i)).map (i + ·) := by
    conv_lhs => rw [show len = i + (len - i) from by omega]
    rw [List.range_add]
  rw [hdecomp, List.find?_append]
  have h1 : (List.range i).find? p = none :=
    List.find?_eq_none.mpr (fun j hj => by
      simp [hprev j (List.mem_range.mp hj)])
  rw [h1, Option.none_or]
  obtain ⟨k, hk⟩ : ∃ k, len - i = k + 1 := ⟨len - i - 1, by omega⟩
  rw [hk, List.range_succ_eq_map, List.map_cons, List.find?_cons_of_pos]
  · simp
  · simpa using hpi

/-- Coloring::color_index_of finds exactly the cell containing a member. -/
theorem color_index_of_eq {n : Nat} {c : Coloring} (h : WFc n c) {u i : Nat}
    (hi : i < c.len) (hu : u ∈ c.cellAt i) :
    c.color_index_of u = some i := by
  unfold Coloring.color_index_of
  apply find_range_eq_some hi
  · rw [c.get_eq_cellAt i hi, Option.getD_some]
    exact List.elem_eq_true_of_mem hu
  · intro j hj
    have hjlen : j < c.len := by omega
    rw [c.get_eq_cellAt j hjlen, Option.getD_some]
    by_contra hcon
    rw [Bool.not_eq_false] at hcon
    have hmem : u ∈ c.cellAt j := List.mem_of_elem_eq_true hcon
    have := h.cell_index_unique hjlen hi hmem hu
    omega

/-- Members of a cell lie in the universe. -/
theorem mem_cell_lt {n : Nat} {c : Coloring} (h : WFc n c) {i u : Nat}
    (hu : u ∈ c.cellAt i) : u < n := by
  have h1 : u ∈ c.elements := by
    unfold Coloring.cellAt at hu
    exact List.mem_of_mem_take (List.mem_of_mem_drop hu)
  exact (h.mem_elements).mp h1

/-- ReversibleColoring::from_coloring of a well-formed coloring with sorted
cells satisfies the coloring invariants. -/
theorem colInv_from_coloring {n : Nat} {c : Coloring} (h : WFc n c)
    (hsort : ∀ i, i < c.len → (c.cellAt i).Sorted (· < ·)) :
    ColInv n (ReversibleColoring.from_coloring n c) := by
  have hwf2 : WFc n (c.reset_bounds) := reset_bounds_wf h
  refine ⟨by simp [ReversibleColoring.from_coloring], hwf2.perm, hwf2.mono, hwf2.bounded,
    ?_, ?_⟩
  · intro i hi
    have hi2 : i < (c.reset_bounds).len := hi
    show List.Sorted (· < ·) (((c.reset_bounds).get i).getD [])
    rw [(c.reset_bounds).get_eq_cellAt i hi2, Option.getD_some, reset_bounds_cellAt]
    apply hsort
    rw [← reset_bounds_len]
    exact hi2
  · intro i hi u hu
    have hi2 : i < (c.reset_bounds).len := hi
    have hu2 : u ∈ ((c.reset_bounds).get i).getD [] := hu
    rw [(c.reset_bounds).get_eq_cellAt i hi2, Option.getD_some, reset_bounds_cellAt] at hu2
    have hun : u < n := mem_cell_lt h hu2
    show ((List.range n).map
      (fun t => ((c.reset_bounds).color_index_of t).getD 0)).get? u = some i
    rw [List.get?_eq_getElem?, List.getElem?_map, List.getElem?_range hun]
    have hcio : (c.reset_bounds).color_index_of u = some i := by
      apply color_index_of_eq hwf2
      · exact hi2
      · rw [reset_bounds_cellAt]
        exact hu2
    simp [hcio]

/-- Coloring::from_map always builds a well-formed coloring with sorted
cells. -/
theorem wf_from_map {C : Type} [LinearOrder C] [Inhabited C] (n : Nat) (cmap : List C) :
    WFc n (Coloring.from_map n cmap) ∧
    (∀ i, i < (Coloring.from_map n cmap).len →
      ((Coloring.from_map n cmap).cellAt i).Sorted (· < ·)) := by
  set key : Nat → C := fun e => (cmap.get? e).getD default with hkey
  set elements := sortByKey key (List.range n) with helemsdef
  set bnds : List Bound := (changeOffsets key elements 0).map
    (fun o => Bound.mk o 0) with hbnds
  set c0 : Coloring := ⟨elements, bnds⟩ with hc0
  have hfm : Coloring.from_map n cmap = Coloring.sort_cells c0 := rfl
  have helen : elements.length = n := by
    rw [helemsdef, (sortByKey_perm key (List.range n)).length_eq, List.length_range]
  have hoffs0 : c0.offs = changeOffsets key elements 0 := by
    rw [hc0]
    unfold Coloring.offs
    rw [hbnds, List.map_map]
    have hid : (Bound.offset ∘ fun o => Bound.mk o 0) = id := by
      funext o
      rfl
    rw [hid, List.map_id]
  have hwf0 : WFc n c0 := by
    refine ⟨?_, ?_, ?_⟩
    · exact sortByKey_perm key (List.range n)
    · rw [hoffs0]
      apply List.chain'_cons'.mpr
      constructor
      · intro h2 hh
        have hmem := List.mem_of_mem_head? hh
        have h3 := changeOffsets_mem key elements 0 h2 hmem
        omega
      · exact changeOffsets_chain key elements 0
    · intro o ho
      rw [hoffs0] at ho
      have h3 := changeOffsets_mem key elements 0 o ho
      omega
  refine ⟨?_, ?_⟩
  · rw [hfm]
    exact hwf0.sort_cells_wf
  · intro i hi
    rw [hfm] at hi ⊢
    rw [WFc.sort_cells_len] at hi
    rw [hwf0.sort_cells_cellAt hi]
    apply sorted_lt_of_le_nodup (sortNat_sorted _)
    exact (sortNat_perm _).nodup_iff.mpr (hwf0.cellAt_nodup i)

/-- The contract on the refinement hook used by the search tree: it preserves
the coloring invariants and the depth. -/
def HookOK (n : Nat) (hook : ReversibleColoring → ReversibleColoring) : Prop :=
  ∀ R, ColInv n R → ColInv n (hook R) ∧ (hook R).depth = R.depth

theorem individualize_depth (R : ReversibleColoring) (x : Nat) :
    (R.individualize x).depth = R.depth := by
  simp only [ReversibleColoring.individualize]
  split
  · rfl
  · rfl

theorem colinv_begin {n : Nat} {R : ReversibleColoring} (h : ColInv n R) : ColInv n R.begin :=
  ⟨h.revLen, h.elemsPerm, h.offsMono, h.offsBounded, h.cellsSorted, h.revCorrect⟩

/-- Search-node invariant: the coloring invariants hold, the path length
matches the depth, and every path entry is a universe element. -/
structure NInv (n : Nat) (nd : Node) : Prop where
  hInv : ColInv n nd.coloring
  hLen : nd.path.length = nd.coloring.depth
  hElems : ∀ u ∈ nd.path, u < n

theorem nInv_individualize {n : Nat} {hook : ReversibleColoring → ReversibleColoring}
    (hh : HookOK n hook) {nd : Node} (h : NInv n nd) {x : Nat} (hx : x < n) :
    NInv n (nd.individualize x hook) ∧ (nd.individualize x hook).path = nd.path ++ [x] := by
  have h1 : ColInv n ((nd.coloring.begin).individualize x) :=
    individualize_colinv (colinv_begin h.hInv) hx
  obtain ⟨h2, h3⟩ := hh _ h1
  refine ⟨⟨h2, ?_, ?_⟩, rfl⟩
  · show (nd.path ++ [x]).length = (hook ((nd.coloring.begin).individualize x)).depth
    rw [h3, individualize_depth, List.length_append, h.hLen]
    rfl
  · intro u hu
    have hu2 : u ∈ nd.path ++ [x] := hu
    rcases List.mem_append.mp hu2 with h4 | h4
    · exact h.hElems u h4
    · rw [List.mem_singleton] at h4
      rw [h4]
      exact hx

theorem children_color_spec {n : Nat} {nd : Node} (h : ColInv n nd.coloring)
    {cell : List Nat} (hcc : nd.children_color = some cell) :
    ∃ i, i < nd.coloring.coloring.len ∧ cell = nd.coloring.coloring.cellAt i
      ∧ 1 < cell.length := by
  unfold Node.children_color at hcc
  have hmem := List.mem_of_find?_eq_some hcc
  have hpred := List.find?_some hcc
  unfold Coloring.colorsList at hmem
  obtain ⟨i, hirange, hieq⟩ := List.mem_map.mp hmem
  have hi := List.mem_range.mp hirange
  refine ⟨i, hi, ?_, by simpa using hpred⟩
  rw [← hieq, nd.coloring.coloring.get_eq_cellAt i hi, Option.getD_some]

theorem first_child_leaf_spec {n : Nat} {hook : ReversibleColoring → ReversibleColoring}
    (hh : HookOK n hook) :
    ∀ (fuel : Nat) (nd res : Node), NInv n nd →
      Node.into_first_child_leaf hook fuel nd = some res →
      NInv n res ∧ ∃ ext, res.path = nd.path ++ ext := by
  intro fuel
  induction fuel with
  | zero =>
    intro nd res h hrun
    cases hcc : nd.children_color with
    | none =>
      have hr2 : some nd = some res := by
        rw [← hrun]
        simp [Node.into_first_child_leaf, hcc]
      cases hr2
      exact ⟨h, [], by simp⟩
    | some cell =>
      simp [Node.into_first_child_leaf, hcc] at hrun
  | succ f ih =>
    intro nd res h hrun
    cases hcc : nd.children_color with
    | none =>
      have hr2 : some nd = some res := by
        rw [← hrun]
        simp [Node.into_first_child_leaf, hcc]
      cases hr2
      exact ⟨h, [], by simp⟩
    | some cell =>
      have hstep : Node.into_first_child_leaf hook (f + 1) nd
          = Node.into_first_child_leaf hook f (nd.individualize (cell.headD 0) hook) := by
        conv_lhs => rw [Node.into_first_child_leaf]
        rw [hcc]
      obtain ⟨i, hi, hcell, hlen1⟩ := children_color_spec h.hInv hcc
      have hhead : cell.headD 0 ∈ cell := by
        cases cell with
        | nil => simp at hlen1
        | cons a t => exact List.mem_cons_self a t
      have hx : cell.headD 0 < n := by
        have hhead2 : cell.headD 0 ∈ nd.coloring.coloring.cellAt i := by
          rw [← hcell]
          exact hhead
        exact mem_cell_lt ⟨h.hInv.elemsPerm, h.hInv.offsMono, h.hInv.offsBounded⟩ hhead2
      obtain ⟨hninv, hpath⟩ := nInv_individualize hh h hx
      obtain ⟨hres, ext, hext⟩ := ih _ res hninv (by rw [← hstep]; exact hrun)
      refine ⟨hres, [cell.headD 0] ++ ext, ?_⟩
      rw [hext, hpath, List.append_assoc]

theorem restore_depth (R : ReversibleColoring) (k : Nat) :
    (R.restore k).depth = R.depth - k := rfl

/-- Advancing to the next leaf preserves the node invariant, and the new path
diverges from the old one at some index carrying a strictly larger element. -/
theorem next_leaf_spec {n : Nat} {hook : ReversibleColoring → ReversibleColoring}
    (hh : HookOK n hook) :
    ∀ (fuel : Nat) (nd res : Node), NInv n nd →
      Node.into_next_leaf hook fuel nd = some (some res) →
      NInv n res ∧ ∃ k, k < nd.path.length ∧ k < res.path.length ∧
        res.path.take k = nd.path.take k ∧ nd.path.getD k 0 < res.path.getD k 0 := by
  intro fuel
  induction fuel with
  | zero =>
    intro nd res h hrun
    cases hlast : nd.path.getLast? with
    | none =>
      rw [Node.into_next_leaf, hlast] at hrun
      simp at hrun
    | some last =>
      rw [Node.into_next_leaf, hlast] at hrun
      dsimp only at hrun
      set R1 := nd.coloring.restore 1 with hR1
      cases hget : ((R1.coloring.get ((R1.reverse.get? last).getD 0)).getD []).get?
          (((R1.coloring.get ((R1.reverse.get? last).getD 0)).getD []).indexOf last + 1) with
      | some next =>
        rw [hget] at hrun
        simp at hrun
      | none =>
        rw [hget] at hrun
        simp at hrun
  | succ f ih =>
    intro nd res h hrun
    cases hlast : nd.path.getLast? with
    | none =>
      rw [Node.into_next_leaf, hlast] at hrun
      simp at hrun
    | some last =>
      rw [Node.into_next_leaf, hlast] at hrun
      dsimp only at hrun
      set R1 := nd.coloring.restore 1 with hR1
      have hne0 : nd.path ≠ [] := by
        intro hc
        rw [hc] at hlast
        simp at hlast
      have hlen0 : 0 < nd.path.length := List.length_pos.mpr hne0
      have hinv1 : ColInv n R1 := by
        rw [hR1]
        exact restore_colinv h.hInv 1
      have hd1 : R1.depth = nd.coloring.depth - 1 := by
        rw [hR1]
        rfl
      have hlen1' : nd.path.dropLast.length = R1.depth := by
        rw [List.length_dropLast, hd1, h.hLen]
      have helems1 : ∀ u ∈ nd.path.dropLast, u < n := fun u hu =>
        h.hElems u ((List.dropLast_sublist nd.path).subset hu)
      have hninv1 : NInv n { path := nd.path.dropLast, coloring := R1 } :=
        ⟨hinv1, hlen1', helems1⟩
      have hlastn : last < n := h.hElems last (List.mem_of_mem_getLast? (by rw [hlast]; rfl))
      have hwf1 : WFc n R1.coloring := ⟨hinv1.elemsPerm, hinv1.offsMono, hinv1.offsBounded⟩
      obtain ⟨ci0, hci0, hlastci⟩ := hwf1.exists_cell hlastn
      have hrev : R1.reverse.get? last = some ci0 := hinv1.rev_getD hci0 hlastci
      have hsorted : (R1.coloring.cellAt ci0).Sorted (· < ·) := by
        have h1 := hinv1.cellsSorted ci0 hci0
        rwa [R1.coloring.get_eq_cellAt ci0 hci0, Option.getD_some] at h1
      rw [hrev] at hrun
      simp only [Option.getD_some] at hrun
      rw [R1.coloring.get_eq_cellAt ci0 hci0] at hrun
      simp only [Option.getD_some] at hrun
      cases hget : (R1.coloring.cellAt ci0).get?
          ((R1.coloring.cellAt ci0).indexOf last + 1) with
      | some next =>
        rw [hget] at hrun
        dsimp only at hrun
        have hnextmem : next ∈ R1.coloring.cellAt ci0 := List.get?_mem hget
        have hnextn : next < n := mem_cell_lt hwf1 hnextmem
        have hidx : (R1.coloring.cellAt ci0).indexOf last
            < (R1.coloring.cellAt ci0).length := List.indexOf_lt_length.mpr hlastci
        obtain ⟨hlt2, hgeteq⟩ := List.get?_eq_some.mp hget
        have hlt : last < next := by
          have hgood : (R1.coloring.cellAt ci0).get
              ⟨(R1.coloring.cellAt ci0).indexOf last, hidx⟩ = last :=
            List.getElem_indexOf hidx
          have hrel := List.pairwise_iff_get.mp hsorted
            ⟨(R1.coloring.cellAt ci0).indexOf last, hidx⟩
            ⟨(R1.coloring.cellAt ci0).indexOf last + 1, hlt2⟩
            (Nat.lt_succ_self _)
          rw [← hgood, ← hgeteq]
          exact hrel
        cases hX : Node.into_first_child_leaf hook f
            (({ path := nd.path.dropLast, coloring := R1 } : Node).individualize next hook) with
        | none =>
          rw [hX] at hrun
          simp at hrun
        | some r =>
          rw [hX] at hrun
          have hreq : r = res := by simpa using hrun
          subst hreq
          obtain ⟨hninv2, hpath2⟩ := nInv_individualize hh hninv1 hnextn
          obtain ⟨hresInv, ext, hext⟩ := first_child_leaf_spec hh f _ r hninv2 hX
          rw [hpath2] at hext
          refine ⟨hresInv, nd.path.length - 1, by omega, ?_, ?_, ?_⟩
          · have h5 : r.path.length = (nd.path.length - 1) + 1 + ext.length := by
              rw [hext, List.length_append, List.length_append, List.length_dropLast]
              simp
            omega
          · have e1 : r.path.take (nd.path.length - 1)
                = nd.path.dropLast.take (nd.path.length - 1) := by
              rw [hext, List.append_assoc]
              exact List.take_append_of_le_length (by rw [List.length_dropLast])
            rw [e1, List.dropLast_eq_take, List.take_take, Nat.min_self]
          · have hlastidx : nd.path.getD (nd.path.length - 1) 0 = last := by
              rw [List.getD_eq_getElem _ _ (by omega)]
              have h5 := List.getLast?_eq_getElem? nd.path
              rw [hlast] at h5
              have h6 := h5.symm
              rw [List.getElem?_eq_getElem (by omega)] at h6
              exact Option.some.inj h6
            have hnextidx : r.path.getD (nd.path.length - 1) 0 = next := by
              rw [hext]
              rw [getD_append_left (by
                rw [List.length_append, List.length_dropLast]
                simp)]
              rw [getD_append_right (by rw [List.length_dropLast])
                (by rw [List.length_dropLast]; simp)]
              rw [List.length_dropLast]
              simp
            rw [hlastidx, hnextidx]
            exact hlt
      | none =>
        rw [hget] at hrun
        dsimp only at hrun
        obtain ⟨hresInv, k, hk1, hk2, hk3, hk4⟩ := ih _ res hninv1 hrun
        have hk1' : k < nd.path.dropLast.length := hk1
        rw [List.length_dropLast] at hk1'
        have hk3' : res.path.take k = nd.path.dropLast.take k := hk3
        have hk4' : nd.path.dropLast.getD k 0 < res.path.getD k 0 := hk4
        refine ⟨hresInv, k, by omega, hk2, ?_, ?_⟩
        · rw [hk3', List.dropLast_eq_take, List.take_take, Nat.min_eq_left (by omega)]
        · have he : nd.path.dropLast.getD k 0 = nd.path.getD k 0 := by
            rw [List.dropLast_eq_take]
            exact getD_take_eq (by omega) (by omega)
          rw [← he]
          exact hk4'

/-- Strict divergence order on paths: the two paths agree below some index in
range of both and the first carries a strictly smaller element there. -/
def PathLt (p q : List Nat) : Prop :=
  ∃ k, k < p.length ∧ k < q.length ∧ q.take k = p.take k ∧ p.getD k 0 < q.getD k 0

/-- The longest common prefix length is the first divergence index. -/
theorem lcpLen_eq_of_diverge : ∀ (k : Nat) (q p : List Nat), k < p.length → k < q.length →
    q.take k = p.take k → p.getD k 0 ≠ q.getD k 0 → lcpLen q p = k := by
  intro k
  induction k with
  | zero =>
    intro q p hp hq _ hne
    cases p with
    | nil => simp at hp
    | cons a as =>
      cases q with
      | nil => simp at hq
      | cons b bs =>
        simp only [List.getD_cons_zero] at hne
        unfold lcpLen
        rw [if_neg (by omega)]
  | succ k ih =>
    intro q p hp hq htake hne
    cases p with
    | nil => simp at hp
    | cons a as =>
      cases q with
      | nil => simp at hq
      | cons b bs =>
        rw [List.take_succ_cons, List.take_succ_cons] at htake
        have hhead : b = a := (List.cons.inj htake).1
        have htail : bs.take k = as.take k := (List.cons.inj htake).2
        simp only [List.getD_cons_succ] at hne
        simp only [List.length_cons] at hp hq
        unfold lcpLen
        rw [if_pos hhead, ih bs as (by omega) (by omega) htail hne]

/-- Transitivity of the path order along one divergence step. -/
theorem pathLt_trans {a b c : List Nat} (h1 : PathLt a b) {k2 : Nat}
    (hk2b : k2 < b.length) (hk2c : k2 < c.length)
    (htake : c.take k2 = b.take k2) (hlt : b.getD k2 0 < c.getD k2 0) : PathLt a c := by
  obtain ⟨k1, hk1a, hk1b, htake1, hlt1⟩ := h1
  rcases Nat.lt_trichotomy k1 k2 with hlt12 | heq | hgt
  · refine ⟨k1, hk1a, by omega, ?_, ?_⟩
    · have e1 : c.take k1 = (c.take k2).take k1 := by
        rw [List.take_take, Nat.min_eq_left (by omega)]
      have e2 : (b.take k2).take k1 = b.take k1 := by
        rw [List.take_take, Nat.min_eq_left (by omega)]
      rw [e1, htake, e2, htake1]
    · have e3 : c.getD k1 0 = b.getD k1 0 := by
        rw [← getD_take_eq hlt12 (show k1 < c.length from by omega), htake,
          getD_take_eq hlt12 (by omega)]
      rw [e3]
      exact hlt1
  · subst heq
    refine ⟨k1, hk1a, by omega, ?_, by omega⟩
    rw [htake, htake1]
  · refine ⟨k2, by omega, hk2c, ?_, ?_⟩
    · have e2 : b.take k2 = (b.take k1).take k2 := by
        rw [List.take_take, Nat.min_eq_left (by omega)]
      have e3 : (a.take k1).take k2 = a.take k2 := by
        rw [List.take_take, Nat.min_eq_left (by omega)]
      rw [htake, e2, htake1, e3]
    · have e4 : a.getD k2 0 = b.getD k2 0 := by
        rw [← getD_take_eq hgt (show k2 < a.length from by omega), ← htake1,
          getD_take_eq hgt (by omega)]
      rw [e4]
      exact hlt

/-- A successful image-map lookup produces a stored pair. -/
theorem mapLookup_mem {M A : Type} [DecidableEq M] {k : M} {v : A} {l : List (M × A)}
    (h : mapLookup k l = some v) : (k, v) ∈ l := by
  unfold mapLookup at h
  cases hf : l.find? (fun p => p.1 = k) with
  | none =>
    rw [hf] at h
    simp at h
  | some p =>
    rw [hf] at h
    have hp := List.find?_some hf
    have hp1 : p.1 = k := by simpa using hp
    have hmem := List.mem_of_find?_eq_some hf
    have hpv : p = (k, v) := by
      cases p with
      | mk a b =>
        simp only [Option.map_some'] at h
        have hb : b = v := by simpa using h
        simp only at hp1
        rw [hp1, hb]
    rw [← hpv]
    exact hmem

/-- Membership after inserting into the sorted image map: the element is the
inserted pair or was already present. -/
theorem mem_mapInsert {M A : Type} [LinearOrder M] {k : M} {v : A} {l : List (M × A)}
    {e : M × A} (he : e ∈ mapInsert k v l) : e = (k, v) ∨ e ∈ l := by
  induction l with
  | nil =>
    simp only [mapInsert, List.mem_singleton] at he
    exact Or.inl he
  | cons hd t ih =>
    obtain ⟨k2, v2⟩ := hd
    simp only [mapInsert] at he
    split at he
    · rcases List.mem_cons.mp he with h | h
      · exact Or.inl h
      · exact Or.inr h
    · rcases List.mem_cons.mp he with h | h
      · exact Or.inr (by simp [h])
      · rcases ih h with h2 | h2
        · exact Or.inl h2
        · exact Or.inr (List.mem_cons_of_mem _ h2)

theorem mem_mapInsert_of_mem {M A : Type} [LinearOrder M] {k : M} {v : A}
    {e : M × A} : ∀ {l : List (M × A)}, e ∈ l → e ∈ mapInsert k v l := by
  intro l
  induction l with
  | nil => intro he; simp at he
  | cons hd t ih =>
    intro he
    obtain ⟨k2, v2⟩ := hd
    simp only [mapInsert]
    split
    · exact List.mem_cons_of_mem _ he
    · rcases List.mem_cons.mp he with rfl | he2
      · exact List.mem_cons_self _ _
      · exact List.mem_cons_of_mem _ (ih he2)

theorem mem_mapInsert_self {M A : Type} [LinearOrder M] (k : M) (v : A) :
    ∀ (l : List (M × A)), (k, v) ∈ mapInsert k v l := by
  intro l
  induction l with
  | nil => simp [mapInsert]
  | cons hd t ih =>
    obtain ⟨k2, v2⟩ := hd
    simp only [mapInsert]
    split
    · exact List.mem_cons_self _ _
    · exact List.mem_cons_of_mem _ ih

theorem mapLookup_none {M A : Type} [DecidableEq M] {k : M} {l : List (M × A)}
    (h : mapLookup k l = none) : ∀ e ∈ l, e.1 ≠ k := by
  unfold mapLookup at h
  intro e he hek
  cases hf : l.find? (fun p => p.1 = k) with
  | some p =>
    rw [hf] at h
    simp at h
  | none =>
    have h2 := List.find?_eq_none.mp hf e he
    simp [hek] at h2

/-- Inserting an absent key into the sorted image map keeps the keys sorted. -/
theorem mapInsert_sorted {M A : Type} [LinearOrder M] (k : M) (v : A) :
    ∀ (l : List (M × A)), List.Sorted (· < ·) (l.map Prod.fst) →
      (∀ e ∈ l, e.1 ≠ k) →
      List.Sorted (· < ·) ((mapInsert k v l).map Prod.fst) := by
  intro l
  induction l with
  | nil =>
    intro _ _
    simp [mapInsert]
  | cons hd t ih =>
    intro hs habs
    obtain ⟨k2, v2⟩ := hd
    simp only [List.map_cons] at hs
    have hs2 := List.sorted_cons.mp hs
    simp only [mapInsert]
    by_cases hklt : k < k2
    · rw [if_pos hklt]
      simp only [List.map_cons]
      rw [List.sorted_cons]
      refine ⟨?_, hs⟩
      intro b hb
      rcases List.mem_cons.mp hb with rfl | hb2
      · exact hklt
      · exact lt_trans hklt (hs2.1 b hb2)
    · rw [if_neg hklt]
      simp only [List.map_cons]
      rw [List.sorted_cons]
      constructor
      · intro b hb
        rw [List.mem_map] at hb
        obtain ⟨e, he, rfl⟩ := hb
        rcases mem_mapInsert he with rfl | he2
        · exact lt_of_le_of_ne (not_lt.mp hklt) (habs _ (List.mem_cons_self _ _))
        · exact hs2.1 e.1 (List.mem_map.mpr ⟨e, he2, rfl⟩)
      · exact ih hs2.2 (fun e he => habs e (List.mem_cons_of_mem _ he))

/-- The canonize loop never reaches the pruning panic when every stored path
lies strictly below the current node's path in the path order. -/
theorem canonLoop_no_panic1 {C M : Type} [LinearOrder C] [LinearOrder M]
    {n : Nat} {G : Capability C M} (hh : HookOK n G.hook) :
    ∀ (fuel : Nat) (ond : Option Node) (images : List (M × (List Nat × List Nat))),
      (∀ nd, ond = some nd → NInv n nd ∧ ∀ e ∈ images, PathLt e.2.1 nd.path) →
      canonLoop G fuel ond images ≠ CanonOut.panicked 1 := by
  intro fuel
  induction fuel with
  | zero =>
    intro ond images hinv
    cases ond with
    | none => cases images <;> simp [canonLoop]
    | some nd => simp [canonLoop]
  | succ f ih =>
    intro ond images hinv
    cases ond with
    | none => cases images <;> simp [canonLoop]
    | some nd =>
      obtain ⟨hnd, himg⟩ := hinv nd rfl
      intro hc
      rw [canonLoop] at hc
      dsimp only at hc
      cases hperm : nd.coloring.as_permutation with
      | none =>
        rw [hperm] at hc
        simp at hc
      | some perm =>
        rw [hperm] at hc
        dsimp only at hc
        cases hlk : mapLookup (G.am perm) images with
        | none =>
          rw [hlk] at hc
          dsimp only at hc
          cases hnl : nd.into_next_leaf G.hook f with
          | none =>
            rw [hnl] at hc
            simp at hc
          | some next =>
            rw [hnl] at hc
            dsimp only at hc
            refine absurd hc (ih next _ ?_)
            intro nd' hnd'
            have hrun : nd.into_next_leaf G.hook f = some (some nd') := by
              rw [hnl, hnd']
            obtain ⟨hninv', k2, hk2a, hk2b, hk2c, hk2d⟩ :=
              next_leaf_spec hh f nd nd' hnd hrun
            refine ⟨hninv', ?_⟩
            intro e he
            rcases mem_mapInsert he with he1 | he1
            · rw [he1]
              exact ⟨k2, hk2a, hk2b, hk2c, hk2d⟩
            · exact pathLt_trans (himg e he1) hk2a hk2b hk2c hk2d
        | some pp =>
          rw [hlk] at hc
          dsimp only at hc
          have hmem : ((G.am perm), pp) ∈ images := mapLookup_mem hlk
          have hplt : PathLt pp.1 nd.path := himg _ hmem
          obtain ⟨k1, hka, hkb, hkc, hkd⟩ := hplt
          have hpl : lcpLen nd.path pp.1 = k1 :=
            lcpLen_eq_of_diverge k1 nd.path pp.1 hka hkb hkc (by omega)
          have hcond : lcpLen nd.path pp.1 < nd.path.length ∧
              nd.path.length - lcpLen nd.path pp.1 - 1 ≤ nd.coloring.depth := by
            rw [hpl]
            refine ⟨by omega, ?_⟩
            rw [← hnd.hLen]
            omega
          rw [if_pos hcond] at hc
          cases hnl : (nd.restore (nd.path.length - lcpLen nd.path pp.1 - 1)).into_next_leaf
              G.hook f with
          | none =>
            rw [hnl] at hc
            simp at hc
          | some next =>
            rw [hnl] at hc
            dsimp only at hc
            refine absurd hc (ih next _ ?_)
            intro nd' hnd'
            set m := nd.path.length - lcpLen nd.path pp.1 - 1 with hm
            have hm2 : m = nd.path.length - k1 - 1 := by
              rw [hm, hpl]
            have hndr : NInv n (nd.restore m) := by
              refine ⟨restore_colinv hnd.hInv m, ?_, ?_⟩
              · show (nd.path.take (nd.path.length - m)).length
                  = (nd.coloring.restore m).depth
                rw [List.length_take, restore_depth, ← hnd.hLen,
                  Nat.min_eq_left (by omega)]
              · intro u hu
                exact hnd.hElems u (List.mem_of_mem_take hu)
            have hrun : (nd.restore m).into_next_leaf G.hook f = some (some nd') := by
              rw [hnl, hnd']
            obtain ⟨hninv', k2, hk2a, hk2b, hk2c, hk2d⟩ :=
              next_leaf_spec hh f _ nd' hndr hrun
            have hrpath : (nd.restore m).path = nd.path.take (k1 + 1) := by
              show nd.path.take (nd.path.length - m) = nd.path.take (k1 + 1)
              congr 1
              omega
            rw [hrpath] at hk2a hk2c hk2d
            rw [List.length_take] at hk2a
            have hmin := Nat.min_le_right (k1 + 1) nd.path.length
            have hmin2 := Nat.min_le_left (k1 + 1) nd.path.length
            have hk2a' : k2 < nd.path.length := by omega
            have htake2 : nd'.path.take k2 = nd.path.take k2 := by
              rw [hk2c, List.take_take, Nat.min_eq_left (by omega)]
            have hgd2 : nd.path.getD k2 0 < nd'.path.getD k2 0 := by
              rwa [getD_take_eq (by omega) (by omega)] at hk2d
            refine ⟨hninv', ?_⟩
            intro e he
            exact pathLt_trans (himg e he) hk2a' hk2b htake2 hgd2

/-- Invariant of the canonize loop: every image-map entry keys the morphism
of its stored permutation, so the returned pair satisfies it too. -/
theorem canonLoop_ok {C M : Type} [LinearOrder C] [LinearOrder M] (G : Capability C M) :
    ∀ (fuel : Nat) (node : Option Node) (images : List (M × (List Nat × List Nat))),
      (∀ e ∈ images, e.1 = G.am e.2.2) →
      ∀ {m : M} {p : List Nat}, canonLoop G fuel node images = .ok m p → G.am p = m := by
  intro fuel
  induction fuel with
  | zero =>
    intro node images hinv m p h
    cases node with
    | none =>
      cases images with
      | nil => simp [canonLoop] at h
      | cons e t =>
        obtain ⟨m2, q, p2⟩ := e
        simp only [canonLoop, CanonOut.ok.injEq] at h
        obtain ⟨rfl, rfl⟩ := h
        exact (hinv _ (List.mem_cons_self _ _)).symm
    | some nd => simp [canonLoop] at h
  | succ fuel ih =>
    intro node images hinv m p h
    cases node with
    | none =>
      cases images with
      | nil => simp [canonLoop] at h
      | cons e t =>
        obtain ⟨m2, q, p2⟩ := e
        simp only [canonLoop, CanonOut.ok.injEq] at h
        obtain ⟨rfl, rfl⟩ := h
        exact (hinv _ (List.mem_cons_self _ _)).symm
    | some nd =>
      simp only [canonLoop] at h
      cases hperm : nd.coloring.as_permutation with
      | none => rw [hperm] at h; simp at h
      | some perm =>
        rw [hperm] at h
        simp only at h
        cases hlk : mapLookup (G.am perm) images with
        | some pp =>
          rw [hlk] at h
          simp only at h
          split at h
          · cases hnx : (nd.restore (nd.path.length - lcpLen nd.path pp.1 - 1)).into_next_leaf
                G.hook fuel with
            | none => rw [hnx] at h; simp at h
            | some next =>
              rw [hnx] at h
              exact ih next images hinv h
          · simp at h
        | none =>
          rw [hlk] at h
          simp only at h
          cases hnx : nd.into_next_leaf G.hook fuel with
          | none => rw [hnx] at h; simp at h
          | some next =>
            rw [hnx] at h
            refine ih next _ ?_ h
            intro e he
            rcases mem_mapInsert he with rfl | he2
            · rfl
            · exact hinv e he2

/-- C2 (amended): when the canonize loop returns (m, p) and the image map
keys are sorted, m is a lower bound of every stored image and of the image of
every leaf the loop evaluates — the returned image is the minimum over the
leaves the search visits, not over all relabelings of the universe. -/
theorem C2_min_among_evaluated {C M : Type} [LinearOrder C] [LinearOrder M]
    (G : Capability C M) :
    ∀ (fuel : Nat) (node : Option Node) (images : List (M × (List Nat × List Nat))),
      List.Sorted (· < ·) (images.map Prod.fst) →
      ∀ {m : M} {p : List Nat}, canonLoop G fuel node images = .ok m p →
        (∀ e ∈ images, m ≤ e.1) ∧
        (∀ nd perm, node = some nd → nd.coloring.as_permutation = some perm →
          m ≤ G.am perm) := by
  intro fuel
  induction fuel with
  | zero =>
    intro node images hs m p h
    cases node with
    | none =>
      cases images with
      | nil => simp [canonLoop] at h
      | cons e t =>
        obtain ⟨m2, q, p2⟩ := e
        simp only [canonLoop, CanonOut.ok.injEq] at h
        obtain ⟨rfl, rfl⟩ := h
        constructor
        · intro e2 he2
          simp only [List.map_cons] at hs
          have hs2 := List.sorted_cons.mp hs
          rcases List.mem_cons.mp he2 with rfl | he3
          · exact le_refl _
          · exact le_of_lt (hs2.1 e2.1 (List.mem_map.mpr ⟨e2, he3, rfl⟩))
        · intro nd perm hnd
          simp at hnd
    | some nd => simp [canonLoop] at h
  | succ fuel ih =>
    intro node images hs m p h
    cases node with
    | none =>
      cases images with
      | nil => simp [canonLoop] at h
      | cons e t =>
        obtain ⟨m2, q, p2⟩ := e
        simp only [canonLoop, CanonOut.ok.injEq] at h
        obtain ⟨rfl, rfl⟩ := h
        constructor
        · intro e2 he2
          simp only [List.map_cons] at hs
          have hs2 := List.sorted_cons.mp hs
          rcases List.mem_cons.mp he2 with rfl | he3
          · exact le_refl _
          · exact le_of_lt (hs2.1 e2.1 (List.mem_map.mpr ⟨e2, he3, rfl⟩))
        · intro nd perm hnd
          simp at hnd
    | some nd =>
      simp only [canonLoop] at h
      cases hperm : nd.coloring.as_permutation with
      | none =>
        rw [hperm] at h
        simp at h
      | some perm =>
        rw [hperm] at h
        simp only at h
        cases hlk : mapLookup (G.am perm) images with
        | some pp =>
          rw [hlk] at h
          simp only at h
          split at h
          · cases hnx : (nd.restore (nd.path.length - lcpLen nd.path pp.1 - 1)).into_next_leaf
                G.hook fuel with
            | none =>
              rw [hnx] at h
              simp at h
            | some next =>
              rw [hnx] at h
              obtain ⟨h1, _⟩ := ih next images hs h
              refine ⟨h1, ?_⟩
              intro nd2 perm2 hnd2 hperm2
              have hnd2e : nd2 = nd := (Option.some.inj hnd2).symm
              subst hnd2e
              rw [hperm] at hperm2
              rw [← Option.some.inj hperm2]
              exact h1 _ (mapLookup_mem hlk)
          · simp at h
        | none =>
          rw [hlk] at h
          simp only at h
          cases hnx : nd.into_next_leaf G.hook fuel with
          | none =>
            rw [hnx] at h
            simp at h
          | some next =>
            rw [hnx] at h
            have habs := mapLookup_none hlk
            have hs2 := mapInsert_sorted (G.am perm) (nd.path, perm) images hs habs
            obtain ⟨h1, _⟩ := ih next _ hs2 h
            constructor
            · intro e he
              exact h1 e (mem_mapInsert_of_mem he)
            · intro nd2 perm2 hnd2 hperm2
              have hnd2e : nd2 = nd := (Option.some.inj hnd2).symm
              subst hnd2e
              rw [hperm] at hperm2
              rw [← Option.some.inj hperm2]
              exact h1 _ (mem_mapInsert_self _ _ _)

/-- C3: whenever canonize returns a pair, applying the stored witness
permutation to the structure reproduces the returned canonical image. -/
theorem C3_witness_correctness {C M : Type} [LinearOrder C] [LinearOrder M] [Inhabited C]
    (G : Capability C M) (fuel : Nat) {m : M} {p : List Nat}
    (h : canonizeFuel G fuel = .ok m p) : G.am p = m := by
  unfold canonizeFuel at h
  dsimp only at h
  cases hleaf : (Node.root (ReversibleColoring.from_coloring G.n
      (Coloring.from_map G.n G.initColoring))).into_first_child_leaf G.hook fuel with
  | none => rw [hleaf] at h; simp at h
  | some leaf =>
    rw [hleaf] at h
    exact canonLoop_ok G fuel (some leaf) [] (by simp) h

/-- Witness for C3 at a concrete structure: universe of size 2, constant
initial coloring, identity hook, morphism returning the permutation itself. -/
theorem C3_witness_correctness_witness :
    canonizeFuel (⟨2, [0, 0], id, fun p => p⟩ : Capability Nat (List Nat)) 100
        = .ok [0, 1] [0, 1]
      ∧ (⟨2, [0, 0], id, fun p => p⟩ : Capability Nat (List Nat)).am [0, 1] = [0, 1] :=
  ⟨by decide, C3_witness_correctness _ 100 (by decide)⟩

/-- C6 (code_bug evidence): make_equitable on the coloring with cells 0,2 and
1,3 over universe 4 with neighbors 0 to 1 and 1 to 0 terminates with cells
2; 0; 1,3 and empty worklist, yet that coloring is not equitable: elements 1
and 3 share a cell while 1 has one neighbor of reverse index 1 and 3 has
none.  The worklist entry covering cell 0 of the split is stolen by the
shifted unsplit cell at old index 1 during the same refine_with pass. -/
theorem C6_make_equitable_not_equitable :
    ((ReversibleColoring.from_coloring 4 (Coloring.from_map 4 [0, 1, 0, 1])).make_equitable
        (fun i => [[1], [0], [], []].getD i [])).map
      (fun p =>
        (p.1.coloring.colorsList, equitableB p.1 (fun i => [[1], [0], [], []].getD i []), p.2))
      = some ([[2], [0], [1, 3]], false, []) := by
  decide

/-- The reverse index of a well-formed reversible coloring sends an element of
the universe to i exactly when the element lies in the i-th cell. -/
theorem ColInv.rev_iff {n : Nat} {R : ReversibleColoring} (h : ColInv n R) {u i : Nat}
    (hu : u < n) (hi : i < R.coloring.len) :
    R.reverse.get? u = some i ↔ u ∈ (R.coloring.get i).getD [] := by
  rw [R.coloring.get_eq_cellAt i hi, Option.getD_some]
  constructor
  · intro hrev
    have hwf : WFc n R.coloring := ⟨h.elemsPerm, h.offsMono, h.offsBounded⟩
    obtain ⟨j, hj, huj⟩ := hwf.exists_cell hu
    have hj2 := h.rev_getD hj huj
    rw [hj2] at hrev
    rwa [← Option.some.inj hrev]
  · exact h.rev_getD hi

/-- ReversibleColoring::new over a two-element universe satisfies the coloring
invariants. -/
theorem colInv_newOf_two : ColInv 2 (ReversibleColoring.newOf 2) :=
  ⟨by decide, by decide, List.chain'_singleton 0, by decide, by decide, by decide⟩

/-- C7: make_equitable terminates on every input: on every well-formed
reversible coloring over a nonempty finite universe and for every neighbors
function, the worklist loop performs finitely many iterations (it returns
within the computed fuel bound) and the worklist stack is empty when the
function returns. -/
theorem C7_make_equitable_terminates {n : Nat} {R : ReversibleColoring} (h : ColInv n R)
    (hn : 0 < n) (neighbors : Nat → List Nat) :
    ∃ Rf, R.make_equitable neighbors = some (Rf, []) := by
  obtain ⟨Rf, hout, _⟩ := make_equitable_some h hn neighbors
  exact ⟨Rf, hout⟩

theorem C7_make_equitable_terminates_witness :
    ∃ Rf, (ReversibleColoring.newOf 2).make_equitable (fun j => [j]) = some (Rf, []) :=
  C7_make_equitable_terminates colInv_newOf_two (by decide) (fun j => [j])

/-- C8: every public mutating operation on ReversibleColoring (individualize,
deindividualize, refine, refine_with, make_equitable, restore) preserves the
coloring invariants: elements stays a permutation of the universe, every cell
is strictly increasing, the bound offsets are strictly increasing and in
range, the reverse index maps an element of the universe to i exactly when
the element lies in cell i, and len equals bounds.length + 1. -/
theorem C8_mutators_preserve_invariants {n : Nat} {R R2 : ReversibleColoring}
    (h : ColInv n R) (hn : 0 < n)
    (hop : (∃ x, x < n ∧ R2 = R.individualize x) ∨
      (∃ x, x < n ∧ R2 = R.deindividualize x) ∨
      (∃ (C : Type) (_ : LinearOrder C) (key : Nat → C), R2 = (R.refine key).1) ∨
      (∃ (C : Type) (_ : LinearOrder C) (refined : List Nat) (key : Nat → C),
        R2 = (R.refine_with refined key).1) ∨
      (∃ (neighbors : Nat → List Nat) (stack : List Nat),
        R.make_equitable neighbors = some (R2, stack)) ∨
      (∃ k, R2 = R.restore k)) :
    ColInv n R2 ∧
      (∀ u i, u < n → i < R2.coloring.len →
        (R2.reverse.get? u = some i ↔ u ∈ (R2.coloring.get i).getD [])) ∧
      R2.coloring.len = R2.coloring.bounds.length + 1 := by
  have hcol : ColInv n R2 := by
    rcases hop with ⟨x, hx, rfl⟩ | ⟨x, hx, rfl⟩ | ⟨C, instC, key, rfl⟩ |
      ⟨C, instC, refined, key, rfl⟩ | ⟨neighbors, stack, hme⟩ | ⟨k, rfl⟩
    · exact individualize_colinv h hx
    · exact deindividualize_colinv h hx
    · exact (refine_with_spec h hn [] key).1.hInv
    · exact (refine_with_spec h hn refined key).1.hInv
    · obtain ⟨Rf, hout, hinv⟩ := make_equitable_some h hn neighbors
      rw [hme] at hout
      have h4 : R2 = Rf := congrArg Prod.fst (Option.some.inj hout)
      rw [h4]
      exact hinv
    · exact restore_colinv h k
  exact ⟨hcol, fun u i hu hi => hcol.rev_iff hu hi, rfl⟩

theorem C8_mutators_preserve_invariants_witness :
    ColInv 2 ((ReversibleColoring.newOf 2).individualize 0) ∧
      (∀ u i, u < 2 → i < ((ReversibleColoring.newOf 2).individualize 0).coloring.len →
        (((ReversibleColoring.newOf 2).individualize 0).reverse.get? u = some i ↔
          u ∈ (((ReversibleColoring.newOf 2).individualize 0).coloring.get i).getD [])) ∧
      ((ReversibleColoring.newOf 2).individualize 0).coloring.len
        = ((ReversibleColoring.newOf 2).individualize 0).coloring.bounds.length + 1 :=
  C8_mutators_preserve_invariants colInv_newOf_two (by decide)
    (Or.inl ⟨0, by decide, rfl⟩)

/-- C4 (amended): after begin, any finite sequence of the depth-preserving
public mutators other than deindividualize (individualize, refine,
refine_with, make_equitable), followed by restore 1, returns the reversible
coloring to a state equal, under the source PartialEq on ReversibleColoring,
to its state before begin.  With deindividualize included the claim fails,
see the counterexample. -/
theorem C4_restore_after_depth_preserving_ops {n : Nat} {R0 R : ReversibleColoring}
    (h0 : ColInv n R0) (hn : 0 < n)
    (hD0 : ∀ b ∈ R0.coloring.bounds, b.depth ≤ R0.depth)
    (hops : DepthOps n R0.begin R) :
    (R.restore 1).beqSrc R0 = true := by
  have hb : ColInv n R0.begin :=
    ⟨h0.revLen, h0.elemsPerm, h0.offsMono, h0.offsBounded, h0.cellsSorted, h0.revCorrect⟩
  have hS : StepRW n R0.begin R := depthOps_stepRW hn hb hops
  have hwf0 : WFc n R0.coloring := ⟨h0.elemsPerm, h0.offsMono, h0.offsBounded⟩
  have hwfR : WFc n R.coloring :=
    ⟨hS.hInv.elemsPerm, hS.hInv.offsMono, hS.hInv.offsBounded⟩
  have hdep : R.depth = R0.depth + 1 := hS.hDepth
  have hd1 : R.depth - 1 = R0.depth := by omega
  have hfil : R.coloring.bounds.filter (fun b => decide (b.depth ≤ R.depth - 1))
      = R0.coloring.bounds := by
    have h1 : R0.depth < R0.begin.depth := Nat.lt_succ_self _
    have h2 := hS.hFilter R0.depth h1
    have h3 : R0.coloring.bounds.filter (fun b => decide (b.depth ≤ R0.depth))
        = R0.coloring.bounds := by
      apply List.filter_eq_self.mpr
      intro b hbm
      simpa using hD0 b hbm
    rw [hd1, h2]
    exact h3
  have hsp : ∀ j, j < R0.coloring.len →
      ((R.coloring.elements.take (R0.coloring.cutOf (j + 1))).drop
        (R0.coloring.cutOf j)).Perm (R0.coloring.cellAt j) := hS.hSpans
  have hs0 : ∀ j, j < R0.coloring.len → (R0.coloring.cellAt j).Sorted (· ≤ ·) := by
    intro j hj
    have h1 := h0.cellsSorted j hj
    rw [R0.coloring.get_eq_cellAt j hj, Option.getD_some] at h1
    exact h1.le_of_lt
  have hsR : ∀ j, j < R.coloring.len → (R.coloring.cellAt j).Sorted (· ≤ ·) := by
    intro j hj
    have h1 := hS.hInv.cellsSorted j hj
    rw [R.coloring.get_eq_cellAt j hj, Option.getD_some] at h1
    exact h1.le_of_lt
  show (R.retain_bounds (fun b => decide (b.depth ≤ R.depth - 1))).coloring.beqSrc
      R0.coloring = true
  by_cases hlenb : (R.coloring.bounds.filter
        (fun b => decide (b.depth ≤ R.depth - 1))).length
      = R.coloring.bounds.length
  · have hretain : R.retain_bounds (fun b => decide (b.depth ≤ R.depth - 1)) = R := by
      simp only [ReversibleColoring.retain_bounds]
      rw [if_pos hlenb]
    have hall := (List.filter_length_eq_length).mp hlenb
    have hbeq2 : R.coloring.bounds = R0.coloring.bounds := by
      rw [← hfil]
      exact (List.filter_eq_self.mpr hall).symm
    have helems : R.coloring.elements = R0.coloring.elements :=
      elements_eq_of_spans hwf0 hwfR hbeq2 hsp hs0 hsR
    rw [hretain]
    simp only [Coloring.beqSrc]
    rw [helems, hbeq2]
    simp
  · set cmid : Coloring :=
      { elements := R.coloring.elements, bounds := R0.coloring.bounds } with hcmid
    have hretain : R.retain_bounds (fun b => decide (b.depth ≤ R.depth - 1))
        = { coloring := Coloring.sort_cells cmid,
            reverse := ReversibleColoring.rebuildReverse (Coloring.sort_cells cmid) R.reverse,
            depth := R.depth } := by
      simp only [ReversibleColoring.retain_bounds]
      rw [if_neg hlenb, hcmid, hfil]
    have hwfmid : WFc n cmid := ⟨hwfR.perm, hwf0.mono, hwf0.bounded⟩
    have hcuts := cutOf_congr hwfmid hwf0 rfl
    have hspans2 : ∀ j, j < R0.coloring.len →
        (((Coloring.sort_cells cmid).elements.take (R0.coloring.cutOf (j + 1))).drop
          (R0.coloring.cutOf j)).Perm (R0.coloring.cellAt j) := by
      intro j hj
      have hjmid : j < cmid.len := by
        unfold Coloring.len at hj ⊢
        exact hj
      have h1 := hwfmid.sort_cells_slice_perm (Nat.le_succ j)
        (show j + 1 ≤ cmid.len from hjmid)
      rw [hcuts (j + 1), hcuts j] at h1
      exact h1.trans (hsp j hj)
    have hsc2 : ∀ j, j < (Coloring.sort_cells cmid).len →
        ((Coloring.sort_cells cmid).cellAt j).Sorted (· ≤ ·) := by
      intro j hj
      have hjm : j < cmid.len := by
        rw [WFc.sort_cells_len] at hj
        exact hj
      rw [hwfmid.sort_cells_cellAt hjm]
      exact sortNat_sorted _
    have helems : (Coloring.sort_cells cmid).elements = R0.coloring.elements :=
      elements_eq_of_spans hwf0 hwfmid.sort_cells_wf rfl hspans2 hs0 hsc2
    have hbnds : (Coloring.sort_cells cmid).bounds = R0.coloring.bounds := by
      rw [hcmid]
      rfl
    have hcol : (R.retain_bounds (fun b => decide (b.depth ≤ R.depth - 1))).coloring
        = Coloring.sort_cells cmid := by
      rw [hretain]
    rw [hcol]
    simp only [Coloring.beqSrc]
    rw [helems, hbnds]
    simp

theorem C4_restore_after_depth_preserving_ops_witness :
    ((((ReversibleColoring.newOf 2).begin.individualize 0).restore 1).beqSrc
      (ReversibleColoring.newOf 2)) = true :=
  C4_restore_after_depth_preserving_ops colInv_newOf_two (by decide) (by decide)
    (DepthOps.individualize 0 (by decide) DepthOps.refl)

/-- C10: during canonize with a refinement hook that preserves the coloring
invariants and the depth, the pruning step never panics: whenever a leaf
image collides with a stored one, the longest common prefix is strictly
shorter than the current path, |path| - prefix_len - 1 does not underflow,
and the restore amount never exceeds the depth. -/
theorem C10_prune_no_panic {C M : Type} [LinearOrder C] [LinearOrder M] [Inhabited C]
    {G : Capability C M} (hh : HookOK G.n G.hook) (fuel : Nat) :
    canonizeFuel G fuel ≠ CanonOut.panicked 1 := by
  obtain ⟨hwfm, hsorts⟩ := wf_from_map G.n G.initColoring
  have hroot : ColInv G.n
      (ReversibleColoring.from_coloring G.n (Coloring.from_map G.n G.initColoring)) :=
    colInv_from_coloring hwfm hsorts
  have hrootN : NInv G.n (Node.root
      (ReversibleColoring.from_coloring G.n (Coloring.from_map G.n G.initColoring))) :=
    ⟨hroot, rfl, by intro u hu; simp [Node.root] at hu⟩
  unfold canonizeFuel
  dsimp only
  cases hleaf : (Node.root (ReversibleColoring.from_coloring G.n
      (Coloring.from_map G.n G.initColoring))).into_first_child_leaf G.hook fuel with
  | none =>
    simp
  | some leaf =>
    dsimp only
    obtain ⟨hleafN, _⟩ := first_child_leaf_spec hh fuel _ leaf hrootN hleaf
    apply canonLoop_no_panic1 hh fuel (some leaf) []
    intro nd hnd
    have hndeq : nd = leaf := (Option.some.inj hnd).symm
    subst hndeq
    refine ⟨hleafN, ?_⟩
    intro e he
    simp at he

theorem C10_prune_no_panic_witness :
    canonizeFuel (⟨2, [0, 0], id, fun p => p⟩ : Capability Nat (List Nat)) 10
      ≠ CanonOut.panicked 1 :=
  C10_prune_no_panic (fun R h => ⟨h, rfl⟩) 10

/-- A rigid two-element structure: a single directed edge from element 1 to
element 0, with the out-degree initial coloring and the identity refinement
hook; the image of a labeling p is the relabeled edge [p 1, p 0]. -/
def edgeCap : Capability Nat (List Nat) :=
  { n := 2, initColoring := [0, 1], hook := id,
    am := fun p => [p.getD 1 0, p.getD 0 0] }

/-- C2 does not hold as stated: for the rigid directed-edge structure above —
whose hook is harmless, whose image map is injective on the two labelings (so
the structure has no nontrivial automorphism and every coloring is invariant
under automorphisms) — canonize returns image [1, 0], yet relabeling by the
transposition gives the strictly smaller image [0, 1]: the returned image is
not the minimum over all relabelings of the universe. -/
theorem C2_not_global_minimum :
    HookOK 2 edgeCap.hook ∧
    (∀ σ ∈ [[0, 1], [1, 0]], edgeCap.am σ = edgeCap.am [0, 1] → σ = [0, 1]) ∧
    [1, 0].Perm (List.range 2) ∧
    canonizeFuel edgeCap 10 = CanonOut.ok [1, 0] [0, 1] ∧
    edgeCap.am [1, 0] = [0, 1] ∧
    ¬ (([1, 0] : List Nat) ≤ [0, 1]) :=
  ⟨fun R h => ⟨h, rfl⟩, by decide, by decide, by decide, by decide, by decide⟩

theorem C2_min_among_evaluated_witness :
    (∀ e ∈ ([(5, ([], [0]))] : List (Nat × (List Nat × List Nat))), 5 ≤ e.1) ∧
    (∀ nd perm, (none : Option Node) = some nd →
      nd.coloring.as_permutation = some perm →
        5 ≤ (⟨1, [0], id, fun _ => 5⟩ : Capability Nat Nat).am perm) :=
  C2_min_among_evaluated (⟨1, [0], id, fun _ => 5⟩ : Capability Nat Nat) 1 none
    [(5, ([], [0]))] (by decide)
    (show canonLoop (⟨1, [0], id, fun _ => 5⟩ : Capability Nat Nat) 1 none
      [(5, ([], [0]))] = CanonOut.ok 5 [0] by decide)

end NF
